import Mathlib

/-!
Verification of `open-watchlist-pages.py` from the wikipedia-scripts repository.

The file embeds the three core components of the script:
* the watchlist scanner (`WatchlistParser.handle_starttag` / `handle_data`),
  modelled as a pure transition function over a stream of start-tag and
  text-data events (the HTML tokenisation itself is performed by the external
  `html.parser` library and is out of scope, per the design notes of the spec);
* the URL query rewriter (`get_query_parameters`, `set_query_parameters`,
  `remove_query_parameter`, `set_query_parameter`), together with the parts of
  CPython 3.11 `urllib.parse` they call;
* the persistence layer (`Database.ensure_tables_exist`,
  `Database.add_watchlist_page`, `Database.add_page_open`), modelled as pure
  operations on an explicit store state (SQLite itself is external; the SQL
  statements used by the script are modelled by their documented semantics).

Python exceptions are modelled with `Except`; an exception discards the
in-progress state, matching how the script consumes the parser (a raise inside
`feed` aborts the whole scan before `watchlist_entries` is read).
-/

namespace Wiki

/-- Python truthiness of an `Optional[bool]` value: `None` and `False` are falsy. -/
def pyTruthy : Option Bool → Bool
  | none => false
  | some b => b

/-- Python exceptions raised by the modelled code. -/
inductive PyErr where
  /-- `raise Exception(msg)` in `WatchlistParser`. -/
  | exception (msg : String)
  /-- `IndexError`: `self.watchlist_entries[-1]` on an empty list. -/
  | indexError
  /-- `TypeError`: `WIKIPEDIA_BASE_URL + None` when the `href` attribute is absent. -/
  | typeError
  /-- `KeyError`: `dict.pop(name)` when `name` is not a key. -/
  | keyError
  /-- `ValueError` from `urllib.parse` (strict query parsing, invalid IPv6 netloc). -/
  | valueError (info : List Char)
  /-- `sqlite3.OperationalError` (creating an existing table, missing table). -/
  | operationalError (info : String)
  /-- `sqlite3.IntegrityError` (primary-key violation on a plain `INSERT`). -/
  | integrityError (info : String)
deriving Repr, DecidableEq

/-- `get_attribute(attributes, name)` from the script: the value of the first
attribute with the given name, or `None`. -/
def get_attribute (attributes : List (String × String)) (name : String) :
    Option String :=
  match attributes with
  | [] => none
  | (n, v) :: rest => if n = name then some v else get_attribute rest name

/-- `has_attribute(attributes, name)` from the script. -/
def has_attribute (attributes : List (String × String)) (name : String) : Bool :=
  (get_attribute attributes name).isSome

/-- Python `str.split(sep)` for a one-character separator, over the character
list of the string: splits at every occurrence, keeping empty pieces
(`"a  b".split(" ") == ["a", "", "b"]`, `"".split(" ") == [""]`). -/
def splitChar (c : Char) : List Char → List (List Char)
  | [] => [[]]
  | x :: xs =>
    if x = c then
      [] :: splitChar c xs
    else
      match splitChar c xs with
      | [] => [[x]]
      | ys :: rest => (x :: ys) :: rest

/-- `has_class(attributes, name)` from the script: the `class` attribute is
split on single spaces and searched; a missing or empty `class` attribute is
falsy. -/
def has_class (attributes : List (String × String)) (name : String) : Bool :=
  match get_attribute attributes "class" with
  | some c =>
    if c ≠ "" then (splitChar ' ' c.toList).contains name.toList else false
  | none => false

/-- `WIKIPEDIA_BASE_URL` from the script. -/
def WIKIPEDIA_BASE_URL : String := "https://en.wikipedia.org"

/-- One row of the change list (`WatchlistEntry` in the script).  `__init__`
sets every optional field to `None`; note that `handle_starttag` assigns a new
`user_link` attribute while `__init__` declares `user_url`, so both fields
exist and `user_url` is never written. -/
structure WatchlistEntry where
  page_title : Option String
  history_url : Option String
  user : Option String
  user_url : Option String
  user_link : Option String
  diff : Option String
  seen : Option Bool
deriving Repr, DecidableEq

/-- `WatchlistEntry.__init__(page_title)`. -/
def mkEntry (page_title : Option String) : WatchlistEntry :=
  ⟨page_title, none, none, none, none, none, none⟩

/-- The mutable state of `WatchlistParser` (`printing_data` is never used by
the handlers and is kept only for completeness). -/
structure ParserState where
  printing_data : Bool
  watchlist_entries : List WatchlistEntry
  collecting_diff : Bool
  next_seen : Option Bool
  skipping_log_action : Bool
deriving Repr, DecidableEq

/-- `WatchlistParser.__init__`. -/
def initState : ParserState :=
  ⟨false, [], false, none, false⟩

/-- Message of the exception raised for a line without a seen classification. -/
def lineMsg : String :=
  "Should not have a line that does not define if it has been seen or not."

/-- Message of the exception raised for an entry with an unknown seen state. -/
def seenMsg : String :=
  "Should not have unknown \"seen\" about an entry."

/-- The `mw-changeslist-line` block at the top of `handle_starttag` (lines
112-124 of the script).  The `logging.warning` call for log actions is a pure
side effect and is not modelled. -/
def lineBlock (s : ParserState) (attributes : List (String × String)) :
    Except PyErr ParserState :=
  if has_class attributes "mw-changeslist-line" then
    if has_attribute attributes "data-mw-logaction" then
      .ok { s with skipping_log_action := true }
    else if has_class attributes "mw-changeslist-line-watched" then
      .ok { s with next_seen := some false, skipping_log_action := false }
    else if has_class attributes "mw-changeslist-line-not-watched" then
      .ok { s with next_seen := some true, skipping_log_action := false }
    else
      .error (.exception lineMsg)
  else
    .ok s

/-- The `mw-changeslist-history` block of `handle_starttag` (lines 127-133).
The script appends the entry, then computes `WIKIPEDIA_BASE_URL +
get_attribute(attributes, 'href')` (a `TypeError` when `href` is absent, raised
before the seen check), then raises if `next_seen` is `None`, and otherwise
stores the seen flag and resets `next_seen`. -/
def historyBlock (s : ParserState) (attributes : List (String × String)) :
    Except PyErr ParserState :=
  if has_class attributes "mw-changeslist-history" then
    match get_attribute attributes "href" with
    | none => .error .typeError
    | some href =>
      if s.next_seen = none then
        .error (.exception seenMsg)
      else
        .ok { s with
          watchlist_entries := s.watchlist_entries ++
            [{ mkEntry (get_attribute attributes "title") with
                history_url := some (WIKIPEDIA_BASE_URL ++ href),
                seen := s.next_seen }],
          next_seen := none }
  else
    .ok s

/-- The `mw-userlink` block of `handle_starttag` (lines 134-136): mutate the
most recently appended entry; `[-1]` on an empty list is an `IndexError`. -/
def userlinkBlock (s : ParserState) (attributes : List (String × String)) :
    Except PyErr ParserState :=
  if has_class attributes "mw-userlink" then
    match s.watchlist_entries.getLast? with
    | none => .error .indexError
    | some last =>
      .ok { s with
        watchlist_entries := s.watchlist_entries.dropLast ++
          [{ last with
              user := get_attribute attributes "title",
              user_link := get_attribute attributes "href" }] }
  else
    .ok s

/-- The `mw-diff-bytes` block of `handle_starttag` (lines 137-138). -/
def diffBytesBlock (s : ParserState) (attributes : List (String × String)) :
    ParserState :=
  if has_class attributes "mw-diff-bytes" then
    { s with collecting_diff := true }
  else
    s

/-- The part of `handle_starttag` after the line block: the
`if self.skipping_log_action: return` check, then the history, user-link and
byte-delta blocks. -/
def afterLineBlock (s1 : ParserState) (attributes : List (String × String)) :
    Except PyErr ParserState :=
  if s1.skipping_log_action then
    .ok s1
  else
    (historyBlock s1 attributes).bind (fun s2 =>
      (userlinkBlock s2 attributes).bind (fun s3 =>
        .ok (diffBytesBlock s3 attributes)))

/-- `WatchlistParser.handle_starttag` (the tag name is never inspected).  The
`if self.skipping_log_action: return` check sits between the line block and
the entry-creating blocks. -/
def handle_starttag (s : ParserState) (attributes : List (String × String)) :
    Except PyErr ParserState :=
  (lineBlock s attributes).bind (fun s1 => afterLineBlock s1 attributes)

/-- `WatchlistParser.handle_data`. -/
def handle_data (s : ParserState) (data : String) : Except PyErr ParserState :=
  if s.collecting_diff then
    match s.watchlist_entries.getLast? with
    | none => .error .indexError
    | some last =>
      .ok { s with
        watchlist_entries := s.watchlist_entries.dropLast ++
          [{ last with diff := some data }],
        collecting_diff := false }
  else
    .ok s

/-- One event of the markup-fragment stream handed to the parser by
`html.parser` (design notes of the spec: the scanner is a fold over a sequence
of start-tag and text-data events). -/
inductive Event where
  | start (attributes : List (String × String))
  | data (text : String)
deriving Repr, DecidableEq

/-- Dispatch one event to the matching handler. -/
def stepEvent (s : ParserState) : Event → Except PyErr ParserState
  | .start attributes => handle_starttag s attributes
  | .data text => handle_data s text

/-- Run the parser over a list of events from a given state; the first raised
exception aborts the scan. -/
def runFrom (s : ParserState) : List Event → Except PyErr ParserState
  | [] => .ok s
  | e :: es =>
    match stepEvent s e with
    | .ok s1 => runFrom s1 es
    | .error err => .error err

/-- Feed a whole fragment to a fresh parser (`WatchlistParser()` + `feed`). -/
def scan (events : List Event) : Except PyErr ParserState :=
  runFrom initState events

/-- The seen filter of `open_pages` (line 282 of the script): `if entry.seen:`
skips the entry as already seen, otherwise (budget permitting) the latest
unseen difference of the page is fetched and opened. -/
def entrySkippedAsSeen (e : WatchlistEntry) : Bool :=
  pyTruthy e.seen

/-! ### Change-list lines

A rendered change list is a sequence of lines; each line starts with an
element carrying the `mw-changeslist-line` class and its remaining events
carry no further line boundary.  Several scanner claims are stated over this
structure. -/

/-- An event that opens a new change-list line. -/
def isLineBoundary : Event → Bool
  | .start attributes => has_class attributes "mw-changeslist-line"
  | .data _ => false

/-- One change-list line: its boundary attributes and the events inside it. -/
structure ChangeLine where
  boundary : List (String × String)
  inner : List Event
deriving Repr, DecidableEq

/-- The event stream of one line. -/
def ChangeLine.events (l : ChangeLine) : List Event :=
  .start l.boundary :: l.inner

/-- Well-formedness: the boundary carries the line class and no inner event is
another line boundary. -/
def ChangeLine.wf (l : ChangeLine) : Bool :=
  has_class l.boundary "mw-changeslist-line" &&
    l.inner.all (fun e => !isLineBoundary e)

/-- A line carrying the log-action marker attribute. -/
def ChangeLine.isLog (l : ChangeLine) : Bool :=
  has_attribute l.boundary "data-mw-logaction"

/-- The event stream of a sequence of lines. -/
def linesEvents (ls : List ChangeLine) : List Event :=
  (ls.map ChangeLine.events).flatten

/-- The classification-relevant projection of an entry: its page title and its
seen flag. -/
def entryKey (e : WatchlistEntry) : Option String × Option Bool :=
  (e.page_title, e.seen)

/-- Titles and seen flags of the entries produced by an accepted scan. -/
def scanKeys (events : List Event) :
    Except PyErr (List (Option String × Option Bool)) :=
  (scan events).map (fun s => s.watchlist_entries.map entryKey)

/-! ### History store

`Database` wraps a SQLite connection.  The row contents of the three tables
are modelled directly; the clock (`get_iso_date`) is an external collaborator,
so timestamps are passed explicitly.  The `if self.connection is None` guards
correspond to operating without an open connection; the modelled operations
are those performed on an open connection. -/

/-- Rows of the three tables of `open-watchlist-pages.db`. -/
structure DBState where
  page : List String
  page_open : List (String × String)
  watchlist_page : List (String × String)
deriving Repr, DecidableEq

/-- `INSERT OR IGNORE INTO page VALUES (?)`. -/
def insertOrIgnorePage (db : DBState) (title : String) : DBState :=
  if db.page.contains title then db
  else { db with page := db.page ++ [title] }

/-- `INSERT INTO watchlist_page VALUES (?, ?) ON CONFLICT (name) DO UPDATE SET
date=?`: update the date of an existing row for the name, else append a new
row. -/
def upsertWatchlistRow (rows : List (String × String)) (title now : String) :
    List (String × String) :=
  if rows.any (fun r => r.1 == title) then
    rows.map (fun r => if r.1 == title then (r.1, now) else r)
  else
    rows ++ [(title, now)]

/-- `Database.add_watchlist_page` on an open connection, with the timestamp
produced by `get_iso_date` passed in. -/
def add_watchlist_page (db : DBState) (title now : String) : DBState :=
  let db1 := insertOrIgnorePage db title
  { db1 with watchlist_page := upsertWatchlistRow db1.watchlist_page title now }

/-- `Database.add_page_open` on an open connection: a plain `INSERT` into
`page_open`, whose composite primary key makes a duplicate (name, date) pair
an `IntegrityError`. -/
def add_page_open (db : DBState) (title now : String) : Except PyErr DBState :=
  let db1 := insertOrIgnorePage db title
  if db1.page_open.contains (title, now) then
    .error (.integrityError "UNIQUE constraint failed: page_open.name, page_open.date")
  else
    .ok { db1 with page_open := db1.page_open ++ [(title, now)] }

/-! ### Schema management -/

/-- The schema-level state of the SQLite file: which tables and which indexes
exist. -/
structure SchemaState where
  tables : List String
  indexes : List String
deriving Repr, DecidableEq

/-- `CREATE TABLE name (...)`: an `OperationalError` if the table exists. -/
def createTable (s : SchemaState) (name : String) : Except PyErr SchemaState :=
  if s.tables.contains name then
    .error (.operationalError ("table " ++ name ++ " already exists"))
  else
    .ok { s with tables := s.tables ++ [name] }

/-- `CREATE INDEX IF NOT EXISTS index ON table (...)`: a no-op if the index
exists, an `OperationalError` if the table is missing. -/
def createIndexIfNotExists (s : SchemaState) (index table : String) :
    Except PyErr SchemaState :=
  if s.indexes.contains index then
    .ok s
  else if s.tables.contains table then
    .ok { s with indexes := s.indexes ++ [index] }
  else
    .error (.operationalError ("no such table: " ++ table))

/-- `Database.ensure_tables_exist` on an open connection: query
`sqlite_master` for a table named `page`; when absent, create the three
tables; then issue the two `CREATE INDEX IF NOT EXISTS` statements. -/
def ensure_tables_exist (s : SchemaState) : Except PyErr SchemaState := do
  let s1 ←
    if s.tables.contains "page" then
      pure s
    else do
      let a ← createTable s "page"
      let b ← createTable a "page_open"
      createTable b "watchlist_page"
  let s2 ← createIndexIfNotExists s1 "page_name_index" "page"
  createIndexIfNotExists s2 "page_open_name_date_index" "page_open"

/-- `Database.__enter__`: connect, then run `ensure_tables_exist` — on every
open, not only the first. -/
def openDatabase (s : SchemaState) : Except PyErr SchemaState :=
  ensure_tables_exist s

/-! ## General lemmas about the scanner -/

@[simp]
theorem except_bind_ok {α β ε : Type} (a : α) (f : α → Except ε β) :
    (Except.ok a).bind f = f a := rfl

@[simp]
theorem except_bind_error {α β ε : Type} (e : ε) (f : α → Except ε β) :
    (Except.error e : Except ε α).bind f = .error e := rfl

@[simp]
theorem except_monad_bind_ok {α β ε : Type} (a : α) (f : α → Except ε β) :
    (Except.ok a >>= f) = f a := rfl

@[simp]
theorem except_monad_bind_error {α β ε : Type} (e : ε) (f : α → Except ε β) :
    ((Except.error e : Except ε α) >>= f) = .error e := rfl

@[simp]
theorem except_pure_eq_ok {α ε : Type} (a : α) :
    (pure a : Except ε α) = .ok a := rfl

theorem runFrom_append (s : ParserState) (xs ys : List Event) :
    runFrom s (xs ++ ys) = (runFrom s xs).bind (fun s1 => runFrom s1 ys) := by
  induction xs generalizing s with
  | nil => simp [runFrom]
  | cons e es ih =>
    simp only [List.cons_append, runFrom]
    cases stepEvent s e with
    | ok s1 => exact ih s1
    | error err => rfl

theorem lineBlock_ok_fields {s s1 : ParserState} {attrs : List (String × String)}
    (h : lineBlock s attrs = .ok s1) :
    s1.watchlist_entries = s.watchlist_entries ∧
    s1.collecting_diff = s.collecting_diff := by
  unfold lineBlock at h
  split at h <;> [skip; (injection h with h; subst h; exact ⟨rfl, rfl⟩)]
  split at h
  · injection h with h; subst h; exact ⟨rfl, rfl⟩
  split at h
  · injection h with h; subst h; exact ⟨rfl, rfl⟩
  split at h
  · injection h with h; subst h; exact ⟨rfl, rfl⟩
  · exact absurd h (by simp)

theorem historyBlock_entries {s s1 : ParserState} {attrs : List (String × String)}
    (h : historyBlock s attrs = .ok s1) :
    s1.watchlist_entries = s.watchlist_entries ∨
    ∃ e, s1.watchlist_entries = s.watchlist_entries ++ [e] := by
  unfold historyBlock at h
  split at h
  · split at h
    · exact absurd h (by simp)
    · split at h
      · exact absurd h (by simp)
      · injection h with h; subst h
        exact .inr ⟨_, rfl⟩
  · injection h with h; subst h; exact .inl rfl

theorem userlinkBlock_entries {s s1 : ParserState} {attrs : List (String × String)}
    (h : userlinkBlock s attrs = .ok s1) :
    s1.watchlist_entries = s.watchlist_entries ∨
    ∃ last f, s.watchlist_entries.getLast? = some last ∧
      s1.watchlist_entries = s.watchlist_entries.dropLast ++ [f] ∧
      f.seen = last.seen ∧ f.page_title = last.page_title ∧ f.diff = last.diff := by
  unfold userlinkBlock at h
  split at h
  · split at h
    · exact absurd h (by simp)
    · rename_i last hg
      injection h with h; subst h
      exact .inr ⟨last, _, hg, rfl, rfl, rfl, rfl⟩
  · injection h with h; subst h; exact .inl rfl

theorem handle_data_entries {s s1 : ParserState} {text : String}
    (h : handle_data s text = .ok s1) :
    s1.watchlist_entries = s.watchlist_entries ∨
    ∃ last f, s.watchlist_entries.getLast? = some last ∧
      s1.watchlist_entries = s.watchlist_entries.dropLast ++ [f] ∧
      f.seen = last.seen ∧ f.page_title = last.page_title := by
  unfold handle_data at h
  split at h
  · split at h
    · exact absurd h (by simp)
    · rename_i last hg
      injection h with h; subst h
      exact .inr ⟨last, _, hg, rfl, rfl, rfl⟩
  · injection h with h; subst h; exact .inl rfl

/-- The errors a `lineBlock` can raise. -/
theorem lineBlock_error {s : ParserState} {attrs : List (String × String)}
    {err : PyErr} (h : lineBlock s attrs = .error err) :
    err = .exception lineMsg := by
  unfold lineBlock at h
  split at h
  · split at h
    · simp at h
    split at h
    · simp at h
    split at h
    · simp at h
    · injection h with h; exact h.symm
  · simp at h

/-- The errors a `historyBlock` can raise. -/
theorem historyBlock_error {s : ParserState} {attrs : List (String × String)}
    {err : PyErr} (h : historyBlock s attrs = .error err) :
    err = .typeError ∨ err = .exception seenMsg := by
  unfold historyBlock at h
  split at h
  · split at h
    · injection h with h; exact .inl h.symm
    · split at h
      · injection h with h; exact .inr h.symm
      · simp at h
  · simp at h

/-- `userlinkBlock` raises only from an empty entry list. -/
theorem userlinkBlock_error {s : ParserState} {attrs : List (String × String)}
    {err : PyErr} (h : userlinkBlock s attrs = .error err) :
    err = .indexError ∧ s.watchlist_entries = [] := by
  unfold userlinkBlock at h
  split at h
  · split at h
    · rename_i hg
      injection h with h
      exact ⟨h.symm, List.getLast?_eq_none_iff.mp hg⟩
    · simp at h
  · simp at h

/-- `handle_data` raises only from an empty entry list. -/
theorem handle_data_error {s : ParserState} {text : String}
    {err : PyErr} (h : handle_data s text = .error err) :
    err = .indexError ∧ s.watchlist_entries = [] := by
  unfold handle_data at h
  split at h
  · split at h
    · rename_i hg
      injection h with h
      exact ⟨h.symm, List.getLast?_eq_none_iff.mp hg⟩
    · simp at h
  · simp at h

/-- Entries are never removed: a scanner step keeps the entry list nonempty. -/
theorem stepEvent_ok_ne_nil {s s1 : ParserState} {e : Event}
    (hne : s.watchlist_entries ≠ [])
    (h : stepEvent s e = .ok s1) : s1.watchlist_entries ≠ [] := by
  cases e with
  | data text =>
    rcases handle_data_entries h with heq | ⟨last, f, _, heq, _⟩
    · rw [heq]; exact hne
    · rw [heq]; simp
  | start attrs =>
    replace h : handle_starttag s attrs = .ok s1 := h
    unfold handle_starttag at h
    cases hl : lineBlock s attrs with
    | error err => rw [hl] at h; exact absurd h (by simp)
    | ok sa =>
      rw [hl, except_bind_ok] at h
      have hfa := (lineBlock_ok_fields hl).1
      unfold afterLineBlock at h
      split at h
      · injection h with h; subst h; rw [hfa]; exact hne
      · cases hh : historyBlock sa attrs with
        | error err => rw [hh] at h; exact absurd h (by simp)
        | ok sb =>
          rw [hh, except_bind_ok] at h
          have hb : sb.watchlist_entries ≠ [] := by
            rcases historyBlock_entries hh with heq | ⟨x, heq⟩ <;>
              rw [heq] <;> [(rw [hfa]; exact hne); simp]
          cases hu : userlinkBlock sb attrs with
          | error err => rw [hu] at h; exact absurd h (by simp)
          | ok sc =>
            rw [hu, except_bind_ok] at h
            injection h with h; subst h
            have hc : sc.watchlist_entries ≠ [] := by
              rcases userlinkBlock_entries hu with heq | ⟨last, f, _, heq, _⟩ <;>
                rw [heq] <;> [exact hb; simp]
            unfold diffBytesBlock
            split <;> exact hc

/-- An `IndexError` is only raised from an empty entry list. -/
theorem stepEvent_no_indexError {s : ParserState} {e : Event}
    (hne : s.watchlist_entries ≠ []) :
    stepEvent s e ≠ .error .indexError := by
  intro h
  cases e with
  | data text =>
    replace h : handle_data s text = .error .indexError := h
    exact hne (handle_data_error h).2
  | start attrs =>
    replace h : handle_starttag s attrs = .error .indexError := h
    unfold handle_starttag at h
    cases hl : lineBlock s attrs with
    | error err =>
      rw [hl, except_bind_error] at h
      injection h with h
      subst h
      exact absurd (lineBlock_error hl) (by simp)
    | ok sa =>
      rw [hl, except_bind_ok] at h
      have hfa := (lineBlock_ok_fields hl).1
      unfold afterLineBlock at h
      split at h
      · simp at h
      · cases hh : historyBlock sa attrs with
        | error err =>
          rw [hh, except_bind_error] at h
          injection h with h
          subst h
          rcases historyBlock_error hh with h1 | h1 <;> simp at h1
        | ok sb =>
          rw [hh, except_bind_ok] at h
          have hb : sb.watchlist_entries ≠ [] := by
            rcases historyBlock_entries hh with heq | ⟨x, heq⟩ <;>
              rw [heq] <;> [(rw [hfa]; exact hne); simp]
          cases hu : userlinkBlock sb attrs with
          | error err =>
            rw [hu, except_bind_error] at h
            injection h with h
            subst h
            exact hb (userlinkBlock_error hu).2
          | ok sc =>
            rw [hu, except_bind_ok] at h
            simp at h

/-! ## Claim C10 -/

/-- A parser state holding exactly one already-created entry. -/
def oneEntryState : ParserState :=
  { printing_data := false,
    watchlist_entries := [mkEntry (some "Earth")],
    collecting_diff := false,
    next_seen := none,
    skipping_log_action := false }

/-- C10: the user-link handler and the post-byte-delta data handler access
`watchlist_entries[-1]` without a guard.  Once at least one entry has been
created (so an entry-creating link marker precedes every later user-link or
byte-delta marker), the access is safe: no continuation of the scan can raise
`IndexError`.  Without that precondition the access fails on the empty entry
list: a fragment starting with a user-link marker, and a fragment whose
byte-delta marker (and following text) comes before any entry, both raise
`IndexError`. -/
theorem c10_last_entry_access :
    (∀ (s : ParserState) (events : List Event), s.watchlist_entries ≠ [] →
        runFrom s events ≠ .error .indexError) ∧
    runFrom initState [.start [("class", "mw-userlink")]] = .error .indexError ∧
    runFrom initState [.start [("class", "mw-diff-bytes")], .data "+1"] =
      .error .indexError := by
  refine ⟨?_, by rfl, by rfl⟩
  intro s events hne
  induction events generalizing s with
  | nil => simp [runFrom]
  | cons e es ih =>
    rw [runFrom]
    cases hs : stepEvent s e with
    | ok s1 => exact ih s1 (stepEvent_ok_ne_nil hne hs)
    | error err =>
      intro hcontra
      injection hcontra with hcontra
      subst hcontra
      exact stepEvent_no_indexError hne hs

/-- Witness for C10 at a concrete state and fragment. -/
theorem c10_last_entry_access_witness :
    oneEntryState.watchlist_entries ≠ [] ∧
    runFrom oneEntryState [.start [("class", "mw-userlink")]] ≠
      .error .indexError :=
  ⟨by simp [oneEntryState], c10_last_entry_access.1 oneEntryState _ (by simp [oneEntryState])⟩

/-! ## Claim C9 -/

theorem createTable_ok {s s1 : SchemaState} {n : String}
    (h : createTable s n = .ok s1) :
    s1.tables = s.tables ++ [n] ∧ s1.indexes = s.indexes := by
  unfold createTable at h
  split at h
  · simp at h
  · injection h with h; subst h; exact ⟨rfl, rfl⟩

theorem createIndexIfNotExists_tables {s s1 : SchemaState} {i t : String}
    (h : createIndexIfNotExists s i t = .ok s1) : s1.tables = s.tables := by
  unfold createIndexIfNotExists at h
  split at h
  · injection h with h; subst h; rfl
  split at h
  · injection h with h; subst h; rfl
  · simp at h

/-- A database file holding the two tables of an older revision of the script
(no `watchlist_page`), with both indexes already present. -/
def legacySchema : SchemaState :=
  ⟨["page", "page_open"], ["page_name_index", "page_open_name_date_index"]⟩

/-- Counterexample to C9: opening a store whose `page` table exists but whose
`watchlist_page` table does not creates nothing — after the open the
`watchlist_page` table still does not exist. -/
theorem c9_counterexample :
    openDatabase legacySchema = .ok legacySchema ∧
    legacySchema.tables.contains "watchlist_page" = false :=
  ⟨rfl, rfl⟩

/-- C9 (amended): the self-healing check of `ensure_tables_exist`, run on
every open, only tests for the `page` table.  If `page` is absent all three
tables are created, so all three exist afterwards; if `page` is present no
table is created at all, so a state missing only `page_open` or
`watchlist_page` is left unhealed. -/
theorem c9_page_check_only :
    (∀ s : SchemaState, s.tables.contains "page" = false →
      ∀ s1, openDatabase s = .ok s1 →
        "page" ∈ s1.tables ∧ "page_open" ∈ s1.tables ∧
        "watchlist_page" ∈ s1.tables) ∧
    (∀ s s1 : SchemaState, s.tables.contains "page" = true →
      openDatabase s = .ok s1 → s1.tables = s.tables) := by
  constructor
  · intro s hp s1 hopen
    unfold openDatabase ensure_tables_exist at hopen
    rw [hp, if_neg (by simp)] at hopen
    cases h1 : createTable s "page" with
    | error e => simp only [h1, except_monad_bind_error] at hopen; simp at hopen
    | ok a =>
      simp only [h1, except_monad_bind_ok] at hopen
      cases h2 : createTable a "page_open" with
      | error e => simp only [h2, except_monad_bind_error] at hopen; simp at hopen
      | ok b =>
        simp only [h2, except_monad_bind_ok] at hopen
        cases h3 : createTable b "watchlist_page" with
        | error e => simp only [h3, except_monad_bind_error] at hopen; simp at hopen
        | ok c =>
          simp only [h3, except_monad_bind_ok] at hopen
          cases h4 : createIndexIfNotExists c "page_name_index" "page" with
          | error e => simp only [h4, except_monad_bind_error] at hopen; simp at hopen
          | ok d =>
            simp only [h4, except_monad_bind_ok] at hopen
            have hs1 : s1.tables = d.tables := by
              cases h5 : createIndexIfNotExists d "page_open_name_date_index" "page_open" with
              | error e => rw [h5] at hopen; simp at hopen
              | ok f =>
                rw [h5] at hopen
                injection hopen with hopen
                subst hopen
                exact createIndexIfNotExists_tables h5
            rw [hs1, createIndexIfNotExists_tables h4, (createTable_ok h3).1,
              (createTable_ok h2).1, (createTable_ok h1).1]
            simp
  · intro s s1 hp hopen
    unfold openDatabase ensure_tables_exist at hopen
    rw [hp, if_pos rfl] at hopen
    simp only [except_pure_eq_ok, except_monad_bind_ok] at hopen
    cases h4 : createIndexIfNotExists s "page_name_index" "page" with
    | error e => simp only [h4, except_monad_bind_error] at hopen; simp at hopen
    | ok d =>
      simp only [h4, except_monad_bind_ok] at hopen
      cases h5 : createIndexIfNotExists d "page_open_name_date_index" "page_open" with
      | error e => rw [h5] at hopen; simp at hopen
      | ok f =>
        rw [h5] at hopen
        injection hopen with hopen
        subst hopen
        rw [createIndexIfNotExists_tables h5, createIndexIfNotExists_tables h4]

/-- Witness for C9 (amended) at concrete states: a fresh empty store, and a
store that already has the `page` table. -/
theorem c9_page_check_only_witness :
    "watchlist_page" ∈
      (SchemaState.tables
        ⟨["page", "page_open", "watchlist_page"],
         ["page_name_index", "page_open_name_date_index"]⟩) ∧
    (SchemaState.tables ⟨["page", "page_open", "watchlist_page"],
      ["page_name_index", "page_open_name_date_index"]⟩) =
      ["page", "page_open", "watchlist_page"] :=
  ⟨(c9_page_check_only.1 ⟨[], []⟩ rfl _ rfl).2.2,
   c9_page_check_only.2
     ⟨["page", "page_open", "watchlist_page"],
      ["page_name_index", "page_open_name_date_index"]⟩ _ rfl rfl⟩

/-! ## Claim C8 -/

theorem any_false_filter_nil {α : Type} (p : α → Bool) :
    ∀ l : List α, l.any p = false → l.filter p = [] := by
  intro l h
  induction l with
  | nil => rfl
  | cons x xs ih =>
    simp only [List.any_cons, Bool.or_eq_false_iff] at h
    rw [List.filter_cons, if_neg (by simp [h.1])]
    exact ih h.2

theorem filter_map_update (t n : String) :
    ∀ W : List (String × String),
      (W.map (fun r => if r.1 == t then (r.1, n) else r)).filter
          (fun r => r.1 == t) =
        (W.filter (fun r => r.1 == t)).map (fun r => (r.1, n)) := by
  intro W
  induction W with
  | nil => rfl
  | cons r W ih =>
    by_cases hr : (r.1 == t) = true
    · simp only [List.map_cons, List.filter_cons, hr, if_true, ih]
    · have hrb : (r.1 == t) = false := by simpa using hr
      simp only [List.map_cons, List.filter_cons, hrb, if_false, Bool.false_eq_true, ih]

theorem upsert_filter (t n : String) (W : List (String × String))
    (hlen : (W.filter (fun r => r.1 == t)).length ≤ 1) :
    (upsertWatchlistRow W t n).filter (fun r => r.1 == t) = [(t, n)] := by
  unfold upsertWatchlistRow
  cases ha : W.any (fun r => r.1 == t) with
  | false =>
    rw [if_neg (by simp [ha]), List.filter_append, any_false_filter_nil _ W ha]
    simp
  | true =>
    rw [if_pos (by simp [ha]), filter_map_update]
    have hne : W.filter (fun r => r.1 == t) ≠ [] := by
      obtain ⟨x, hx, hpx⟩ := List.any_eq_true.mp ha
      exact List.ne_nil_of_mem (List.mem_filter.mpr ⟨hx, hpx⟩)
    obtain ⟨x, hx⟩ : ∃ x, W.filter (fun r => r.1 == t) = [x] := by
      match hF : W.filter (fun r => r.1 == t) with
      | [] => exact absurd hF hne
      | [x] => exact ⟨x, hF⟩
      | x :: y :: rest => rw [hF] at hlen; simp at hlen
    have hx1 : x.1 = t := by
      have hmem : x ∈ W.filter (fun r => r.1 == t) := by rw [hx]; simp
      simpa using (List.mem_filter.mp hmem).2
    rw [hx]
    simp [hx1]

theorem insertOrIgnorePage_watchlist (d : DBState) (x : String) :
    (insertOrIgnorePage d x).watchlist_page = d.watchlist_page := by
  unfold insertOrIgnorePage
  split <;> rfl

/-- C8: `add_watchlist_page` is an upsert on the page title.  Recording the
same title twice — with the timestamps the two `get_iso_date()` calls
produce, the second (later) call giving `n2` — leaves exactly one
`watchlist_page` row for that title, carrying the later timestamp `n2`:
re-adding an already-present page updates the timestamp instead of creating a
duplicate row.  The starting store is assumed not to already violate the
primary key on `name` (at most one row per title). -/
theorem c8_membership_upsert (db : DBState) (t n1 n2 : String)
    (hwf : (db.watchlist_page.filter (fun r => r.1 == t)).length ≤ 1)
    (_hdiff : n1 ≠ n2) :
    ((add_watchlist_page (add_watchlist_page db t n1) t n2).watchlist_page.filter
      (fun r => r.1 == t)) = [(t, n2)] := by
  simp only [add_watchlist_page, insertOrIgnorePage_watchlist]
  exact upsert_filter t n2 _ (by rw [upsert_filter t n1 _ hwf]; simp)

/-- Witness for C8: an empty store, the title `Foo` and two concrete
timestamps. -/
theorem c8_membership_upsert_witness :
    ((add_watchlist_page
        (add_watchlist_page ⟨[], [], []⟩ "Foo" "2020-01-01T10:00:00-03:00")
        "Foo" "2020-01-02T10:00:00-03:00").watchlist_page.filter
      (fun r => r.1 == "Foo")) = [("Foo", "2020-01-02T10:00:00-03:00")] :=
  c8_membership_upsert ⟨[], [], []⟩ "Foo" _ _ (by simp) (by decide)

/-! ## Claim C1 -/

theorem lineBlock_not_line {s : ParserState} {attrs : List (String × String)}
    (h : has_class attrs "mw-changeslist-line" = false) :
    lineBlock s attrs = .ok s := by
  unfold lineBlock
  rw [if_neg (by simp [h])]

theorem historyBlock_ok_cases {s s1 : ParserState}
    {attrs : List (String × String)} (h : historyBlock s attrs = .ok s1) :
    s1 = s ∨
    (s.next_seen ≠ none ∧ s1.next_seen = none ∧
     s1.skipping_log_action = s.skipping_log_action ∧
     s1.collecting_diff = s.collecting_diff ∧
     ∃ en, en.seen = s.next_seen ∧ en.diff = none ∧
       s1.watchlist_entries = s.watchlist_entries ++ [en]) := by
  unfold historyBlock at h
  split at h
  · split at h
    · simp at h
    · split at h
      · simp at h
      · injection h with h; subst h
        exact .inr ⟨by assumption, rfl, rfl, rfl, _, rfl, rfl, rfl⟩
  · injection h with h; subst h; exact .inl rfl

theorem userlinkBlock_fields {s s1 : ParserState}
    {attrs : List (String × String)} (h : userlinkBlock s attrs = .ok s1) :
    s1.next_seen = s.next_seen ∧
    s1.skipping_log_action = s.skipping_log_action ∧
    s1.collecting_diff = s.collecting_diff := by
  unfold userlinkBlock at h
  split at h
  · split at h
    · simp at h
    · injection h with h; subst h; exact ⟨rfl, rfl, rfl⟩
  · injection h with h; subst h; exact ⟨rfl, rfl, rfl⟩

theorem handle_data_fields {s s1 : ParserState} {text : String}
    (h : handle_data s text = .ok s1) :
    s1.next_seen = s.next_seen ∧
    s1.skipping_log_action = s.skipping_log_action := by
  unfold handle_data at h
  split at h
  · split at h
    · simp at h
    · injection h with h; subst h; exact ⟨rfl, rfl⟩
  · injection h with h; subst h; exact ⟨rfl, rfl⟩

theorem diffBytesBlock_fields (s : ParserState) (attrs : List (String × String)) :
    (diffBytesBlock s attrs).watchlist_entries = s.watchlist_entries ∧
    (diffBytesBlock s attrs).next_seen = s.next_seen ∧
    (diffBytesBlock s attrs).skipping_log_action = s.skipping_log_action := by
  unfold diffBytesBlock
  split <;> exact ⟨rfl, rfl, rfl⟩

/-- Invariant for C1: below index `n` the entry list is arbitrary, at and
above `n` every entry was classified `seen = some b`; the pending
classification is `some b` or consumed; the line is not being skipped. -/
def InvSeen (b : Bool) (n : Nat) (s : ParserState) : Prop :=
  s.skipping_log_action = false ∧
  (s.next_seen = some b ∨ s.next_seen = none) ∧
  n ≤ s.watchlist_entries.length ∧
  ∀ e ∈ s.watchlist_entries.drop n, e.seen = some b

theorem drop_append_new {b : Bool} {n : Nat} {es : List WatchlistEntry}
    {x : WatchlistEntry} (hn : n ≤ es.length)
    (hall : ∀ e ∈ es.drop n, e.seen = some b) (hx : x.seen = some b) :
    ∀ e ∈ (es ++ [x]).drop n, e.seen = some b := by
  intro e he
  rw [List.drop_append_eq_append_drop] at he
  rcases List.mem_append.mp he with h1 | h1
  · exact hall e h1
  · have : n - es.length = 0 := by omega
    rw [this] at h1
    simp at h1
    rw [h1]
    exact hx

theorem drop_mutate_last {b : Bool} {n : Nat} {es : List WatchlistEntry}
    {last f : WatchlistEntry} (hg : es.getLast? = some last)
    (hseen : f.seen = last.seen)
    (hall : ∀ e ∈ es.drop n, e.seen = some b) :
    ∀ e ∈ (es.dropLast ++ [f]).drop n, e.seen = some b := by
  have hne : es ≠ [] := by
    intro hnil; rw [hnil] at hg; simp at hg
  have hlast : last = es.getLast hne := by
    have := List.getLast?_eq_getLast es hne
    rw [hg] at this
    injection this
  have hes : es.dropLast ++ [last] = es := by
    rw [hlast]; exact List.dropLast_append_getLast hne
  intro e he
  rw [List.drop_append_eq_append_drop] at he
  rcases List.mem_append.mp he with h1 | h1
  · have : e ∈ es.drop n := by
      rw [← hes, List.drop_append_eq_append_drop]
      exact List.mem_append.mpr (.inl h1)
    exact hall e this
  · cases hk : n - es.dropLast.length with
    | zero =>
      rw [hk] at h1
      simp at h1
      subst h1
      have hlmem : last ∈ es.drop n := by
        rw [← hes, List.drop_append_eq_append_drop, hk]
        exact List.mem_append.mpr (.inr (by simp))
      rw [hseen]
      exact hall last hlmem
    | succ k =>
      rw [hk] at h1
      simp at h1

theorem afterLineBlock_inv {b : Bool} {n : Nat} {s s1 : ParserState}
    {attrs : List (String × String)} (hinv : InvSeen b n s)
    (h : afterLineBlock s attrs = .ok s1) : InvSeen b n s1 := by
  obtain ⟨hskip, hnext, hlen, hall⟩ := hinv
  unfold afterLineBlock at h
  rw [hskip] at h
  simp only [Bool.false_eq_true, if_false] at h
  cases hh : historyBlock s attrs with
  | error err => rw [hh] at h; simp at h
  | ok sb =>
    rw [hh, except_bind_ok] at h
    have hinvb : InvSeen b n sb := by
      rcases historyBlock_ok_cases hh with rfl | ⟨hne, hn0, hsk, hcd, en, hseen, hdn, hes⟩
      · exact ⟨hskip, hnext, hlen, hall⟩
      · refine ⟨by rw [hsk]; exact hskip, .inr hn0, ?_, ?_⟩
        · rw [hes]; simp; omega
        · rw [hes]
          have hb : en.seen = some b := by
            rcases hnext with hsome | hnone
            · rw [hseen, hsome]
            · exact absurd hnone hne
          exact drop_append_new hlen hall hb
    obtain ⟨hskb, hnextb, hlenb, hallb⟩ := hinvb
    cases hu : userlinkBlock sb attrs with
    | error err => rw [hu] at h; simp at h
    | ok sc =>
      rw [hu, except_bind_ok] at h
      injection h with h
      subst h
      have hinvc : InvSeen b n sc := by
        obtain ⟨hun, hus, huc⟩ := userlinkBlock_fields hu
        rcases userlinkBlock_entries hu with heq | ⟨last, f, hg, heq, hfseen, _⟩
        · exact ⟨by rw [hus]; exact hskb, by rw [hun]; exact hnextb,
            by rw [heq]; exact hlenb, by rw [heq]; exact hallb⟩
        · refine ⟨by rw [hus]; exact hskb, by rw [hun]; exact hnextb, ?_, ?_⟩
          · rw [heq]
            have := List.length_dropLast sb.watchlist_entries
            have hnen : sb.watchlist_entries ≠ [] := by
              intro hnil; rw [hnil] at hg; simp at hg
            have : 1 ≤ sb.watchlist_entries.length :=
              List.length_pos.mpr hnen
            simp
            omega
          · rw [heq]
            exact drop_mutate_last hg hfseen hallb
      obtain ⟨hde, hdn, hds⟩ := diffBytesBlock_fields sc attrs
      obtain ⟨hskc, hnextc, hlenc, hallc⟩ := hinvc
      exact ⟨by rw [hds]; exact hskc, by rw [hdn]; exact hnextc,
        by rw [hde]; exact hlenc, by rw [hde]; exact hallc⟩

theorem inv_step {b : Bool} {n : Nat} {s s1 : ParserState} {e : Event}
    (hinv : InvSeen b n s) (hnb : isLineBoundary e = false)
    (h : stepEvent s e = .ok s1) : InvSeen b n s1 := by
  cases e with
  | data text =>
    replace h : handle_data s text = .ok s1 := h
    obtain ⟨hskip, hnext, hlen, hall⟩ := hinv
    obtain ⟨hdn, hds⟩ := handle_data_fields h
    rcases handle_data_entries h with heq | ⟨last, f, hg, heq, hfseen, _⟩
    · exact ⟨by rw [hds]; exact hskip, by rw [hdn]; exact hnext,
        by rw [heq]; exact hlen, by rw [heq]; exact hall⟩
    · refine ⟨by rw [hds]; exact hskip, by rw [hdn]; exact hnext, ?_, ?_⟩
      · rw [heq]
        have hnen : s.watchlist_entries ≠ [] := by
          intro hnil; rw [hnil] at hg; simp at hg
        have : 1 ≤ s.watchlist_entries.length := List.length_pos.mpr hnen
        simp
        omega
      · rw [heq]
        exact drop_mutate_last hg hfseen hall
  | start attrs =>
    replace h : handle_starttag s attrs = .ok s1 := h
    unfold handle_starttag at h
    rw [lineBlock_not_line (by simpa [isLineBoundary] using hnb),
      except_bind_ok] at h
    exact afterLineBlock_inv hinv h

theorem inv_run {b : Bool} {n : Nat} :
    ∀ (inner : List Event) (s s1 : ParserState),
      (∀ e ∈ inner, isLineBoundary e = false) →
      InvSeen b n s → runFrom s inner = .ok s1 → InvSeen b n s1 := by
  intro inner
  induction inner with
  | nil =>
    intro s s1 _ hinv h
    rw [runFrom] at h
    injection h with h
    subst h
    exact hinv
  | cons e es ih =>
    intro s s1 hnb hinv h
    rw [runFrom] at h
    cases hs : stepEvent s e with
    | error err => rw [hs] at h; simp at h
    | ok sa =>
      rw [hs] at h
      exact ih sa s1 (fun x hx => hnb x (List.mem_cons_of_mem e hx))
        (inv_step hinv (hnb e (List.mem_cons_self e es)) hs) h

/-- C1 (amended): the script maps the markup classes the opposite way from
the claim.  An entry created inside a line carrying the
`mw-changeslist-line-watched` class gets `seen = some false` — it is treated
as having unseen changes and is *not* skipped by `open_pages` (its diff is
opened); an entry created inside a line carrying the
`mw-changeslist-line-not-watched` class gets `seen = some true` — it is
treated as already seen and skipped. -/
theorem c1_watched_class_meaning :
    ∀ (s : ParserState) (l : ChangeLine) (s1 : ParserState),
      l.wf = true → l.isLog = false →
      runFrom s l.events = .ok s1 →
      s.watchlist_entries.length ≤ s1.watchlist_entries.length ∧
      (has_class l.boundary "mw-changeslist-line-watched" = true →
        ∀ e ∈ s1.watchlist_entries.drop s.watchlist_entries.length,
          e.seen = some false ∧ entrySkippedAsSeen e = false) ∧
      (has_class l.boundary "mw-changeslist-line-watched" = false →
        has_class l.boundary "mw-changeslist-line-not-watched" = true →
        ∀ e ∈ s1.watchlist_entries.drop s.watchlist_entries.length,
          e.seen = some true ∧ entrySkippedAsSeen e = true) := by
  intro s l s1 hwf hlog hrun
  unfold ChangeLine.wf at hwf
  rw [Bool.and_eq_true] at hwf
  have hline : has_class l.boundary "mw-changeslist-line" = true := hwf.1
  have hinner : ∀ e ∈ l.inner, isLineBoundary e = false := by
    intro e he
    have := hwf.2
    rw [List.all_eq_true] at this
    simpa using this e he
  unfold ChangeLine.events at hrun
  rw [runFrom] at hrun
  have hmain : ∀ b : Bool,
      (lineBlock s l.boundary =
        .ok { s with next_seen := some b, skipping_log_action := false }) →
      s.watchlist_entries.length ≤ s1.watchlist_entries.length ∧
      ∀ e ∈ s1.watchlist_entries.drop s.watchlist_entries.length,
        e.seen = some b := by
    intro b hlb
    cases hs : stepEvent s (.start l.boundary) with
    | error err => rw [hs] at hrun; simp at hrun
    | ok sa =>
      rw [hs] at hrun
      replace hs : handle_starttag s l.boundary = .ok sa := hs
      unfold handle_starttag at hs
      rw [hlb, except_bind_ok] at hs
      have hinv0 : InvSeen b s.watchlist_entries.length
          { s with next_seen := some b, skipping_log_action := false } :=
        ⟨rfl, .inl rfl, le_refl _, by simp⟩
      have hinva : InvSeen b s.watchlist_entries.length sa :=
        afterLineBlock_inv hinv0 hs
      have := inv_run l.inner sa s1 hinner hinva hrun
      exact ⟨this.2.2.1, this.2.2.2⟩
  refine ⟨?_, ?_, ?_⟩
  · by_cases hw : has_class l.boundary "mw-changeslist-line-watched" = true
    · exact (hmain false (by
        unfold lineBlock
        rw [if_pos (by simp [hline])]
        rw [if_neg (by simp [ChangeLine.isLog] at hlog; simp [hlog])]
        rw [if_pos (by simp [hw])])).1
    · by_cases hnw : has_class l.boundary "mw-changeslist-line-not-watched" = true
      · exact (hmain true (by
          unfold lineBlock
          rw [if_pos (by simp [hline])]
          rw [if_neg (by simp [ChangeLine.isLog] at hlog; simp [hlog])]
          rw [if_neg (by simp [Bool.not_eq_true] at hw; simp [hw])]
          rw [if_pos (by simp [hnw])])).1
      · exfalso
        cases hs : stepEvent s (.start l.boundary) with
        | error err => rw [hs] at hrun; simp at hrun
        | ok sa =>
          replace hs : handle_starttag s l.boundary = .ok sa := hs
          unfold handle_starttag at hs
          unfold lineBlock at hs
          rw [if_pos (by simp [hline])] at hs
          rw [if_neg (by simp [ChangeLine.isLog] at hlog; simp [hlog])] at hs
          rw [if_neg (by simp [Bool.not_eq_true] at hw; simp [hw])] at hs
          rw [if_neg (by simp [Bool.not_eq_true] at hnw; simp [hnw])] at hs
          simp at hs
  · intro hw e he
    have := (hmain false (by
      unfold lineBlock
      rw [if_pos (by simp [hline])]
      rw [if_neg (by simp [ChangeLine.isLog] at hlog; simp [hlog])]
      rw [if_pos (by simp [hw])])).2 e he
    exact ⟨this, by simp [entrySkippedAsSeen, pyTruthy, this]⟩
  · intro hw hnw e he
    have := (hmain true (by
      unfold lineBlock
      rw [if_pos (by simp [hline])]
      rw [if_neg (by simp [ChangeLine.isLog] at hlog; simp [hlog])]
      rw [if_neg (by simp [hw])]
      rw [if_pos (by simp [hnw])])).2 e he
    exact ⟨this, by simp [entrySkippedAsSeen, pyTruthy, this]⟩

/-- Attributes of a change-list line with unseen changes (`watched` class). -/
def watchedLineAttrs : List (String × String) :=
  [("class", "mw-changeslist-line mw-changeslist-line-watched")]

/-- Attributes of a history link creating an entry. -/
def historyAttrs : List (String × String) :=
  [("class", "mw-changeslist-history"), ("title", "Earth"),
   ("href", "/w/index.php?title=Earth&action=history")]

/-- A fragment with one `watched`-class line containing one history link. -/
def c1Fragment : List Event :=
  [.start watchedLineAttrs, .start historyAttrs]

/-- Counterexample to C1 as stated: scanning a fragment whose line carries the
`watched` class produces an entry with `seen = some false`, which
`open_pages` does **not** skip as already seen — not `seen = some true`
(`Watched` / already seen / skipped) as the claim asserts. -/
theorem c1_counterexample :
    (scan c1Fragment).map
        (fun s => s.watchlist_entries.map
          (fun e => (e.seen, entrySkippedAsSeen e))) =
      .ok [(some false, false)] ∧
    ¬ ((scan c1Fragment).map
        (fun s => s.watchlist_entries.map
          (fun e => (e.seen, entrySkippedAsSeen e))) =
      .ok [(some true, true)]) :=
  ⟨rfl, fun hcon => absurd (Except.ok.inj hcon) (by decide)⟩

/-- Witness for C1 (amended) on a concrete watched line. -/
theorem c1_watched_class_meaning_witness :
    (⟨watchedLineAttrs, [.start historyAttrs]⟩ : ChangeLine).wf = true ∧
    (⟨watchedLineAttrs, [.start historyAttrs]⟩ : ChangeLine).isLog = false ∧
    ∀ e ∈ (ParserState.watchlist_entries
        ⟨false, [⟨some "Earth",
          some "https://en.wikipedia.org/w/index.php?title=Earth&action=history",
          none, none, none, none, some false⟩], false, none, false⟩).drop
        (initState.watchlist_entries.length),
      e.seen = some false ∧ entrySkippedAsSeen e = false :=
  ⟨by decide, by decide,
   (c1_watched_class_meaning initState ⟨watchedLineAttrs, [.start historyAttrs]⟩
      _ (by decide) (by decide) rfl).2.1 (by decide)⟩

/-! ## Claim C6 -/

/-- A line-boundary marker carrying neither the `watched` class nor the
`not-watched` class and no log-action attribute (the first ParseError
condition of the claim). -/
def lineLacksClassification (attrs : List (String × String)) : Prop :=
  has_class attrs "mw-changeslist-line" = true ∧
  has_attribute attrs "data-mw-logaction" = false ∧
  has_class attrs "mw-changeslist-line-watched" = false ∧
  has_class attrs "mw-changeslist-line-not-watched" = false

/-- An entry-creating link marker (history class with its `href` attribute,
per the input-markup contract) reached on a non-skipped line while the
pending seen classification is still unresolved (the second ParseError
condition of the claim). -/
def entryWhileUnknown (s : ParserState) (attrs : List (String × String)) : Prop :=
  ∃ s1, lineBlock s attrs = .ok s1 ∧ s1.skipping_log_action = false ∧
    has_class attrs "mw-changeslist-history" = true ∧
    (∃ href, get_attribute attrs "href" = some href) ∧
    s1.next_seen = none

/-- The events on which the scanner raises its fatal classification
exceptions. -/
def parseErrorTrigger (s : ParserState) : Event → Prop
  | .start attrs => lineLacksClassification attrs ∨ entryWhileUnknown s attrs
  | .data _ => False

theorem lineBlock_error_iff {s : ParserState} {attrs : List (String × String)}
    {err : PyErr} :
    lineBlock s attrs = .error err ↔
      err = .exception lineMsg ∧ lineLacksClassification attrs := by
  constructor
  · intro h
    have hmsg := lineBlock_error h
    subst hmsg
    unfold lineBlock at h
    refine ⟨rfl, ?_⟩
    unfold lineLacksClassification
    split at h
    · split at h
      · simp at h
      split at h
      · simp at h
      split at h
      · simp at h
      · rename_i h1 h2 h3 h4
        simp at h1 h2 h3 h4
        exact ⟨h1, by simp [h2], h3, h4⟩
    · simp at h
  · intro ⟨hmsg, h1, h2, h3, h4⟩
    subst hmsg
    unfold lineBlock
    rw [if_pos (by simp [h1]), if_neg (by simp [h2]), if_neg (by simp [h3]),
      if_neg (by simp [h4])]

theorem historyBlock_exception_iff {s : ParserState}
    {attrs : List (String × String)} {m : String} :
    historyBlock s attrs = .error (.exception m) ↔
      m = seenMsg ∧ has_class attrs "mw-changeslist-history" = true ∧
        (∃ href, get_attribute attrs "href" = some href) ∧
        s.next_seen = none := by
  unfold historyBlock
  constructor
  · intro h
    split at h
    · rename_i hhc
      split at h
      · exact absurd h (by simp)
      · rename_i href hg
        split at h
        · rename_i hns
          injection h with h
          injection h with h
          exact ⟨h.symm, hhc, ⟨href, hg⟩, hns⟩
        · simp at h
    · simp at h
  · intro ⟨hm, hhc, ⟨href, hg⟩, hns⟩
    subst hm
    rw [if_pos hhc]
    split
    · rename_i hgc
      rw [hgc] at hg
      simp at hg
    · rw [if_pos hns]

/-- Step-level characterisation: `handle_starttag` (and `handle_data`) raise
an `Exception` precisely on the claimed conditions. -/
theorem stepEvent_exception_iff (s : ParserState) (e : Event) :
    (∃ m, stepEvent s e = .error (.exception m)) ↔ parseErrorTrigger s e := by
  cases e with
  | data text =>
    simp only [parseErrorTrigger, iff_false]
    intro ⟨m, hm⟩
    replace hm : handle_data s text = .error (.exception m) := hm
    have := (handle_data_error hm).1
    simp at this
  | start attrs =>
    constructor
    · intro ⟨m, hm⟩
      replace hm : handle_starttag s attrs = .error (.exception m) := hm
      unfold handle_starttag at hm
      cases hl : lineBlock s attrs with
      | error err =>
        rw [hl, except_bind_error] at hm
        injection hm with hm
        subst hm
        exact .inl (lineBlock_error_iff.mp hl).2
      | ok sa =>
        rw [hl, except_bind_ok] at hm
        unfold afterLineBlock at hm
        split at hm
        · simp at hm
        · rename_i hskip
          cases hh : historyBlock sa attrs with
          | error err =>
            rw [hh, except_bind_error] at hm
            injection hm with hm
            subst hm
            obtain ⟨_, hhc, hhref, hns⟩ := historyBlock_exception_iff.mp hh
            exact .inr ⟨sa, hl, by simpa using hskip, hhc, hhref, hns⟩
          | ok sb =>
            rw [hh, except_bind_ok] at hm
            cases hu : userlinkBlock sb attrs with
            | error err =>
              rw [hu, except_bind_error] at hm
              injection hm with hm
              subst hm
              have := (userlinkBlock_error hu).1
              simp at this
            | ok sc =>
              rw [hu, except_bind_ok] at hm
              simp at hm
    · intro htr
      rcases htr with hlack | ⟨s1, hl, hskip, hhc, hhref, hns⟩
      · refine ⟨lineMsg, ?_⟩
        show handle_starttag s attrs = _
        unfold handle_starttag
        rw [lineBlock_error_iff.mpr ⟨rfl, hlack⟩, except_bind_error]
      · refine ⟨seenMsg, ?_⟩
        show handle_starttag s attrs = _
        unfold handle_starttag
        rw [hl, except_bind_ok]
        unfold afterLineBlock
        rw [hskip]
        simp only [Bool.false_eq_true, if_false]
        rw [historyBlock_exception_iff.mpr ⟨rfl, hhc, hhref, hns⟩,
          except_bind_error]

/-- Run-level characterisation of the fatal classification exception. -/
theorem runFrom_exception_iff (s : ParserState) (events : List Event) :
    (∃ m, runFrom s events = .error (.exception m)) ↔
    ∃ p e rest s1, events = p ++ e :: rest ∧ runFrom s p = .ok s1 ∧
      parseErrorTrigger s1 e := by
  induction events generalizing s with
  | nil =>
    constructor
    · intro ⟨m, hm⟩; rw [runFrom] at hm; simp at hm
    · intro ⟨p, e, rest, s1, hdec, _, _⟩
      exact absurd hdec (by simp)
  | cons e es ih =>
    constructor
    · intro ⟨m, hm⟩
      rw [runFrom] at hm
      cases hs : stepEvent s e with
      | error err =>
        rw [hs] at hm
        injection hm with hm
        subst hm
        exact ⟨[], e, es, s, rfl, rfl,
          (stepEvent_exception_iff s e).mp ⟨m, hs⟩⟩
      | ok sa =>
        rw [hs] at hm
        obtain ⟨p, e1, rest, s1, hdec, hrunp, htr⟩ := (ih sa).mp ⟨m, hm⟩
        refine ⟨e :: p, e1, rest, s1, by rw [hdec, List.cons_append], ?_, htr⟩
        rw [runFrom, hs]
        exact hrunp
    · intro ⟨p, e1, rest, s1, hdec, hrunp, htr⟩
      cases p with
      | nil =>
        simp at hdec
        obtain ⟨rfl, rfl⟩ := hdec
        rw [runFrom] at hrunp
        injection hrunp with hrunp
        subst hrunp
        obtain ⟨m, hm⟩ := (stepEvent_exception_iff s e).mpr htr
        exact ⟨m, by rw [runFrom, hm]⟩
      | cons p0 ptail =>
        simp at hdec
        obtain ⟨rfl, hdec⟩ := hdec
        rw [runFrom] at hrunp
        cases hs : stepEvent s e with
        | error err => rw [hs] at hrunp; simp at hrunp
        | ok sa =>
          rw [hs] at hrunp
          obtain ⟨m, hm⟩ := (ih sa).mpr ⟨ptail, e1, rest, s1, hdec, hrunp, htr⟩
          exact ⟨m, by rw [runFrom, hs]; exact hm⟩

/-- Every entry is stored with a resolved classification. -/
theorem stepEvent_classified {s s1 : ParserState} {e : Event}
    (hall : ∀ en ∈ s.watchlist_entries, en.seen ≠ none)
    (h : stepEvent s e = .ok s1) :
    ∀ en ∈ s1.watchlist_entries, en.seen ≠ none := by
  have hmut : ∀ {es : List WatchlistEntry} {last f : WatchlistEntry},
      es.getLast? = some last → f.seen = last.seen →
      (∀ en ∈ es, en.seen ≠ none) → ∀ en ∈ es.dropLast ++ [f], en.seen ≠ none := by
    intro es last f hg hfseen hall2 en hen
    rcases List.mem_append.mp hen with h1 | h1
    · exact hall2 en (List.dropLast_sublist es |>.mem h1)
    · simp at h1
      subst h1
      rw [hfseen]
      exact hall2 last (List.mem_of_mem_getLast? hg)
  cases e with
  | data text =>
    replace h : handle_data s text = .ok s1 := h
    rcases handle_data_entries h with heq | ⟨last, f, hg, heq, hfseen, _⟩
    · rw [heq]; exact hall
    · rw [heq]; exact hmut hg hfseen hall
  | start attrs =>
    replace h : handle_starttag s attrs = .ok s1 := h
    unfold handle_starttag at h
    cases hl : lineBlock s attrs with
    | error err => rw [hl] at h; simp at h
    | ok sa =>
      rw [hl, except_bind_ok] at h
      have ha : ∀ en ∈ sa.watchlist_entries, en.seen ≠ none := by
        rw [(lineBlock_ok_fields hl).1]; exact hall
      unfold afterLineBlock at h
      split at h
      · injection h with h; subst h; exact ha
      · cases hh : historyBlock sa attrs with
        | error err => rw [hh] at h; simp at h
        | ok sb =>
          rw [hh, except_bind_ok] at h
          have hb : ∀ en ∈ sb.watchlist_entries, en.seen ≠ none := by
            rcases historyBlock_ok_cases hh with rfl | ⟨hne, _, _, _, en0, hseen, _, hes⟩
            · exact ha
            · rw [hes]
              intro en hen
              rcases List.mem_append.mp hen with h1 | h1
              · exact ha en h1
              · simp at h1; subst h1; rw [hseen]; exact hne
          cases hu : userlinkBlock sb attrs with
          | error err => rw [hu] at h; simp at h
          | ok sc =>
            rw [hu, except_bind_ok] at h
            injection h with h
            subst h
            have hc : ∀ en ∈ sc.watchlist_entries, en.seen ≠ none := by
              rcases userlinkBlock_entries hu with heq | ⟨last, f, hg, heq, hfseen, _⟩
              · rw [heq]; exact hb
              · rw [heq]; exact hmut hg hfseen hb
            rw [(diffBytesBlock_fields sc attrs).1]
            exact hc

/-- C6: the scanner raises its fatal classification `Exception` exactly when
a line-boundary marker carries neither the `watched` class nor the
`not-watched` class and no log-action attribute, or when an entry-creating
link marker (history class, `href` present) is reached on a non-skipped line
while the pending classification is still unresolved; consequently every
entry of an accepted fragment has `seen ∈ {Watched, NotWatched}` (`some
true` or `some false`, never `none`).  A link marker lacking its `href`
attribute aborts earlier with a `TypeError`, before the classification
check. -/
theorem c6_parse_error_exactly :
    (∀ events : List Event,
      (∃ m, scan events = .error (.exception m)) ↔
      ∃ p e rest s1, events = p ++ e :: rest ∧
        runFrom initState p = .ok s1 ∧ parseErrorTrigger s1 e) ∧
    (∀ events s, scan events = .ok s →
      ∀ en ∈ s.watchlist_entries,
        en.seen = some true ∨ en.seen = some false) := by
  constructor
  · intro events
    exact runFrom_exception_iff initState events
  · intro events s hrun en hen
    have hnn : en.seen ≠ none := by
      have hstep : ∀ (evs : List Event) (s0 sf : ParserState),
          (∀ x ∈ s0.watchlist_entries, x.seen ≠ none) →
          runFrom s0 evs = .ok sf → ∀ x ∈ sf.watchlist_entries, x.seen ≠ none := by
        intro evs
        induction evs with
        | nil =>
          intro s0 sf h0 hr
          rw [runFrom] at hr
          injection hr with hr
          subst hr
          exact h0
        | cons e es ih =>
          intro s0 sf h0 hr
          rw [runFrom] at hr
          cases hs : stepEvent s0 e with
          | error err => rw [hs] at hr; simp at hr
          | ok sa => rw [hs] at hr; exact ih sa sf (stepEvent_classified h0 hs) hr
      exact hstep events initState s (by simp [initState]) hrun en hen
    cases hv : en.seen with
    | none => exact absurd hv hnn
    | some b => cases b with
      | true => exact .inl rfl
      | false => exact .inr rfl

/-- Witness for C6: the fragment of Scenario A's first line is accepted and
its entry is classified. -/
theorem c6_parse_error_exactly_witness :
    (mkEntry (some "Earth")).seen = some true ∨
    WatchlistEntry.seen
      ⟨some "Earth",
       some "https://en.wikipedia.org/w/index.php?title=Earth&action=history",
       none, none, none, none, some false⟩ = some true ∨
    WatchlistEntry.seen
      ⟨some "Earth",
       some "https://en.wikipedia.org/w/index.php?title=Earth&action=history",
       none, none, none, none, some false⟩ = some false :=
  .inr (c6_parse_error_exactly.2 c1Fragment
    ⟨false,
     [⟨some "Earth",
       some "https://en.wikipedia.org/w/index.php?title=Earth&action=history",
       none, none, none, none, some false⟩], false, none, false⟩
    rfl _ (by simp))

/-! ## Claim C4 -/

theorem map_key_mutate {es : List WatchlistEntry} {last f : WatchlistEntry}
    (hg : es.getLast? = some last) (hk : entryKey f = entryKey last) :
    (es.dropLast ++ [f]).map entryKey = es.map entryKey := by
  have hne : es ≠ [] := by
    intro hnil; rw [hnil] at hg; simp at hg
  have hlast : last = es.getLast hne := by
    have := List.getLast?_eq_getLast es hne
    rw [hg] at this
    injection this
  have hes : es.dropLast ++ [last] = es := by
    rw [hlast]; exact List.dropLast_append_getLast hne
  conv_rhs => rw [← hes]
  rw [List.map_append, List.map_append]
  simp [hk]

/-- Simulation relation for C4 between the run that saw a log-action line
(`sA`) and the run that did not (`sB`): matching titles and seen flags, the
same pending classification, and a byte-delta flag that is either
synchronised or was already consumed on the `sA` side (which can only happen
once an entry exists). -/
def SimRel (sA sB : ParserState) : Prop :=
  sA.watchlist_entries.map entryKey = sB.watchlist_entries.map entryKey ∧
  sA.next_seen = sB.next_seen ∧
  (sA.collecting_diff = sB.collecting_diff ∨
    (sA.collecting_diff = false ∧ sB.collecting_diff = true ∧
      sB.watchlist_entries ≠ []))

theorem simRel_refl (s : ParserState) : SimRel s s :=
  ⟨rfl, rfl, .inl rfl⟩

theorem simRel_entries_ne {sA sB : ParserState} (h : SimRel sA sB)
    (hne : sA.watchlist_entries ≠ []) : sB.watchlist_entries ≠ [] := by
  intro hnil
  apply hne
  have := h.1
  rw [hnil] at this
  simpa using List.map_eq_nil_iff.mp this

theorem simRel_entries_ne_rev {sA sB : ParserState} (h : SimRel sA sB)
    (hne : sB.watchlist_entries ≠ []) : sA.watchlist_entries ≠ [] := by
  intro hnil
  apply hne
  have := h.1
  rw [hnil] at this
  simpa using List.map_eq_nil_iff.mp this.symm

theorem handle_data_skip {s : ParserState} {text : String}
    (hc : s.collecting_diff = false) : handle_data s text = .ok s := by
  unfold handle_data
  rw [hc]
  simp

theorem handle_data_write {s : ParserState} {last : WatchlistEntry}
    {text : String} (hc : s.collecting_diff = true)
    (hg : s.watchlist_entries.getLast? = some last) :
    handle_data s text = .ok { s with
      watchlist_entries :=
        s.watchlist_entries.dropLast ++ [{ last with diff := some text }],
      collecting_diff := false } := by
  unfold handle_data
  rw [hc]
  simp only [if_true]
  rw [hg]

theorem last_key_eq {sA sB : ParserState} {lastA lastB : WatchlistEntry}
    (hmap : sA.watchlist_entries.map entryKey = sB.watchlist_entries.map entryKey)
    (hgA : sA.watchlist_entries.getLast? = some lastA)
    (hgB : sB.watchlist_entries.getLast? = some lastB) :
    entryKey lastA = entryKey lastB := by
  have hgma : (sA.watchlist_entries.map entryKey).getLast? =
      some (entryKey lastA) := by
    rw [List.getLast?_map, hgA]; rfl
  have hgmb : (sB.watchlist_entries.map entryKey).getLast? =
      some (entryKey lastB) := by
    rw [List.getLast?_map, hgB]; rfl
  rw [hmap] at hgma
  rw [hgma] at hgmb
  injection hgmb

theorem historyBlock_none {s : ParserState} {attrs : List (String × String)}
    (hc : has_class attrs "mw-changeslist-history" = false) :
    historyBlock s attrs = .ok s := by
  unfold historyBlock
  rw [if_neg (by simp [hc])]

theorem historyBlock_create {s : ParserState} {attrs : List (String × String)}
    {href : String} (hc : has_class attrs "mw-changeslist-history" = true)
    (hg : get_attribute attrs "href" = some href) (hns : ¬ s.next_seen = none) :
    historyBlock s attrs = .ok { s with
      watchlist_entries := s.watchlist_entries ++
        [{ mkEntry (get_attribute attrs "title") with
            history_url := some (WIKIPEDIA_BASE_URL ++ href),
            seen := s.next_seen }],
      next_seen := none } := by
  unfold historyBlock
  rw [if_pos hc]
  split
  · rename_i hgc
    rw [hgc] at hg
    simp at hg
  · rename_i href2 hgc
    rw [hgc] at hg
    injection hg with hg
    subst hg
    rw [if_neg hns]

theorem userlinkBlock_none {s : ParserState} {attrs : List (String × String)}
    (hc : has_class attrs "mw-userlink" = false) :
    userlinkBlock s attrs = .ok s := by
  unfold userlinkBlock
  rw [if_neg (by simp [hc])]

theorem userlinkBlock_write {s : ParserState} {attrs : List (String × String)}
    {last : WatchlistEntry} (hc : has_class attrs "mw-userlink" = true)
    (hg : s.watchlist_entries.getLast? = some last) :
    userlinkBlock s attrs = .ok { s with
      watchlist_entries := s.watchlist_entries.dropLast ++
        [{ last with
            user := get_attribute attrs "title",
            user_link := get_attribute attrs "href" }] } := by
  unfold userlinkBlock
  rw [if_pos hc]
  split
  · rename_i hgc
    rw [hgc] at hg
    simp at hg
  · rename_i last2 hgc
    rw [hgc] at hg
    injection hg with hg
    subst hg
    rfl

theorem diffBytesBlock_set {s : ParserState} {attrs : List (String × String)}
    (hc : has_class attrs "mw-diff-bytes" = true) :
    diffBytesBlock s attrs = { s with collecting_diff := true } := by
  unfold diffBytesBlock
  rw [if_pos hc]

theorem diffBytesBlock_none {s : ParserState} {attrs : List (String × String)}
    (hc : has_class attrs "mw-diff-bytes" = false) :
    diffBytesBlock s attrs = s := by
  unfold diffBytesBlock
  rw [if_neg (by simp [hc])]

theorem lineBlock_log {s : ParserState} {attrs : List (String × String)}
    (hl : has_class attrs "mw-changeslist-line" = true)
    (ha : has_attribute attrs "data-mw-logaction" = true) :
    lineBlock s attrs = .ok { s with skipping_log_action := true } := by
  unfold lineBlock
  rw [if_pos hl, if_pos ha]

theorem lineBlock_watched {s : ParserState} {attrs : List (String × String)}
    (hl : has_class attrs "mw-changeslist-line" = true)
    (ha : has_attribute attrs "data-mw-logaction" = false)
    (hw : has_class attrs "mw-changeslist-line-watched" = true) :
    lineBlock s attrs =
      .ok { s with next_seen := some false, skipping_log_action := false } := by
  unfold lineBlock
  rw [if_pos hl, if_neg (by simp [ha]), if_pos hw]

theorem lineBlock_notWatched {s : ParserState} {attrs : List (String × String)}
    (hl : has_class attrs "mw-changeslist-line" = true)
    (ha : has_attribute attrs "data-mw-logaction" = false)
    (hw : has_class attrs "mw-changeslist-line-watched" = false)
    (hnw : has_class attrs "mw-changeslist-line-not-watched" = true) :
    lineBlock s attrs =
      .ok { s with next_seen := some true, skipping_log_action := false } := by
  unfold lineBlock
  rw [if_pos hl, if_neg (by simp [ha]), if_neg (by simp [hw]), if_pos hnw]

theorem sim_handle_data {sA sB sA1 : ParserState} {text : String}
    (hrel : SimRel sA sB) (hA : handle_data sA text = .ok sA1) :
    ∃ sB1, handle_data sB text = .ok sB1 ∧ SimRel sA1 sB1 := by
  obtain ⟨hmap, hnext, hcol⟩ := hrel
  rcases hcol with hceq | ⟨hca, hcb, hbne⟩
  · cases hc : sA.collecting_diff with
    | false =>
      rw [handle_data_skip hc] at hA
      injection hA with hA
      subst hA
      exact ⟨sB, handle_data_skip (hceq ▸ hc), hmap, hnext, .inl hceq⟩
    | true =>
      cases hgA : sA.watchlist_entries.getLast? with
      | none =>
        unfold handle_data at hA
        rw [hc] at hA
        simp only [if_true] at hA
        rw [hgA] at hA
        exact absurd hA (by simp)
      | some lastA =>
        rw [handle_data_write hc hgA] at hA
        injection hA with hA
        subst hA
        have hAne : sA.watchlist_entries ≠ [] := by
          intro hnil; rw [hnil] at hgA; simp at hgA
        have hBne := simRel_entries_ne ⟨hmap, hnext, .inl hceq⟩ hAne
        cases hgB : sB.watchlist_entries.getLast? with
        | none => exact absurd (List.getLast?_eq_none_iff.mp hgB) hBne
        | some lastB =>
          refine ⟨_, handle_data_write (hceq ▸ hc) hgB, ?_, hnext, .inl rfl⟩
          have e1 : entryKey { lastA with diff := some text } =
              entryKey lastA := rfl
          have e2 : entryKey { lastB with diff := some text } =
              entryKey lastB := rfl
          simp only []
          rw [map_key_mutate hgA e1, map_key_mutate hgB e2]
          exact hmap
  · rw [handle_data_skip hca] at hA
    injection hA with hA
    subst hA
    cases hgB : sB.watchlist_entries.getLast? with
    | none => exact absurd (List.getLast?_eq_none_iff.mp hgB) hbne
    | some lastB =>
      refine ⟨_, handle_data_write hcb hgB, ?_, hnext, .inl (by simp [hca])⟩
      have e2 : entryKey { lastB with diff := some text } =
          entryKey lastB := rfl
      simp only []
      rw [map_key_mutate hgB e2]
      exact hmap

theorem sim_historyBlock {sA sB sA1 : ParserState}
    {attrs : List (String × String)} (hrel : SimRel sA sB)
    (hA : historyBlock sA attrs = .ok sA1) :
    ∃ sB1, historyBlock sB attrs = .ok sB1 ∧ SimRel sA1 sB1 := by
  obtain ⟨hmap, hnext, hcol⟩ := hrel
  cases hc : has_class attrs "mw-changeslist-history" with
  | false =>
    rw [historyBlock_none hc] at hA
    injection hA with hA
    subst hA
    exact ⟨sB, historyBlock_none hc, hmap, hnext, hcol⟩
  | true =>
    cases hg : get_attribute attrs "href" with
    | none =>
      unfold historyBlock at hA
      rw [if_pos hc] at hA
      split at hA
      · exact absurd hA (by simp)
      · rename_i href2 hgc
        rw [hg] at hgc
        simp at hgc
    | some href =>
      by_cases hns : sA.next_seen = none
      · unfold historyBlock at hA
        rw [if_pos hc] at hA
        split at hA
        · exact absurd hA (by simp)
        · rw [if_pos hns] at hA
          exact absurd hA (by simp)
      · rw [historyBlock_create hc hg hns] at hA
        injection hA with hA
        subst hA
        have hnsB : ¬ sB.next_seen = none := by rw [← hnext]; exact hns
        refine ⟨_, historyBlock_create hc hg hnsB, ?_, rfl, ?_⟩
        · simp only [List.map_append]
          rw [hmap, hnext]
        · rcases hcol with hceq | ⟨hca, hcb, hbne⟩
          · exact .inl hceq
          · exact .inr ⟨hca, hcb, by simp⟩

theorem sim_userlinkBlock {sA sB sA1 : ParserState}
    {attrs : List (String × String)} (hrel : SimRel sA sB)
    (hA : userlinkBlock sA attrs = .ok sA1) :
    ∃ sB1, userlinkBlock sB attrs = .ok sB1 ∧ SimRel sA1 sB1 := by
  obtain ⟨hmap, hnext, hcol⟩ := hrel
  cases hc : has_class attrs "mw-userlink" with
  | false =>
    rw [userlinkBlock_none hc] at hA
    injection hA with hA
    subst hA
    exact ⟨sB, userlinkBlock_none hc, hmap, hnext, hcol⟩
  | true =>
    cases hgA : sA.watchlist_entries.getLast? with
    | none =>
      unfold userlinkBlock at hA
      rw [if_pos hc, hgA] at hA
      exact absurd hA (by simp)
    | some lastA =>
      rw [userlinkBlock_write hc hgA] at hA
      injection hA with hA
      subst hA
      have hAne : sA.watchlist_entries ≠ [] := by
        intro hnil; rw [hnil] at hgA; simp at hgA
      have hBne := simRel_entries_ne ⟨hmap, hnext, hcol⟩ hAne
      cases hgB : sB.watchlist_entries.getLast? with
      | none => exact absurd (List.getLast?_eq_none_iff.mp hgB) hBne
      | some lastB =>
        refine ⟨_, userlinkBlock_write hc hgB, ?_, hnext, ?_⟩
        · have e1 : entryKey { lastA with
              user := get_attribute attrs "title",
              user_link := get_attribute attrs "href" } = entryKey lastA := rfl
          have e2 : entryKey { lastB with
              user := get_attribute attrs "title",
              user_link := get_attribute attrs "href" } = entryKey lastB := rfl
          simp only []
          rw [map_key_mutate hgA e1, map_key_mutate hgB e2]
          exact hmap
        · rcases hcol with hceq | ⟨hca, hcb, hbne⟩
          · exact .inl hceq
          · exact .inr ⟨hca, hcb, by simp⟩

theorem sim_diffBytesBlock {sA sB : ParserState}
    {attrs : List (String × String)} (hrel : SimRel sA sB) :
    SimRel (diffBytesBlock sA attrs) (diffBytesBlock sB attrs) := by
  obtain ⟨hmap, hnext, hcol⟩ := hrel
  cases hc : has_class attrs "mw-diff-bytes" with
  | false =>
    rw [diffBytesBlock_none hc, diffBytesBlock_none hc]
    exact ⟨hmap, hnext, hcol⟩
  | true =>
    rw [diffBytesBlock_set hc, diffBytesBlock_set hc]
    exact ⟨hmap, hnext, .inl rfl⟩

theorem sim_afterLineBlock {sA sB sA1 : ParserState}
    {attrs : List (String × String)} (hrel : SimRel sA sB)
    (hskip : sA.skipping_log_action = sB.skipping_log_action)
    (hA : afterLineBlock sA attrs = .ok sA1) :
    ∃ sB1, afterLineBlock sB attrs = .ok sB1 ∧ SimRel sA1 sB1 ∧
      sA1.skipping_log_action = sB1.skipping_log_action := by
  unfold afterLineBlock at hA ⊢
  cases hsk : sA.skipping_log_action with
  | true =>
    rw [hsk] at hA
    simp only [if_true] at hA
    injection hA with hA
    subst hA
    rw [← hskip, hsk]
    exact ⟨sB, by simp, hrel, by rw [← hsk]; exact hskip⟩
  | false =>
    rw [hsk] at hA
    simp only [Bool.false_eq_true, if_false] at hA
    rw [← hskip, hsk]
    simp only [Bool.false_eq_true, if_false]
    cases hh : historyBlock sA attrs with
    | error err => rw [hh] at hA; simp at hA
    | ok sa2 =>
      rw [hh, except_bind_ok] at hA
      obtain ⟨sb2, hhB, hrel2⟩ := sim_historyBlock hrel hh
      rw [hhB, except_bind_ok]
      cases hu : userlinkBlock sa2 attrs with
      | error err => rw [hu] at hA; simp at hA
      | ok sa3 =>
        rw [hu, except_bind_ok] at hA
        injection hA with hA
        subst hA
        obtain ⟨sb3, huB, hrel3⟩ := sim_userlinkBlock hrel2 hu
        rw [huB, except_bind_ok]
        refine ⟨_, rfl, sim_diffBytesBlock hrel3, ?_⟩
        have hska : sa3.skipping_log_action = false := by
          have h2 := historyBlock_ok_cases hh
          have h3 := (userlinkBlock_fields hu).2.1
          rcases h2 with rfl | ⟨_, _, hsk2, _, _⟩
          · rw [h3]; exact hsk
          · rw [h3, hsk2]; exact hsk
        have hskb : sb3.skipping_log_action = false := by
          have h2 := historyBlock_ok_cases hhB
          have h3 := (userlinkBlock_fields huB).2.1
          rcases h2 with rfl | ⟨_, _, hsk2, _, _⟩
          · rw [h3, ← hskip]; exact hsk
          · rw [h3, hsk2, ← hskip]; exact hsk
        rw [(diffBytesBlock_fields sa3 attrs).2.2,
          (diffBytesBlock_fields sb3 attrs).2.2, hska, hskb]

/-- One scanner step inside a line (no line boundary) preserves the
simulation relation and the skip synchronisation. -/
theorem sim_step {sA sB sA1 : ParserState} {e : Event}
    (hnb : isLineBoundary e = false) (hrel : SimRel sA sB)
    (hskip : sA.skipping_log_action = sB.skipping_log_action)
    (hA : stepEvent sA e = .ok sA1) :
    ∃ sB1, stepEvent sB e = .ok sB1 ∧ SimRel sA1 sB1 ∧
      sA1.skipping_log_action = sB1.skipping_log_action := by
  cases e with
  | data text =>
    replace hA : handle_data sA text = .ok sA1 := hA
    obtain ⟨sB1, hB, hrel1⟩ := sim_handle_data hrel hA
    refine ⟨sB1, hB, hrel1, ?_⟩
    rw [(handle_data_fields hA).2, (handle_data_fields hB).2]
    exact hskip
  | start attrs =>
    replace hA : handle_starttag sA attrs = .ok sA1 := hA
    unfold handle_starttag at hA
    have hnl : has_class attrs "mw-changeslist-line" = false := by
      simpa [isLineBoundary] using hnb
    rw [lineBlock_not_line hnl, except_bind_ok] at hA
    obtain ⟨sB1, hB, hrel1, hskip1⟩ := sim_afterLineBlock hrel hskip hA
    refine ⟨sB1, ?_, hrel1, hskip1⟩
    show handle_starttag sB attrs = .ok sB1
    unfold handle_starttag
    rw [lineBlock_not_line hnl, except_bind_ok]
    exact hB

/-- A whole line preserves the simulation relation (the boundary
resynchronises the skip flag, so no skip hypothesis is needed). -/
theorem sim_line {sA sB sA1 : ParserState} {l : ChangeLine}
    (hwf : l.wf = true) (hrel : SimRel sA sB)
    (hA : runFrom sA l.events = .ok sA1) :
    ∃ sB1, runFrom sB l.events = .ok sB1 ∧ SimRel sA1 sB1 := by
  unfold ChangeLine.wf at hwf
  rw [Bool.and_eq_true] at hwf
  have hline := hwf.1
  have hinner : ∀ e ∈ l.inner, isLineBoundary e = false := by
    intro e he
    have := hwf.2
    rw [List.all_eq_true] at this
    simpa using this e he
  obtain ⟨hmap, hnext, hcol⟩ := hrel
  unfold ChangeLine.events at hA
  rw [runFrom] at hA
  -- the boundary step
  cases hsA : stepEvent sA (.start l.boundary) with
  | error err => rw [hsA] at hA; simp at hA
  | ok sa1 =>
    rw [hsA] at hA
    replace hsA : handle_starttag sA l.boundary = .ok sa1 := hsA
    unfold handle_starttag at hsA
    have hstep : ∃ sb1, handle_starttag sB l.boundary = .ok sb1 ∧
        SimRel sa1 sb1 ∧
        sa1.skipping_log_action = sb1.skipping_log_action := by
      by_cases hlog : has_attribute l.boundary "data-mw-logaction" = true
      · rw [lineBlock_log hline hlog, except_bind_ok] at hsA
        unfold afterLineBlock at hsA
        simp only [if_true] at hsA
        injection hsA with hsA
        subst hsA
        refine ⟨{ sB with skipping_log_action := true }, ?_, ?_, rfl⟩
        · unfold handle_starttag
          rw [lineBlock_log hline hlog, except_bind_ok]
          unfold afterLineBlock
          simp
        · exact ⟨hmap, hnext, hcol⟩
      · have hlogf : has_attribute l.boundary "data-mw-logaction" = false := by
          simpa using hlog
        by_cases hw : has_class l.boundary "mw-changeslist-line-watched" = true
        · rw [lineBlock_watched hline hlogf hw, except_bind_ok] at hsA
          have hrelW : SimRel
              { sA with next_seen := some false, skipping_log_action := false }
              { sB with next_seen := some false, skipping_log_action := false } :=
            ⟨hmap, rfl, hcol⟩
          obtain ⟨sb1, hB, hrel1, hskip1⟩ := sim_afterLineBlock hrelW rfl hsA
          refine ⟨sb1, ?_, hrel1, hskip1⟩
          unfold handle_starttag
          rw [lineBlock_watched hline hlogf hw, except_bind_ok]
          exact hB
        · have hwf2 : has_class l.boundary "mw-changeslist-line-watched" = false := by
            simpa using hw
          by_cases hnw : has_class l.boundary "mw-changeslist-line-not-watched" = true
          · rw [lineBlock_notWatched hline hlogf hwf2 hnw, except_bind_ok] at hsA
            have hrelW : SimRel
                { sA with next_seen := some true, skipping_log_action := false }
                { sB with next_seen := some true, skipping_log_action := false } :=
              ⟨hmap, rfl, hcol⟩
            obtain ⟨sb1, hB, hrel1, hskip1⟩ := sim_afterLineBlock hrelW rfl hsA
            refine ⟨sb1, ?_, hrel1, hskip1⟩
            unfold handle_starttag
            rw [lineBlock_notWatched hline hlogf hwf2 hnw, except_bind_ok]
            exact hB
          · have hnwf : has_class l.boundary "mw-changeslist-line-not-watched" = false := by
              simpa using hnw
            rw [lineBlock_error_iff.mpr ⟨rfl, hline, hlogf, hwf2, hnwf⟩,
              except_bind_error] at hsA
            simp at hsA
    obtain ⟨sb1, hBstep, hrel1, hskip1⟩ := hstep
    -- the inner events
    have hrun : ∀ (evs : List Event) (xA xB xA1 : ParserState),
        (∀ e ∈ evs, isLineBoundary e = false) → SimRel xA xB →
        xA.skipping_log_action = xB.skipping_log_action →
        runFrom xA evs = .ok xA1 →
        ∃ xB1, runFrom xB evs = .ok xB1 ∧ SimRel xA1 xB1 := by
      intro evs
      induction evs with
      | nil =>
        intro xA xB xA1 _ hr hs h
        rw [runFrom] at h
        injection h with h
        subst h
        exact ⟨xB, rfl, hr⟩
      | cons e es ih =>
        intro xA xB xA1 hev hr hs h
        rw [runFrom] at h
        cases hsx : stepEvent xA e with
        | error err => rw [hsx] at h; simp at h
        | ok xa2 =>
          rw [hsx] at h
          obtain ⟨xb2, hBx, hr2, hs2⟩ :=
            sim_step (hev e (List.mem_cons_self e es)) hr hs hsx
          obtain ⟨xB1, hB1, hr3⟩ :=
            ih xa2 xb2 xA1 (fun x hx => hev x (List.mem_cons_of_mem e hx)) hr2 hs2 h
          exact ⟨xB1, by rw [runFrom, hBx]; exact hB1, hr3⟩
    obtain ⟨sB1, hBrun, hrelf⟩ := hrun l.inner sa1 sb1 sA1 hinner hrel1 hskip1 hA
    refine ⟨sB1, ?_, hrelf⟩
    unfold ChangeLine.events
    rw [runFrom]
    have hBstep2 : stepEvent sB (.start l.boundary) = .ok sb1 := hBstep
    rw [hBstep2]
    exact hBrun

theorem skip_step_sim {s0 x x1 : ParserState} {e : Event}
    (hnb : isLineBoundary e = false) (hr : SimRel x s0)
    (hs : x.skipping_log_action = true) (h : stepEvent x e = .ok x1) :
    SimRel x1 s0 ∧ x1.skipping_log_action = true := by
  cases e with
  | start attrs =>
    replace h : handle_starttag x attrs = .ok x1 := h
    unfold handle_starttag at h
    rw [lineBlock_not_line (by simpa [isLineBoundary] using hnb),
      except_bind_ok] at h
    unfold afterLineBlock at h
    rw [hs] at h
    simp only [if_true] at h
    injection h with h
    subst h
    exact ⟨hr, hs⟩
  | data text =>
    replace h : handle_data x text = .ok x1 := h
    obtain ⟨hmap, hnext, hcol⟩ := hr
    cases hcx : x.collecting_diff with
    | false =>
      rw [handle_data_skip hcx] at h
      injection h with h
      subst h
      exact ⟨⟨hmap, hnext, hcol⟩, hs⟩
    | true =>
      cases hg : x.watchlist_entries.getLast? with
      | none =>
        unfold handle_data at h
        rw [hcx] at h
        simp only [if_true] at h
        rw [hg] at h
        exact absurd h (by simp)
      | some last =>
        rw [handle_data_write hcx hg] at h
        injection h with h
        subst h
        have e1 : entryKey { last with diff := some text } = entryKey last := rfl
        refine ⟨⟨?_, hnext, ?_⟩, hs⟩
        · simp only []
          rw [map_key_mutate hg e1]
          exact hmap
        · rcases hcol with hceq | ⟨hcf, _, _⟩
          · have hxne : x.watchlist_entries ≠ [] := by
              intro hnil; rw [hnil] at hg; simp at hg
            have hs0ne : s0.watchlist_entries ≠ [] :=
              simRel_entries_ne ⟨hmap, hnext, .inl hceq⟩ hxne
            exact .inr ⟨rfl, by rw [← hceq]; exact hcx, hs0ne⟩
          · rw [hcf] at hcx
            exact absurd hcx (by simp)

/-- Processing a whole log-action line changes nothing that the simulation
relation observes: the resulting state is related to the state before the
line. -/
theorem log_line_sim {s0 sA1 : ParserState} {l : ChangeLine}
    (hwf : l.wf = true) (hlog : l.isLog = true)
    (hA : runFrom s0 l.events = .ok sA1) : SimRel sA1 s0 := by
  unfold ChangeLine.wf at hwf
  rw [Bool.and_eq_true] at hwf
  have hline := hwf.1
  have hinner : ∀ e ∈ l.inner, isLineBoundary e = false := by
    intro e he
    have := hwf.2
    rw [List.all_eq_true] at this
    simpa using this e he
  unfold ChangeLine.isLog at hlog
  unfold ChangeLine.events at hA
  rw [runFrom] at hA
  cases hsA : stepEvent s0 (.start l.boundary) with
  | error err => rw [hsA] at hA; simp at hA
  | ok sa1 =>
    rw [hsA] at hA
    replace hsA : handle_starttag s0 l.boundary = .ok sa1 := hsA
    unfold handle_starttag at hsA
    rw [lineBlock_log hline hlog, except_bind_ok] at hsA
    unfold afterLineBlock at hsA
    simp only [if_true] at hsA
    injection hsA with hsA
    subst hsA
    have hrel0 : SimRel { s0 with skipping_log_action := true } s0 :=
      ⟨rfl, rfl, .inl rfl⟩
    have hloop : ∀ (evs : List Event) (x x1 : ParserState),
        (∀ e ∈ evs, isLineBoundary e = false) →
        SimRel x s0 → x.skipping_log_action = true →
        runFrom x evs = .ok x1 → SimRel x1 s0 := by
      intro evs
      induction evs with
      | nil =>
        intro x x1 _ hr _ h
        rw [runFrom] at h
        injection h with h
        subst h
        exact hr
      | cons e es ih =>
        intro x x1 hev hr hskt h
        rw [runFrom] at h
        cases hsx : stepEvent x e with
        | error err => rw [hsx] at h; simp at h
        | ok x2 =>
          rw [hsx] at h
          obtain ⟨hr2, hskt2⟩ :=
            skip_step_sim (hev e (List.mem_cons_self e es)) hr hskt hsx
          exact ih x2 x1 (fun y hy => hev y (List.mem_cons_of_mem e hy)) hr2 hskt2 h
    exact hloop l.inner _ sA1 hinner hrel0 rfl hA

theorem linesEvents_append (a b : List ChangeLine) :
    linesEvents (a ++ b) = linesEvents a ++ linesEvents b := by
  unfold linesEvents
  rw [List.map_append, List.flatten_append]

theorem linesEvents_cons (l : ChangeLine) (ls : List ChangeLine) :
    linesEvents (l :: ls) = l.events ++ linesEvents ls := by
  unfold linesEvents
  rw [List.map_cons, List.flatten_cons]

theorem sim_lines :
    ∀ (ls : List ChangeLine) (sA sB sA1 : ParserState),
      (∀ l ∈ ls, l.wf = true) → SimRel sA sB →
      runFrom sA (linesEvents ls) = .ok sA1 →
      ∃ sB1, runFrom sB (linesEvents ls) = .ok sB1 ∧ SimRel sA1 sB1 := by
  intro ls
  induction ls with
  | nil =>
    intro sA sB sA1 _ hrel h
    unfold linesEvents at h ⊢
    simp only [List.map_nil, List.flatten_nil] at h ⊢
    rw [runFrom] at h
    injection h with h
    subst h
    exact ⟨sB, rfl, hrel⟩
  | cons l ls ih =>
    intro sA sB sA1 hwf hrel h
    rw [linesEvents_cons] at h ⊢
    rw [runFrom_append] at h ⊢
    cases hA1 : runFrom sA l.events with
    | error err => rw [hA1] at h; simp at h
    | ok sa2 =>
      rw [hA1, except_bind_ok] at h
      obtain ⟨sb2, hB1, hrel2⟩ :=
        sim_line (hwf l (List.mem_cons_self l ls)) hrel hA1
      obtain ⟨sB1, hB2, hrel3⟩ :=
        ih sa2 sb2 sA1 (fun x hx => hwf x (List.mem_cons_of_mem l hx)) hrel2 h
      rw [hB1, except_bind_ok]
      exact ⟨sB1, hB2, hrel3⟩

/-- C4: removing a log-action line from a fragment of well-formed lines
changes neither the titles, nor the seen classifications, nor (hence) the
number of entries produced: the log line contributes zero entries, leaves
`next_seen` untouched, and the scan without it is accepted with the same
`(page_title, seen)` sequence.  (`scanKeys` projects each entry to its title
and seen flag, so equal key sequences also mean equally many entries.) -/
theorem c4_log_line_exclusion :
    ∀ (ls1 : List ChangeLine) (l : ChangeLine) (ls2 : List ChangeLine),
      (∀ x ∈ ls1, x.wf = true) → l.wf = true → l.isLog = true →
      (∀ x ∈ ls2, x.wf = true) →
      (runFrom initState (linesEvents (ls1 ++ l :: ls2))).isOk = true →
      scanKeys (linesEvents (ls1 ++ ls2)) =
        scanKeys (linesEvents (ls1 ++ l :: ls2)) := by
  intro ls1 l ls2 hwf1 hwfl hlog hwf2 hok
  cases hrunA : runFrom initState (linesEvents (ls1 ++ l :: ls2)) with
  | error err => rw [hrunA] at hok; simp [Except.isOk, Except.toBool] at hok
  | ok sf =>
    rw [linesEvents_append, linesEvents_cons] at hrunA
    rw [runFrom_append] at hrunA
    cases hrun1 : runFrom initState (linesEvents ls1) with
    | error err => rw [hrun1] at hrunA; simp at hrunA
    | ok s0 =>
      rw [hrun1, except_bind_ok] at hrunA
      rw [runFrom_append] at hrunA
      cases hrunL : runFrom s0 l.events with
      | error err => rw [hrunL] at hrunA; simp at hrunA
      | ok sa =>
        rw [hrunL, except_bind_ok] at hrunA
        have hrelL : SimRel sa s0 := log_line_sim hwfl hlog hrunL
        obtain ⟨sg, hrunB, hrelf⟩ := sim_lines ls2 sa s0 sf hwf2 hrelL hrunA
        have hLHS : runFrom initState (linesEvents (ls1 ++ ls2)) = .ok sg := by
          rw [linesEvents_append, runFrom_append, hrun1, except_bind_ok, hrunB]
        have hRHS : runFrom initState (linesEvents (ls1 ++ l :: ls2)) =
            .ok sf := by
          rw [linesEvents_append, linesEvents_cons, runFrom_append, hrun1,
            except_bind_ok, runFrom_append, hrunL, except_bind_ok, hrunA]
        unfold scanKeys scan
        rw [hLHS, hRHS]
        simp only [Except.map]
        rw [hrelf.1]

/-- A log-action line (a page move) with its text. -/
def logLine : ChangeLine :=
  ⟨[("class", "mw-changeslist-line"), ("data-mw-logaction", "move/move")],
   [.data "moved page Earth to Terra"]⟩

/-- A not-watched (already seen) line with one history link. -/
def notWatchedLine : ChangeLine :=
  ⟨[("class", "mw-changeslist-line mw-changeslist-line-not-watched")],
   [.start [("class", "mw-changeslist-history"), ("title", "Mars"),
            ("href", "/w/index.php?title=Mars&action=history")]]⟩

/-- A watched (unseen-changes) line with one history link. -/
def watchedLine : ChangeLine :=
  ⟨watchedLineAttrs, [.start historyAttrs]⟩

/-- Witness for C4 on a concrete three-line fragment. -/
theorem c4_log_line_exclusion_witness :
    ((∀ x ∈ [watchedLine], x.wf = true) ∧ logLine.wf = true ∧
      logLine.isLog = true ∧ (∀ x ∈ [notWatchedLine], x.wf = true) ∧
      (runFrom initState
        (linesEvents ([watchedLine] ++ logLine :: [notWatchedLine]))).isOk =
        true) ∧
    scanKeys (linesEvents ([watchedLine] ++ [notWatchedLine])) =
      scanKeys (linesEvents ([watchedLine] ++ logLine :: [notWatchedLine])) :=
  ⟨⟨by decide, by decide, by decide, by decide, by rfl⟩,
   c4_log_line_exclusion [watchedLine] logLine [notWatchedLine]
     (by decide) (by decide) (by decide) (by decide) (by rfl)⟩

/-! ## Claim C5 -/

theorem map_mutate_last {α : Type} (g : WatchlistEntry → α)
    {es : List WatchlistEntry} {last f : WatchlistEntry}
    (hg : es.getLast? = some last) (hk : g f = g last) :
    (es.dropLast ++ [f]).map g = es.map g := by
  have hne : es ≠ [] := by
    intro hnil; rw [hnil] at hg; simp at hg
  have hlast : last = es.getLast hne := by
    have := List.getLast?_eq_getLast es hne
    rw [hg] at this
    injection this
  have hes : es.dropLast ++ [last] = es := by
    rw [hlast]; exact List.dropLast_append_getLast hne
  conv_rhs => rw [← hes]
  rw [List.map_append, List.map_append]
  simp [hk]

theorem drop_all_gen {α : Type} (g : WatchlistEntry → α) (v : α) {n : Nat}
    {es : List WatchlistEntry} {last f : WatchlistEntry}
    (hg : es.getLast? = some last) (hk : g f = g last)
    (hall : ∀ e ∈ es.drop n, g e = v) :
    ∀ e ∈ (es.dropLast ++ [f]).drop n, g e = v := by
  have hne : es ≠ [] := by
    intro hnil; rw [hnil] at hg; simp at hg
  have hlast : last = es.getLast hne := by
    have := List.getLast?_eq_getLast es hne
    rw [hg] at this
    injection this
  have hes : es.dropLast ++ [last] = es := by
    rw [hlast]; exact List.dropLast_append_getLast hne
  intro e he
  rw [List.drop_append_eq_append_drop] at he
  rcases List.mem_append.mp he with h1 | h1
  · apply hall
    rw [← hes, List.drop_append_eq_append_drop]
    exact List.mem_append.mpr (.inl h1)
  · cases hz : n - es.dropLast.length with
    | zero =>
      rw [hz] at h1
      simp at h1
      subst h1
      rw [hk]
      apply hall
      rw [← hes, List.drop_append_eq_append_drop, hz]
      exact List.mem_append.mpr (.inr (by simp))
    | succ k =>
      rw [hz] at h1
      simp at h1

theorem drop_append_gen {α : Type} (g : WatchlistEntry → α) (v : α) {n : Nat}
    {es : List WatchlistEntry} {x : WatchlistEntry} (hn : n ≤ es.length)
    (hall : ∀ e ∈ es.drop n, g e = v) (hx : g x = v) :
    ∀ e ∈ (es ++ [x]).drop n, g e = v := by
  intro e he
  rw [List.drop_append_eq_append_drop] at he
  rcases List.mem_append.mp he with h1 | h1
  · exact hall e h1
  · have hz : n - es.length = 0 := by omega
    rw [hz] at h1
    simp at h1
    rw [h1]
    exact hx

/-- Inner events allowed between a byte-delta marker and its diff text for
the locality part of C5: start tags that open no new line and create no new
entry. -/
def midEventOk : Event → Bool
  | .data _ => false
  | .start attrs =>
    !has_class attrs "mw-changeslist-line" &&
    !has_class attrs "mw-changeslist-history"

/-- Invariant between the byte-delta marker and the diff text: the flag is
pending, the line is not skipped, and the entries carry unchanged diffs. -/
def InvDiff (ds : List (Option String)) (s : ParserState) : Prop :=
  s.collecting_diff = true ∧ s.skipping_log_action = false ∧
  s.watchlist_entries ≠ [] ∧
  s.watchlist_entries.map (fun e => e.diff) = ds

theorem invDiff_step {ds : List (Option String)} {s s1 : ParserState}
    {e : Event} (hmid : midEventOk e = true) (hinv : InvDiff ds s)
    (h : stepEvent s e = .ok s1) : InvDiff ds s1 := by
  obtain ⟨hc, hsk, hne, hds⟩ := hinv
  cases e with
  | data text => simp [midEventOk] at hmid
  | start attrs =>
    have hml : has_class attrs "mw-changeslist-line" = false := by
      simp [midEventOk] at hmid
      simpa using hmid.1
    have hmh : has_class attrs "mw-changeslist-history" = false := by
      simp [midEventOk] at hmid
      simpa using hmid.2
    replace h : handle_starttag s attrs = .ok s1 := h
    unfold handle_starttag at h
    rw [lineBlock_not_line hml, except_bind_ok] at h
    unfold afterLineBlock at h
    rw [hsk] at h
    simp only [Bool.false_eq_true, if_false] at h
    rw [historyBlock_none hmh, except_bind_ok] at h
    cases hu : userlinkBlock s attrs with
    | error err => rw [hu] at h; simp at h
    | ok sc =>
      rw [hu, except_bind_ok] at h
      injection h with h
      subst h
      have hufields := userlinkBlock_fields hu
      have hcne : sc.collecting_diff = true ∧ sc.skipping_log_action = false ∧
          sc.watchlist_entries ≠ [] ∧
          sc.watchlist_entries.map (fun e => e.diff) = ds := by
        rcases userlinkBlock_entries hu with heq | ⟨last, f, hg, heq, _, _, hdiff⟩
        · rw [heq]
          exact ⟨by rw [hufields.2.2]; exact hc, by rw [hufields.2.1]; exact hsk,
            hne, hds⟩
        · refine ⟨by rw [hufields.2.2]; exact hc,
            by rw [hufields.2.1]; exact hsk, by rw [heq]; simp, ?_⟩
          rw [heq, map_mutate_last (fun e => e.diff) hg hdiff]
          exact hds
      obtain ⟨hc2, hsk2, hne2, hds2⟩ := hcne
      cases hdb : has_class attrs "mw-diff-bytes" with
      | false =>
        rw [diffBytesBlock_none hdb]
        exact ⟨hc2, hsk2, hne2, hds2⟩
      | true =>
        rw [diffBytesBlock_set hdb]
        exact ⟨rfl, hsk2, hne2, hds2⟩

/-- Invariant after an entry creation with no pending byte-delta flag: the
flag stays clear and every entry from index `n` on keeps `diff` absent. -/
def InvNoDiff (n : Nat) (s : ParserState) : Prop :=
  s.collecting_diff = false ∧ n ≤ s.watchlist_entries.length ∧
  ∀ e ∈ s.watchlist_entries.drop n, e.diff = none

/-- An event carrying no byte-delta marker. -/
def noDiffMarker : Event → Bool
  | .data _ => true
  | .start attrs => !has_class attrs "mw-diff-bytes"

theorem invNoDiff_step {n : Nat} {s s1 : ParserState} {e : Event}
    (hm : noDiffMarker e = true) (hinv : InvNoDiff n s)
    (h : stepEvent s e = .ok s1) : InvNoDiff n s1 := by
  obtain ⟨hc, hlen, hall⟩ := hinv
  cases e with
  | data text =>
    replace h : handle_data s text = .ok s1 := h
    rw [handle_data_skip hc] at h
    injection h with h
    subst h
    exact ⟨hc, hlen, hall⟩
  | start attrs =>
    have hdb : has_class attrs "mw-diff-bytes" = false := by
      simp [noDiffMarker] at hm
      simpa using hm
    replace h : handle_starttag s attrs = .ok s1 := h
    unfold handle_starttag at h
    cases hl : lineBlock s attrs with
    | error err => rw [hl] at h; simp at h
    | ok sa =>
      rw [hl, except_bind_ok] at h
      have hfa := lineBlock_ok_fields hl
      have hinva : InvNoDiff n sa :=
        ⟨by rw [hfa.2]; exact hc, by rw [hfa.1]; exact hlen,
         by rw [hfa.1]; exact hall⟩
      obtain ⟨hca, hlena, halla⟩ := hinva
      unfold afterLineBlock at h
      split at h
      · injection h with h; subst h; exact ⟨hca, hlena, halla⟩
      · cases hh : historyBlock sa attrs with
        | error err => rw [hh] at h; simp at h
        | ok sb =>
          rw [hh, except_bind_ok] at h
          have hinvb : InvNoDiff n sb := by
            rcases historyBlock_ok_cases hh with rfl | ⟨_, _, _, hcd, en, _, hdn, hes⟩
            · exact ⟨hca, hlena, halla⟩
            · refine ⟨by rw [hcd]; exact hca, ?_, ?_⟩
              · rw [hes]; simp; omega
              · rw [hes]
                exact drop_append_gen (fun e => e.diff) none hlena halla hdn
          obtain ⟨hcb, hlenb, hallb⟩ := hinvb
          cases hu : userlinkBlock sb attrs with
          | error err => rw [hu] at h; simp at h
          | ok sc =>
            rw [hu, except_bind_ok] at h
            injection h with h
            subst h
            have hufields := userlinkBlock_fields hu
            have hinvc : InvNoDiff n sc := by
              rcases userlinkBlock_entries hu with heq | ⟨last, f, hg, heq, _, _, hdiff⟩
              · exact ⟨by rw [hufields.2.2]; exact hcb, by rw [heq]; exact hlenb,
                  by rw [heq]; exact hallb⟩
              · refine ⟨by rw [hufields.2.2]; exact hcb, ?_, ?_⟩
                · rw [heq]
                  have hneb : sb.watchlist_entries ≠ [] := by
                    intro hnil; rw [hnil] at hg; simp at hg
                  have := List.length_pos.mpr hneb
                  simp
                  omega
                · rw [heq]
                  exact drop_all_gen (fun e => e.diff) none hg hdiff hallb
            obtain ⟨hcc, hlenc, hallc⟩ := hinvc
            rw [diffBytesBlock_none hdb]
            exact ⟨hcc, hlenc, hallc⟩

theorem invDiff_run {ds : List (Option String)} :
    ∀ (evs : List Event) (s s1 : ParserState),
      (∀ e ∈ evs, midEventOk e = true) → InvDiff ds s →
      runFrom s evs = .ok s1 → InvDiff ds s1 := by
  intro evs
  induction evs with
  | nil =>
    intro s s1 _ hinv h
    rw [runFrom] at h
    injection h with h
    subst h
    exact hinv
  | cons e es ih =>
    intro s s1 hev hinv h
    rw [runFrom] at h
    cases hs : stepEvent s e with
    | error err => rw [hs] at h; simp at h
    | ok s2 =>
      rw [hs] at h
      exact ih s2 s1 (fun x hx => hev x (List.mem_cons_of_mem e hx))
        (invDiff_step (hev e (List.mem_cons_self e es)) hinv hs) h

theorem invNoDiff_run {n : Nat} :
    ∀ (evs : List Event) (s s1 : ParserState),
      (∀ e ∈ evs, noDiffMarker e = true) → InvNoDiff n s →
      runFrom s evs = .ok s1 → InvNoDiff n s1 := by
  intro evs
  induction evs with
  | nil =>
    intro s s1 _ hinv h
    rw [runFrom] at h
    injection h with h
    subst h
    exact hinv
  | cons e es ih =>
    intro s s1 hev hinv h
    rw [runFrom] at h
    cases hs : stepEvent s e with
    | error err => rw [hs] at h; simp at h
    | ok s2 =>
      rw [hs] at h
      exact ih s2 s1 (fun x hx => hev x (List.mem_cons_of_mem e hx))
        (invNoDiff_step (hev e (List.mem_cons_self e es)) hinv hs) h

/-- Processing a byte-delta marker tag raises the pending flag and leaves the
entries (and their diffs) in place. -/
theorem marker_step {ds : List (Option String)} {s s1 : ParserState}
    {dAttrs : List (String × String)}
    (hsk : s.skipping_log_action = false) (hne : s.watchlist_entries ≠ [])
    (hds : s.watchlist_entries.map (fun e => e.diff) = ds)
    (hdb : has_class dAttrs "mw-diff-bytes" = true)
    (hml : has_class dAttrs "mw-changeslist-line" = false)
    (hmh : has_class dAttrs "mw-changeslist-history" = false)
    (h : stepEvent s (.start dAttrs) = .ok s1) : InvDiff ds s1 := by
  replace h : handle_starttag s dAttrs = .ok s1 := h
  unfold handle_starttag at h
  rw [lineBlock_not_line hml, except_bind_ok] at h
  unfold afterLineBlock at h
  rw [hsk] at h
  simp only [Bool.false_eq_true, if_false] at h
  rw [historyBlock_none hmh, except_bind_ok] at h
  cases hu : userlinkBlock s dAttrs with
  | error err => rw [hu] at h; simp at h
  | ok sc =>
    rw [hu, except_bind_ok] at h
    injection h with h
    subst h
    have hufields := userlinkBlock_fields hu
    have hcore : sc.skipping_log_action = false ∧ sc.watchlist_entries ≠ [] ∧
        sc.watchlist_entries.map (fun e => e.diff) = ds := by
      rcases userlinkBlock_entries hu with heq | ⟨last, f, hg, heq, _, _, hdiff⟩
      · rw [heq]
        exact ⟨by rw [hufields.2.1]; exact hsk, hne, hds⟩
      · refine ⟨by rw [hufields.2.1]; exact hsk, by rw [heq]; simp, ?_⟩
        rw [heq, map_mutate_last (fun e => e.diff) hg hdiff]
        exact hds
    rw [diffBytesBlock_set hdb]
    exact ⟨rfl, hcore.1, hcore.2.1, hcore.2.2⟩

/-- A fragment where a byte-delta marker follows the first entry but its
text-data only arrives after the second entry was created. -/
def c5Fragment : List Event :=
  [.start watchedLineAttrs,
   .start historyAttrs,
   .start [("class", "mw-diff-bytes")],
   .start watchedLineAttrs,
   .start [("class", "mw-changeslist-history"), ("title", "Mars"),
           ("href", "/w/index.php?title=Mars&action=history")],
   .data "+120"]

/-- Counterexample to C5 as stated: in `c5Fragment` the second entry has no
byte-delta marker between its link marker and the end of the fragment, yet
its `diff` is `"+120"` (the first data event after the still-pending marker
of the first entry), not absent as the claim requires. -/
theorem c5_counterexample :
    (scan c5Fragment).map
        (fun s => s.watchlist_entries.map (fun e => e.diff)) =
      .ok [none, some "+120"] ∧
    ¬ ((scan c5Fragment).map
        (fun s => s.watchlist_entries.map (fun e => e.diff)) =
      .ok [none, none]) :=
  ⟨rfl, fun hcon => absurd (Except.ok.inj hcon) (by decide)⟩

/-- C5 (amended).  Locality holds as claimed: diff text arriving after a
byte-delta marker that follows entry *k* (the current last entry), with no
intervening text and no new line or entry, is assigned to entry *k* only —
the final diff list is the previous one with only its last element replaced.
The absence half needs an extra hypothesis the claim lacks: an entry created
*while no byte-delta marker is pending* and followed by no byte-delta marker
keeps `diff` absent; without the pending-flag condition the counterexample
above applies. -/
theorem c5_diff_locality :
    (∀ (p mid : List Event) (d : String) (dAttrs : List (String × String))
        (s s2 : ParserState),
      runFrom initState p = .ok s →
      s.skipping_log_action = false →
      s.watchlist_entries ≠ [] →
      has_class dAttrs "mw-diff-bytes" = true →
      has_class dAttrs "mw-changeslist-line" = false →
      has_class dAttrs "mw-changeslist-history" = false →
      (∀ e ∈ mid, midEventOk e = true) →
      runFrom initState (p ++ .start dAttrs :: (mid ++ [.data d])) = .ok s2 →
      s2.watchlist_entries.map (fun e => e.diff) =
        (s.watchlist_entries.map (fun e => e.diff)).dropLast ++ [some d]) ∧
    (∀ (p rest : List Event) (hAttrs : List (String × String))
        (s s2 : ParserState),
      runFrom initState p = .ok s →
      s.collecting_diff = false →
      has_class hAttrs "mw-changeslist-history" = true →
      noDiffMarker (.start hAttrs) = true →
      (∀ e ∈ rest, noDiffMarker e = true) →
      runFrom initState (p ++ .start hAttrs :: rest) = .ok s2 →
      ∀ e ∈ s2.watchlist_entries.drop s.watchlist_entries.length,
        e.diff = none) := by
  constructor
  · intro p mid d dAttrs s s2 hp hsk hne hdb hml hmh hmid hrun
    rw [runFrom_append, hp, except_bind_ok, runFrom] at hrun
    cases hstep : stepEvent s (.start dAttrs) with
    | error err => rw [hstep] at hrun; simp at hrun
    | ok s3 =>
      rw [hstep] at hrun
      replace hrun : runFrom s3 (mid ++ [Event.data d]) = .ok s2 := hrun
      have hinv3 : InvDiff (s.watchlist_entries.map (fun e => e.diff)) s3 :=
        marker_step hsk hne rfl hdb hml hmh hstep
      rw [runFrom_append] at hrun
      cases hmidr : runFrom s3 mid with
      | error err => rw [hmidr] at hrun; simp at hrun
      | ok s4 =>
        rw [hmidr, except_bind_ok, runFrom] at hrun
        obtain ⟨hc4, hsk4, hne4, hds4⟩ := invDiff_run mid s3 s4 hmid hinv3 hmidr
        cases hg4 : s4.watchlist_entries.getLast? with
        | none => exact absurd (List.getLast?_eq_none_iff.mp hg4) hne4
        | some last =>
          cases hstep2 : stepEvent s4 (.data d) with
          | error err => rw [hstep2] at hrun; simp at hrun
          | ok s5 =>
            rw [hstep2] at hrun
            replace hrun : runFrom s5 [] = .ok s2 := hrun
            rw [runFrom] at hrun
            injection hrun with hrun
            subst hrun
            replace hstep2 : handle_data s4 d = .ok s5 := hstep2
            rw [handle_data_write hc4 hg4] at hstep2
            injection hstep2 with hstep2
            subst hstep2
            simp only [List.map_append]
            rw [List.map_dropLast]
            rw [hds4]
            rfl
  · intro p rest hAttrs s s2 hp hcd _hhc hndm hrest hrun
    rw [runFrom_append, hp, except_bind_ok] at hrun
    have hinv0 : InvNoDiff s.watchlist_entries.length s :=
      ⟨hcd, le_refl _, by simp⟩
    have hev : ∀ e ∈ Event.start hAttrs :: rest, noDiffMarker e = true := by
      intro e he
      rcases List.mem_cons.mp he with rfl | hm
      · exact hndm
      · exact hrest e hm
    exact (invNoDiff_run (.start hAttrs :: rest) s s2 hev hinv0 hrun).2.2

/-- The entry built from `historyAttrs` inside a watched line. -/
def earthEntry : WatchlistEntry :=
  ⟨some "Earth",
   some "https://en.wikipedia.org/w/index.php?title=Earth&action=history",
   none, none, none, none, some false⟩

/-- `earthEntry` after diff text `"+120"` was captured for it. -/
def earthEntryDiff : WatchlistEntry :=
  ⟨some "Earth",
   some "https://en.wikipedia.org/w/index.php?title=Earth&action=history",
   none, none, none, some "+120", some false⟩

/-- The entry for the Mars history link inside a watched line. -/
def marsEntry : WatchlistEntry :=
  ⟨some "Mars",
   some "https://en.wikipedia.org/w/index.php?title=Mars&action=history",
   none, none, none, none, some false⟩

/-- State after scanning one watched line with one history link. -/
def afterEarthState : ParserState :=
  ⟨false, [earthEntry], false, none, false⟩

/-- State after scanning `c1Fragment` and one more watched line boundary. -/
def beforeMarsState : ParserState :=
  ⟨false, [earthEntry], false, some false, false⟩

/-- Witness for C5 at concrete fragments: the diff text right after a marker
attaches to the existing entry, and an entry created with no pending marker
and no following marker keeps `diff` absent. -/
theorem c5_diff_locality_witness :
    ((runFrom initState c1Fragment = .ok afterEarthState) ∧
      afterEarthState.watchlist_entries ≠ [] ∧
      (⟨false, [earthEntryDiff], false, none, false⟩ :
          ParserState).watchlist_entries.map (fun e => e.diff) =
        (afterEarthState.watchlist_entries.map (fun e => e.diff)).dropLast ++
          [some "+120"]) ∧
    (beforeMarsState.collecting_diff = false ∧
      ∀ e ∈ (⟨false, [earthEntry, marsEntry], false, none, false⟩ :
          ParserState).watchlist_entries.drop
          beforeMarsState.watchlist_entries.length,
        e.diff = none) := by
  refine ⟨⟨by rfl, by simp [afterEarthState], ?_⟩, ⟨rfl, ?_⟩⟩
  · exact c5_diff_locality.1 c1Fragment [] "+120" [("class", "mw-diff-bytes")]
      afterEarthState _ (by rfl) rfl (by simp [afterEarthState]) (by decide)
      (by decide) (by decide) (by simp) (by rfl)
  · exact c5_diff_locality.2 (c1Fragment ++ [.start watchedLineAttrs]) []
      [("class", "mw-changeslist-history"), ("title", "Mars"),
       ("href", "/w/index.php?title=Mars&action=history")]
      beforeMarsState _ (by rfl) rfl (by decide) (by decide) (by simp)
      (by rfl)

/-! ## URL query rewriter

The script's `get_query_parameters`, `set_query_parameters`,
`remove_query_parameter` and `set_query_parameter` call into
`urllib.parse`.  The parts of CPython 3.11 `urllib.parse` they reach are
embedded below over `List Char` (Python `str` values): `urlparse`/`urlsplit`
(including the WHATWG control-character sanitisation; the `_checknetloc`
NFKC check and `_check_bracketed_host`, which reject only exotic non-ASCII
or bracketed netlocs, are modelled as accepting), `parse_qs`/`parse_qsl`
with `strict_parsing=True` (CPython 3.11 parses an empty query to `{}`;
before 3.11 it raised `ValueError`), `urlencode` with `doseq=True` and
`quote_via=quote`, `quote`, `unquote` (its `'%' not in s` fast path returns
the input unchanged, which agrees with full processing, so the model always
processes; on malformed percent-escapes the escape is kept literally; on
invalid UTF-8 the replacement character U+FFFD is produced — the model
replaces per invalid byte where CPython replaces maximal subparts, a
difference visible only for inputs carrying invalid percent-encoded UTF-8),
and `urlunparse`/`urlunsplit`. -/

/-- Python strings as lists of code points. -/
abbrev PyStr := List Char

/-- Shorthand for writing `PyStr` literals. -/
def pys (s : String) : PyStr := s.toList

/-- First occurrence split: `some (before, after)` or `none`. -/
def splitFirst (c : Char) : PyStr → Option (PyStr × PyStr)
  | [] => none
  | x :: xs =>
    if x = c then some ([], xs)
    else
      match splitFirst c xs with
      | none => none
      | some (a, b) => some (x :: a, b)

/-- `str.replace(old, new)` for one-character arguments. -/
def replaceChar (a b : Char) (l : PyStr) : PyStr :=
  l.map (fun c => if c = a then b else c)

/-- `str.find(c, start)` as an optional index. -/
def findFrom (c : Char) (l : PyStr) (start : Nat) : Option Nat :=
  match (l.drop start).findIdx? (fun x => x = c) with
  | none => none
  | some k => some (start + k)

/-- `str.rfind(c)` as an optional index. -/
def rfindPos (c : Char) (l : PyStr) : Option Nat :=
  match l.reverse.findIdx? (fun x => x = c) with
  | none => none
  | some k => some (l.length - 1 - k)

/-! ### UTF-8 -/

/-- UTF-8 encoding of one code point (Lean `Char` excludes surrogates, as
Python `str.encode` raises on them). -/
def utf8EncodeChar (c : Char) : List Nat :=
  let n := c.toNat
  if n < 0x80 then [n]
  else if n < 0x800 then [0xC0 + n / 64, 0x80 + n % 64]
  else if n < 0x10000 then
    [0xE0 + n / 4096, 0x80 + (n / 64) % 64, 0x80 + n % 64]
  else
    [0xF0 + n / 262144, 0x80 + (n / 4096) % 64, 0x80 + (n / 64) % 64,
     0x80 + n % 64]

/-- UTF-8 encoding of a string. -/
def utf8Encode (s : PyStr) : List Nat :=
  (s.map utf8EncodeChar).flatten

/-- U+FFFD. -/
def replacementChar : Char := Char.ofNat 0xFFFD

/-- Whether a byte is a UTF-8 continuation byte. -/
def isCont (b : Nat) : Bool := 0x80 ≤ b && b ≤ 0xBF

/-- Whether a byte opens a two-byte sequence (overlongs excluded). -/
def isTwoStart (b : Nat) : Bool := 0xC2 ≤ b && b ≤ 0xDF

/-- Whether a byte opens a three-byte sequence. -/
def isThreeStart (b : Nat) : Bool := 0xE0 ≤ b && b ≤ 0xEF

/-- Whether a byte opens a four-byte sequence. -/
def isFourStart (b : Nat) : Bool := 0xF0 ≤ b && b ≤ 0xF4

/-- Validity of the continuation bytes of a three-byte sequence (overlongs
and surrogates excluded). -/
def threeOk (b0 b1 b2 : Nat) : Bool :=
  isCont b1 && (!(b0 == 0xE0) || decide (0xA0 ≤ b1)) &&
    (!(b0 == 0xED) || decide (b1 ≤ 0x9F)) && isCont b2

/-- Validity of the continuation bytes of a four-byte sequence. -/
def fourOk (b0 b1 b2 b3 : Nat) : Bool :=
  isCont b1 && (!(b0 == 0xF0) || decide (0x90 ≤ b1)) &&
    (!(b0 == 0xF4) || decide (b1 ≤ 0x8F)) && isCont b2 && isCont b3

/-- Code point of a two-byte sequence. -/
def twoVal (b0 b1 : Nat) : Nat := (b0 - 0xC0) * 64 + (b1 - 0x80)

/-- Code point of a three-byte sequence. -/
def threeVal (b0 b1 b2 : Nat) : Nat :=
  (b0 - 0xE0) * 4096 + (b1 - 0x80) * 64 + (b2 - 0x80)

/-- Code point of a four-byte sequence. -/
def fourVal (b0 b1 b2 b3 : Nat) : Nat :=
  (b0 - 0xF0) * 262144 + (b1 - 0x80) * 4096 + (b2 - 0x80) * 64 + (b3 - 0x80)

/-- UTF-8 decoding with replacement (`bytes.decode('utf-8', 'replace')`);
valid sequences (with the overlong and surrogate exclusions) decode exactly,
an invalid byte yields U+FFFD and decoding resumes at the next byte. -/
def utf8Decode : List Nat → PyStr
  | [] => []
  | [b0] =>
    if b0 < 0x80 then [Char.ofNat b0] else [replacementChar]
  | [b0, b1] =>
    if b0 < 0x80 then Char.ofNat b0 :: utf8Decode [b1]
    else if isTwoStart b0 then
      if isCont b1 then [Char.ofNat (twoVal b0 b1)]
      else replacementChar :: utf8Decode [b1]
    else replacementChar :: utf8Decode [b1]
  | [b0, b1, b2] =>
    if b0 < 0x80 then Char.ofNat b0 :: utf8Decode [b1, b2]
    else if isTwoStart b0 then
      if isCont b1 then Char.ofNat (twoVal b0 b1) :: utf8Decode [b2]
      else replacementChar :: utf8Decode [b1, b2]
    else if isThreeStart b0 then
      if threeOk b0 b1 b2 then [Char.ofNat (threeVal b0 b1 b2)]
      else replacementChar :: utf8Decode [b1, b2]
    else replacementChar :: utf8Decode [b1, b2]
  | b0 :: b1 :: b2 :: b3 :: rest =>
    if b0 < 0x80 then Char.ofNat b0 :: utf8Decode (b1 :: b2 :: b3 :: rest)
    else if isTwoStart b0 then
      if isCont b1 then Char.ofNat (twoVal b0 b1) :: utf8Decode (b2 :: b3 :: rest)
      else replacementChar :: utf8Decode (b1 :: b2 :: b3 :: rest)
    else if isThreeStart b0 then
      if threeOk b0 b1 b2 then
        Char.ofNat (threeVal b0 b1 b2) :: utf8Decode (b3 :: rest)
      else replacementChar :: utf8Decode (b1 :: b2 :: b3 :: rest)
    else if isFourStart b0 then
      if fourOk b0 b1 b2 b3 then Char.ofNat (fourVal b0 b1 b2 b3) :: utf8Decode rest
      else replacementChar :: utf8Decode (b1 :: b2 :: b3 :: rest)
    else replacementChar :: utf8Decode (b1 :: b2 :: b3 :: rest)

theorem utf8Decode_ascii {b0 : Nat} (h : b0 < 0x80) (bs : List Nat) :
    utf8Decode (b0 :: bs) = Char.ofNat b0 :: utf8Decode bs := by
  match bs with
  | [] => simp [utf8Decode, h]
  | [b1] => simp [utf8Decode, h]
  | [b1, b2] => simp [utf8Decode, h]
  | b1 :: b2 :: b3 :: rest => simp [utf8Decode, h]

theorem utf8Decode_two {b0 b1 : Nat} (h0 : isTwoStart b0 = true)
    (h1 : isCont b1 = true) (bs : List Nat) :
    utf8Decode (b0 :: b1 :: bs) =
      Char.ofNat (twoVal b0 b1) :: utf8Decode bs := by
  have hn : ¬ b0 < 0x80 := by simp [isTwoStart] at h0; omega
  match bs with
  | [] => simp [utf8Decode, hn, h0, h1]
  | [b2] => simp [utf8Decode, hn, h0, h1]
  | b2 :: b3 :: rest => simp [utf8Decode, hn, h0, h1]

theorem utf8Decode_three {b0 b1 b2 : Nat} (h0 : isThreeStart b0 = true)
    (hok : threeOk b0 b1 b2 = true) (bs : List Nat) :
    utf8Decode (b0 :: b1 :: b2 :: bs) =
      Char.ofNat (threeVal b0 b1 b2) :: utf8Decode bs := by
  have hb : 0xE0 ≤ b0 ∧ b0 ≤ 0xEF := by simpa [isThreeStart] using h0
  have hn : ¬ b0 < 0x80 := by omega
  have h2 : isTwoStart b0 = false := by simp [isTwoStart]; omega
  match bs with
  | [] => simp [utf8Decode, hn, h0, h2, hok]
  | b3 :: rest => simp [utf8Decode, hn, h0, h2, hok]

theorem utf8Decode_four {b0 b1 b2 b3 : Nat} (h0 : isFourStart b0 = true)
    (hok : fourOk b0 b1 b2 b3 = true) (bs : List Nat) :
    utf8Decode (b0 :: b1 :: b2 :: b3 :: bs) =
      Char.ofNat (fourVal b0 b1 b2 b3) :: utf8Decode bs := by
  have hb : 0xF0 ≤ b0 ∧ b0 ≤ 0xF4 := by simpa [isFourStart] using h0
  have hn : ¬ b0 < 0x80 := by omega
  have h2 : isTwoStart b0 = false := by simp [isTwoStart]; omega
  have h3 : isThreeStart b0 = false := by simp [isThreeStart]; omega
  simp [utf8Decode, hn, h0, h2, h3, hok]

/-- Valid Lean code points round-trip through the UTF-8 model. -/
theorem utf8_round (c : Char) (bs : List Nat) :
    utf8Decode (utf8EncodeChar c ++ bs) = c :: utf8Decode bs := by
  have hv : c.toNat < 0xd800 ∨ (0xdfff < c.toNat ∧ c.toNat < 0x110000) := by
    have h := c.valid
    unfold UInt32.isValidChar Nat.isValidChar at h
    exact h
  unfold utf8EncodeChar
  by_cases h1 : c.toNat < 0x80
  · rw [if_pos h1]
    rw [List.cons_append, List.nil_append, utf8Decode_ascii h1]
    rw [Char.ofNat_toNat]
  · rw [if_neg h1]
    by_cases h2 : c.toNat < 0x800
    · rw [if_pos h2]
      simp only [List.cons_append, List.nil_append]
      rw [utf8Decode_two (by simp [isTwoStart]; omega)
        (by simp [isCont]; omega)]
      have : twoVal (0xC0 + c.toNat / 64) (0x80 + c.toNat % 64) = c.toNat := by
        simp [twoVal]; omega
      rw [this, Char.ofNat_toNat]
    · rw [if_neg h2]
      by_cases h3 : c.toNat < 0x10000
      · rw [if_pos h3]
        simp only [List.cons_append, List.nil_append]
        rw [utf8Decode_three (by simp [isThreeStart]; omega) ?hok]
        case hok =>
          have hnosur : c.toNat < 0xd800 ∨ 0xdfff < c.toNat := by
            rcases hv with h | ⟨h, _⟩
            · exact .inl h
            · exact .inr h
          simp only [threeOk, isCont, Bool.and_eq_true, Bool.or_eq_true,
            decide_eq_true_eq, Bool.not_eq_true', beq_eq_false_iff_ne,
            ne_eq]
          omega
        have : threeVal (0xE0 + c.toNat / 4096) (0x80 + c.toNat / 64 % 64)
            (0x80 + c.toNat % 64) = c.toNat := by
          simp [threeVal]; omega
        rw [this, Char.ofNat_toNat]
      · rw [if_neg h3]
        have h4 : c.toNat < 0x110000 := by
          rcases hv with h | ⟨_, h⟩
          · omega
          · exact h
        simp only [List.cons_append, List.nil_append]
        rw [utf8Decode_four (by simp [isFourStart]; omega) ?hok]
        case hok =>
          simp only [fourOk, isCont, Bool.and_eq_true, Bool.or_eq_true,
            decide_eq_true_eq, Bool.not_eq_true', beq_eq_false_iff_ne,
            ne_eq]
          omega
        have : fourVal (0xF0 + c.toNat / 262144) (0x80 + c.toNat / 4096 % 64)
            (0x80 + c.toNat / 64 % 64) (0x80 + c.toNat % 64) = c.toNat := by
          simp [fourVal]; omega
        rw [this, Char.ofNat_toNat]

/-- The byte-level round trip for whole strings. -/
theorem utf8Decode_encode (s : PyStr) : utf8Decode (utf8Encode s) = s := by
  induction s with
  | nil => rfl
  | cons c cs ih =>
    unfold utf8Encode
    rw [List.map_cons, List.flatten_cons]
    rw [utf8_round]
    unfold utf8Encode at ih
    rw [ih]

theorem utf8Encode_bytes_lt (s : PyStr) : ∀ b ∈ utf8Encode s, b < 256 := by
  intro b hb
  unfold utf8Encode at hb
  rw [List.mem_flatten] at hb
  obtain ⟨bs, hbs, hbmem⟩ := hb
  rw [List.mem_map] at hbs
  obtain ⟨c, _, hc⟩ := hbs
  subst hc
  have hv : c.toNat < 0x110000 := by
    have h : c.toNat < 0xd800 ∨ (0xdfff < c.toNat ∧ c.toNat < 0x110000) := by
      have h := c.valid
      unfold UInt32.isValidChar Nat.isValidChar at h
      exact h
    omega
  simp only [utf8EncodeChar] at hbmem
  split at hbmem
  · simp at hbmem; omega
  split at hbmem
  · simp at hbmem; rcases hbmem with h | h <;> omega
  split at hbmem
  · simp at hbmem; rcases hbmem with h | h | h <;> omega
  · simp at hbmem; rcases hbmem with h | h | h | h <;> omega

theorem utf8Encode_ne_nil {s : PyStr} (h : s ≠ []) : utf8Encode s ≠ [] := by
  match s with
  | [] => exact absurd rfl h
  | c :: cs =>
    unfold utf8Encode
    rw [List.map_cons, List.flatten_cons]
    intro hcon
    have := List.append_eq_nil.mp hcon
    have h1 := this.1
    simp only [utf8EncodeChar] at h1
    split at h1 <;> [simp at h1; skip]
    split at h1 <;> [simp at h1; skip]
    split at h1 <;> simp at h1

/-! ### quote and unquote -/

/-- The `_ALWAYS_SAFE` byte set: ASCII letters, digits, and `_.-~`. -/
def isAlwaysSafe (b : Nat) : Bool :=
  (0x41 ≤ b && b ≤ 0x5A) || (0x61 ≤ b && b ≤ 0x7A) ||
  (0x30 ≤ b && b ≤ 0x39) || b == 0x5F || b == 0x2E || b == 0x2D || b == 0x7E

/-- Uppercase hex digit of a nibble. -/
def hexDigitUpper (n : Nat) : Char :=
  if n < 10 then Char.ofNat (0x30 + n) else Char.ofNat (0x37 + n)

/-- `_Quoter.__missing__`: a byte maps to itself when safe, else to `%XX`. -/
def quoteByte (safe : List Nat) (b : Nat) : PyStr :=
  if isAlwaysSafe b || safe.contains b then [Char.ofNat b]
  else ['%', hexDigitUpper (b / 16), hexDigitUpper (b % 16)]

/-- `urllib.parse.quote(s, safe)` over the UTF-8 bytes of `s`; `safe` is the
ASCII byte set of the safe string (the script reaches this only through
`urlencode`, which passes `safe=''`). -/
def quote (safe : List Nat) (s : PyStr) : PyStr :=
  ((utf8Encode s).map (quoteByte safe)).flatten

theorem char_toNat_ofNat {n : Nat} (h : n < 0xd800) :
    (Char.ofNat n).toNat = n := by
  unfold Char.ofNat
  rw [dif_pos (Or.inl h)]
  rfl

/-- Value of a hex digit, either case (`_hextobyte` accepts both). -/
def hexVal (c : Char) : Option Nat :=
  if 0x30 ≤ c.toNat ∧ c.toNat ≤ 0x39 then some (c.toNat - 0x30)
  else if 0x41 ≤ c.toNat ∧ c.toNat ≤ 0x46 then some (c.toNat - 0x37)
  else if 0x61 ≤ c.toNat ∧ c.toNat ≤ 0x66 then some (c.toNat - 0x57)
  else none

/-- A non-escape character as an unquote token: ASCII characters join the
byte run of `unquote_to_bytes`, others pass through. -/
def plainTok (c : Char) : Sum Nat Char :=
  if c.toNat < 0x80 then .inl c.toNat else .inr c

/-- Tokenise a string for `unquote`: `%XX` becomes the byte `XX`, a `%` not
followed by two hex digits stays the literal byte `0x25`, ASCII characters
become their byte, non-ASCII characters pass through. -/
def unquoteTokens : PyStr → List (Sum Nat Char)
  | [] => []
  | [c] => if c = '%' then [.inl 0x25] else [plainTok c]
  | [c, a] =>
    if c = '%' then .inl 0x25 :: unquoteTokens [a]
    else plainTok c :: unquoteTokens [a]
  | c :: a :: b :: rest =>
    if c = '%' then
      match hexVal a, hexVal b with
      | some x, some y => .inl (16 * x + y) :: unquoteTokens rest
      | _, _ => .inl 0x25 :: unquoteTokens (a :: b :: rest)
    else plainTok c :: unquoteTokens (a :: b :: rest)

/-- Decode the token stream: maximal byte runs are decoded as UTF-8 (with
replacement), non-ASCII characters pass through. -/
def decodeTokens : List (Sum Nat Char) → List Nat → PyStr
  | [], acc => utf8Decode acc.reverse
  | .inl b :: rest, acc => decodeTokens rest (b :: acc)
  | .inr c :: rest, acc => utf8Decode acc.reverse ++ c :: decodeTokens rest []

/-- `urllib.parse.unquote` (the `'%' not in s` fast path of CPython returns
its input unchanged, which coincides with full processing, so the model
always processes). -/
def unquote (s : PyStr) : PyStr :=
  decodeTokens (unquoteTokens s) []

theorem unquoteTokens_plain {c : Char} (hc : c ≠ '%') (rest : PyStr) :
    unquoteTokens (c :: rest) = plainTok c :: unquoteTokens rest := by
  match rest with
  | [] => simp [unquoteTokens, hc]
  | [a] => simp [unquoteTokens, hc]
  | a :: b :: r => simp [unquoteTokens, hc]

theorem hexVal_hexDigitUpper {n : Nat} (h : n < 16) :
    hexVal (hexDigitUpper n) = some n := by
  unfold hexVal hexDigitUpper
  by_cases h10 : n < 10
  · rw [if_pos h10]
    have ht : (Char.ofNat (0x30 + n)).toNat = 0x30 + n :=
      char_toNat_ofNat (by omega)
    rw [if_pos (by rw [ht]; omega)]
    rw [ht]
    simp
  · rw [if_neg h10]
    have ht : (Char.ofNat (0x37 + n)).toNat = 0x37 + n :=
      char_toNat_ofNat (by omega)
    rw [if_neg (by rw [ht]; omega), if_pos (by rw [ht]; omega)]
    rw [ht]
    congr 1
    omega

theorem quoteByte_safe {b : Nat} (h : isAlwaysSafe b = true) :
    quoteByte [] b = [Char.ofNat b] := by
  unfold quoteByte
  rw [if_pos (by rw [h]; rfl)]

theorem quoteByte_escaped {b : Nat} (h : isAlwaysSafe b = false) :
    quoteByte [] b = ['%', hexDigitUpper (b / 16), hexDigitUpper (b % 16)] := by
  unfold quoteByte
  rw [if_neg (by rw [h, List.contains_nil]; exact Bool.false_ne_true)]

theorem unquoteTokens_escape {a b : Char} {x y : Nat}
    (ha : hexVal a = some x) (hb : hexVal b = some y) (rest : PyStr) :
    unquoteTokens ('%' :: a :: b :: rest) =
      .inl (16 * x + y) :: unquoteTokens rest := by
  conv_lhs => rw [unquoteTokens]
  rw [if_pos rfl, ha, hb]

theorem unquoteTokens_quoteBytes :
    ∀ bs : List Nat, (∀ b ∈ bs, b < 256) →
      unquoteTokens ((bs.map (quoteByte [])).flatten) = bs.map .inl := by
  intro bs
  induction bs with
  | nil => intro _; rfl
  | cons b bs ih =>
    intro hlt
    have hb : b < 256 := hlt b (List.mem_cons_self b bs)
    rw [List.map_cons, List.flatten_cons]
    cases hsafe : isAlwaysSafe b with
    | true =>
      have hlt128 : b < 0x80 := by
        simp [isAlwaysSafe] at hsafe
        omega
      have ht : (Char.ofNat b).toNat = b :=
        char_toNat_ofNat (by omega)
      rw [quoteByte_safe hsafe, List.cons_append, List.nil_append,
        unquoteTokens_plain (by
          intro hcon
          have : (Char.ofNat b).toNat = 0x25 := by rw [hcon]; rfl
          rw [ht] at this
          subst this
          simp [isAlwaysSafe] at hsafe)]
      rw [ih (fun x hx => hlt x (List.mem_cons_of_mem b hx))]
      unfold plainTok
      rw [if_pos (by rw [ht]; exact hlt128), ht, List.map_cons]
    | false =>
      rw [quoteByte_escaped hsafe, List.cons_append, List.cons_append,
        List.cons_append, List.nil_append,
        unquoteTokens_escape (hexVal_hexDigitUpper (by omega))
          (hexVal_hexDigitUpper (by omega)),
        ih (fun x hx => hlt x (List.mem_cons_of_mem b hx)), List.map_cons]
      congr 2
      omega

theorem decodeTokens_inl :
    ∀ (bs acc : List Nat),
      decodeTokens (bs.map .inl) acc = utf8Decode (acc.reverse ++ bs) := by
  intro bs
  induction bs with
  | nil => intro acc; simp [decodeTokens]
  | cons b bs ih =>
    intro acc
    rw [List.map_cons]
    unfold decodeTokens
    rw [ih (b :: acc)]
    congr 1
    simp

/-- `unquote ∘ quote` with an empty safe set is the identity. -/
theorem unquote_quote (s : PyStr) : unquote (quote [] s) = s := by
  unfold unquote quote
  rw [unquoteTokens_quoteBytes (utf8Encode s) (utf8Encode_bytes_lt s),
    decodeTokens_inl]
  simp only [List.reverse_nil, List.nil_append]
  exact utf8Decode_encode s

/-- Characters of a `quote` output with empty safe set: always-safe bytes or
the escape character. -/
theorem quote_chars {s : PyStr} :
    ∀ c ∈ quote [] s, isAlwaysSafe c.toNat = true ∨ c = '%' := by
  intro c hc
  unfold quote at hc
  rw [List.mem_flatten] at hc
  obtain ⟨piece, hpiece, hcm⟩ := hc
  rw [List.mem_map] at hpiece
  obtain ⟨b, hbm, hbq⟩ := hpiece
  have hb : b < 256 := utf8Encode_bytes_lt s b hbm
  subst hbq
  unfold quoteByte at hcm
  simp only [List.contains_nil, Bool.or_false] at hcm
  split at hcm
  · rename_i hsafe
    simp at hcm
    subst hcm
    left
    rw [char_toNat_ofNat (by omega)]
    exact hsafe
  · simp at hcm
    rcases hcm with rfl | rfl | rfl
    · exact .inr rfl
    · left
      unfold hexDigitUpper
      have h16 : b / 16 < 16 := by omega
      split
      · rename_i h10
        rw [char_toNat_ofNat (by omega)]
        simp [isAlwaysSafe]
        omega
      · rename_i h10
        rw [char_toNat_ofNat (by omega)]
        simp [isAlwaysSafe]
        omega
    · left
      unfold hexDigitUpper
      have h16 : b % 16 < 16 := by omega
      split
      · rename_i h10
        rw [char_toNat_ofNat (by omega)]
        simp [isAlwaysSafe]
        omega
      · rename_i h10
        rw [char_toNat_ofNat (by omega)]
        simp [isAlwaysSafe]
        omega

/-- A character that is neither always-safe nor `%` never occurs in a
`quote` output. -/
theorem quote_not_mem {s : PyStr} {c : Char}
    (hnotsafe : isAlwaysSafe c.toNat = false) (hp : c ≠ '%') :
    c ∉ quote [] s := by
  intro hc
  rcases quote_chars c hc with h | h
  · rw [h] at hnotsafe; exact absurd hnotsafe (by simp)
  · exact hp h

theorem replaceChar_noop {a b : Char} {l : PyStr} (h : a ∉ l) :
    replaceChar a b l = l := by
  unfold replaceChar
  induction l with
  | nil => rfl
  | cons x xs ih =>
    rw [List.map_cons]
    rw [if_neg (by intro hcon; subst hcon; exact h (List.mem_cons_self x xs)),
      ih (fun hx => h (List.mem_cons_of_mem x hx))]

/-- The full name/value decoding step of `parse_qsl` undoes `quote`. -/
theorem unquote_replace_quote (s : PyStr) :
    unquote (replaceChar '+' ' ' (quote [] s)) = s := by
  rw [replaceChar_noop (quote_not_mem (by decide) (by decide)),
    unquote_quote]

theorem quote_ne_nil {s : PyStr} (h : s ≠ []) : quote [] s ≠ [] := by
  unfold quote
  intro hcon
  have hbytes := utf8Encode_ne_nil h
  match hb : utf8Encode s with
  | [] => exact hbytes hb
  | b :: bs =>
    rw [hb, List.map_cons, List.flatten_cons] at hcon
    have := List.append_eq_nil.mp hcon
    have h1 := this.1
    unfold quoteByte at h1
    split at h1 <;> simp at h1

/-! ### urlsplit / urlparse / urlunsplit / urlunparse

Transcribed from CPython 3.11 `urllib/parse.py`.  Notes:
- `_coerce_args` is the identity on `str` inputs (the script only passes
  `str`), and the default `scheme` argument is the empty string.
- `_checknetloc` returns immediately for an all-ASCII netloc and otherwise
  only rejects netlocs whose NFKC normalisation introduces a delimiter; it is
  modelled as a no-op.  `_check_bracketed_host` (reached only when the netloc
  contains both `[` and `]`) validates the bracketed address; it is likewise
  not modelled, so the model accepts some bracketed netlocs CPython rejects.
  The mismatched-bracket `ValueError` of `urlsplit` itself is modelled.
- `str.lower` is modelled on ASCII letters only; it is applied to a string
  whose characters all pass the `scheme_chars` test, which are ASCII. -/

/-- Characters stripped from both ends by the WHATWG lstrip in `urlsplit`:
C0 controls and space. -/
def isC0OrSpace (c : Char) : Bool := c.toNat ≤ 0x20

/-- A byte `urlsplit` deletes everywhere (`_UNSAFE_URL_BYTES_TO_REMOVE`). -/
def isUnsafeUrlByte (c : Char) : Bool := c == '\t' || c == '\r' || c == '\n'

/-- The input normalisation of `urlsplit`: `lstrip` of C0 controls/space,
then removal of every tab, CR and LF. -/
def sanitizeUrl (s : PyStr) : PyStr :=
  (s.dropWhile isC0OrSpace).filter (fun c => !isUnsafeUrlByte c)

/-- `scheme_chars` from `urllib.parse`. -/
def isSchemeChar (c : Char) : Bool :=
  (0x61 ≤ c.toNat && c.toNat ≤ 0x7A) || (0x41 ≤ c.toNat && c.toNat ≤ 0x5A) ||
  (0x30 ≤ c.toNat && c.toNat ≤ 0x39) || c == '+' || c == '-' || c == '.'

/-- `url[0].isascii() and url[0].isalpha()`: an ASCII letter. -/
def isAsciiAlpha (c : Char) : Bool :=
  (0x41 ≤ c.toNat && c.toNat ≤ 0x5A) || (0x61 ≤ c.toNat && c.toNat ≤ 0x7A)

/-- ASCII `str.lower` on one character. -/
def pyLowerChar (c : Char) : Char :=
  if 0x41 ≤ c.toNat ∧ c.toNat ≤ 0x5A then Char.ofNat (c.toNat + 32) else c

/-- The scheme detection of `urlsplit`: the text before the first `:` is
taken as the scheme when it is nonempty, starts with an ASCII letter and
consists of `scheme_chars`; otherwise the url is left whole. -/
def schemeSplit (u : PyStr) : PyStr × PyStr :=
  match splitFirst ':' u with
  | some (c :: cs, after) =>
    if isAsciiAlpha c && (c :: cs).all isSchemeChar
    then ((c :: cs).map pyLowerChar, after)
    else ([], u)
  | _ => ([], u)

/-- A character `_splitnetloc` does not treat as a delimiter. -/
def netlocChar (c : Char) : Bool := !(c == '/' || c == '?' || c == '#')

/-- The mismatched-bracket test of `urlsplit` (`[` without `]` or
conversely). -/
def bracketBad (n : PyStr) : Bool :=
  (n.contains '[' && !n.contains ']') || (n.contains ']' && !n.contains '[')

/-- The netloc extraction of `urlsplit`: when the url starts with `//`,
`_splitnetloc` takes everything up to the first `/`, `?` or `#`, and the
mismatched-bracket check may raise `ValueError`. -/
def netlocSplit (u : PyStr) : Except PyErr (PyStr × PyStr) :=
  if u.take 2 = pys "//" then
    let n := (u.drop 2).takeWhile netlocChar
    if bracketBad n then .error (.valueError (pys "Invalid IPv6 URL"))
    else .ok (n, (u.drop 2).dropWhile netlocChar)
  else .ok ([], u)

/-- `url.split(chr, 1)` when present, else the url whole: used for the `#`
and `?` splits of `urlsplit`. -/
def sepSplit (c : Char) (u : PyStr) : PyStr × PyStr :=
  match splitFirst c u with
  | some p => p
  | none => (u, [])

/-- The five components of `urlsplit`. -/
structure SplitResult where
  scheme : PyStr
  netloc : PyStr
  path : PyStr
  query : PyStr
  fragment : PyStr
deriving Repr, DecidableEq

/-- `urllib.parse.urlsplit(url)` with default scheme and
`allow_fragments=True`. -/
def urlsplitModel (url0 : PyStr) : Except PyErr SplitResult := do
  let u := sanitizeUrl url0
  let s := schemeSplit u
  let nl ← netlocSplit s.2
  let f := sepSplit '#' nl.2
  let q := sepSplit '?' f.1
  .ok ⟨s.1, nl.1, q.1, q.2, f.2⟩

/-- `uses_params` from `urllib.parse`. -/
def uses_params : List PyStr :=
  [pys "", pys "ftp", pys "hdl", pys "prospero", pys "http", pys "imap",
   pys "https", pys "shttp", pys "rtsp", pys "rtsps", pys "rtspu",
   pys "sip", pys "sips", pys "mms", pys "sftp", pys "tel"]

/-- `uses_netloc` from `urllib.parse`. -/
def uses_netloc : List PyStr :=
  [pys "", pys "ftp", pys "http", pys "gopher", pys "nntp", pys "telnet",
   pys "imap", pys "wais", pys "file", pys "mms", pys "https", pys "shttp",
   pys "snews", pys "prospero", pys "rtsp", pys "rtsps", pys "rtspu",
   pys "rsync", pys "svn", pys "svn+ssh", pys "sftp", pys "nfs", pys "git",
   pys "git+ssh", pys "ws", pys "wss"]

/-- `_splitparams`; `urlparse` only calls it when `;` occurs in the path, so
the not-found case of the no-slash branch is unreachable there (CPython
would return `url[:-1]` for it; the model returns the url whole, which is
never exercised). -/
def splitparams (url : PyStr) : PyStr × PyStr :=
  let i :=
    if url.contains '/' then
      match rfindPos '/' url with
      | some j => findFrom ';' url j
      | none => none
    else findFrom ';' url 0
  match i with
  | some n => (url.take n, url.drop (n + 1))
  | none => (url, [])

/-- The six components of `urlparse`. -/
structure ParseResult where
  scheme : PyStr
  netloc : PyStr
  path : PyStr
  params : PyStr
  query : PyStr
  fragment : PyStr
deriving Repr, DecidableEq

/-- `urllib.parse.urlparse(url)`: `urlsplit` plus the params split, applied
when the scheme uses params and the path contains `;`. -/
def urlparseModel (url : PyStr) : Except PyErr ParseResult := do
  let sr ← urlsplitModel url
  let pp :=
    if uses_params.contains sr.scheme && sr.path.contains ';' then
      splitparams sr.path
    else (sr.path, ([] : PyStr))
  .ok ⟨sr.scheme, sr.netloc, pp.1, pp.2, sr.query, sr.fragment⟩

/-- `urllib.parse.urlunsplit`. -/
def urlunsplitModel (scheme netloc url query fragment : PyStr) : PyStr :=
  let u1 :=
    if netloc ≠ [] ∨
        (scheme ≠ [] ∧ uses_netloc.contains scheme = true ∧
          url.take 2 ≠ pys "//") then
      let u0 := if url ≠ [] ∧ url.take 1 ≠ pys "/" then '/' :: url else url
      '/' :: '/' :: (netloc ++ u0)
    else url
  let u2 := if scheme ≠ [] then scheme ++ ':' :: u1 else u1
  let u3 := if query ≠ [] then u2 ++ '?' :: query else u2
  if fragment ≠ [] then u3 ++ '#' :: fragment else u3

/-- `urllib.parse.urlunparse`: params are glued back onto the path with `;`
before `urlunsplit`. -/
def urlunparseModel (scheme netloc url params query fragment : PyStr) :
    PyStr :=
  urlunsplitModel scheme netloc
    (if params ≠ [] then url ++ ';' :: params else url) query fragment

/-! ### parse_qsl / parse_qs / urlencode

`parse_qsl` as called by the script: `strict_parsing=True`,
`keep_blank_values=False`, separator `&`, utf-8/replace decoding.  An empty
query string yields no fields (`qs.split(separator) if qs else []`).  A field
without `=` raises `ValueError` (strict); a field with an empty value is
dropped (blank values not kept).  `urlencode` as called by the script:
`doseq=True`, `quote_via=quote`, `safe=''`, over a dict whose values are
lists of strings. -/

/-- One field of `parse_qsl`: `some (name, value)` for a kept pair, `none`
for a dropped blank-valued field, `ValueError` for a field without `=`. -/
def parseQslField (f : PyStr) : Except PyErr (Option (PyStr × PyStr)) :=
  match splitFirst '=' f with
  | none => .error (.valueError f)
  | some (n, v) =>
    if v ≠ [] then
      .ok (some (unquote (replaceChar '+' ' ' n),
                 unquote (replaceChar '+' ' ' v)))
    else .ok none

/-- The field loop of `parse_qsl`, in order, stopping at the first error. -/
def parseFields : List PyStr → Except PyErr (List (PyStr × PyStr))
  | [] => .ok []
  | f :: fs => do
    let h ← parseQslField f
    let rest ← parseFields fs
    match h with
    | some p => .ok (p :: rest)
    | none => .ok rest

/-- `parse_qsl(qs, strict_parsing=True)`. -/
def parse_qsl_strict (qs : PyStr) : Except PyErr (List (PyStr × PyStr)) :=
  if qs = [] then .ok [] else parseFields (splitChar '&' qs)

/-- One step of the dict-building loop of `parse_qs`: append to the value
list of an existing key, else add a new key (dicts keep insertion order,
modelled as an association list). -/
def addPair (d : List (PyStr × List PyStr)) (p : PyStr × PyStr) :
    List (PyStr × List PyStr) :=
  if d.any (fun e => e.1 == p.1) then
    d.map (fun e => if e.1 == p.1 then (e.1, e.2 ++ [p.2]) else e)
  else d ++ [(p.1, [p.2])]

/-- `parse_qs(qs, strict_parsing=True)`. -/
def parse_qs_strict (qs : PyStr) :
    Except PyErr (List (PyStr × List PyStr)) :=
  (parse_qsl_strict qs).map (fun ps => ps.foldl addPair [])

/-- `urlencode(query, doseq=True, quote_via=quote)` on a dict of string
lists: one `quote(k)=quote(v)` piece per list element, joined with `&`. -/
def urlencodeModel (q : List (PyStr × List PyStr)) : PyStr :=
  List.intercalate (pys "&")
    ((q.map (fun e => e.2.map (fun v => quote [] e.1 ++ '=' :: quote [] v))).flatten)

/-- `dict.pop(k)` on the association list: `KeyError` when absent. -/
def dict_pop (d : List (PyStr × List PyStr)) (k : PyStr) :
    Except PyErr (List (PyStr × List PyStr)) :=
  if d.any (fun e => e.1 == k) then
    .ok (d.filter (fun e => !(e.1 == k)))
  else .error .keyError

/-- `dict.update({k: v})`: replace in place when present, else append. -/
def dict_update (d : List (PyStr × List PyStr)) (k : PyStr) (v : List PyStr) :
    List (PyStr × List PyStr) :=
  if d.any (fun e => e.1 == k) then
    d.map (fun e => if e.1 == k then (e.1, v) else e)
  else d ++ [(k, v)]

/-! ### The URL-rewriting helpers of the script -/

/-- `get_query_parameters` (line 149): parse the url, then the query with
strict parsing. -/
def get_query_parameters (url : PyStr) :
    Except PyErr (List (PyStr × List PyStr)) := do
  let pr ← urlparseModel url
  parse_qs_strict pr.query

/-- `set_query_parameters` (line 154): re-encode the given parameters and
reassemble around the other parsed components. -/
def set_query_parameters (url : PyStr) (qp : List (PyStr × List PyStr)) :
    Except PyErr PyStr := do
  let pr ← urlparseModel url
  .ok (urlunparseModel pr.scheme pr.netloc pr.path pr.params
        (urlencodeModel qp) pr.fragment)

/-- `remove_query_parameter` (line 165): `dict.pop` of the name, then
reassembly. -/
def remove_query_parameter (url name : PyStr) : Except PyErr PyStr := do
  let qp ← get_query_parameters url
  let qp2 ← dict_pop qp name
  set_query_parameters url qp2

/-- `set_query_parameter` (line 171): `dict.update({name: [value]})`, then
reassembly. -/
def set_query_parameter (url name value : PyStr) : Except PyErr PyStr := do
  let qp ← get_query_parameters url
  set_query_parameters url (dict_update qp name [value])

/-! ### splitFirst, sepSplit and takeWhile structure lemmas -/

theorem splitFirst_cons_self (c : Char) (ys : PyStr) :
    splitFirst c (c :: ys) = some ([], ys) := by
  simp [splitFirst]

theorem splitFirst_not_mem {c : Char} : ∀ {l : PyStr}, c ∉ l →
    splitFirst c l = none := by
  intro l
  induction l with
  | nil => intro _; rfl
  | cons x xs ih =>
    intro h
    unfold splitFirst
    rw [if_neg (by intro hcon; exact h (hcon ▸ List.mem_cons_self x xs)),
      ih (fun hm => h (List.mem_cons_of_mem x hm))]

theorem splitFirst_none_not_mem {c : Char} : ∀ {l : PyStr},
    splitFirst c l = none → c ∉ l := by
  intro l
  induction l with
  | nil => intro _ h; exact absurd h (List.not_mem_nil c)
  | cons x xs ih =>
    intro h hm
    unfold splitFirst at h
    split at h
    · exact absurd h (by simp)
    · rename_i hx
      rcases List.mem_cons.mp hm with rfl | hm2
      · exact hx rfl
      · split at h
        · rename_i hnone
          exact ih hnone hm2
        · exact absurd h (by simp)

theorem splitFirst_sound {c : Char} : ∀ {l b r : PyStr},
    splitFirst c l = some (b, r) → l = b ++ c :: r ∧ c ∉ b := by
  intro l
  induction l with
  | nil => intro b r h; exact absurd h (by simp [splitFirst])
  | cons x xs ih =>
    intro b r h
    unfold splitFirst at h
    split at h
    · rename_i hx
      subst hx
      have := Option.some.inj h
      have hb : b = [] := (Prod.mk.injEq _ _ _ _ ▸ this).1.symm
      have hr : r = xs := (Prod.mk.injEq _ _ _ _ ▸ this).2.symm
      subst hb; subst hr
      exact ⟨rfl, List.not_mem_nil _⟩
    · rename_i hx
      split at h
      · exact absurd h (by simp)
      · rename_i a bb hrec
        have := Option.some.inj h
        have hb : b = x :: a := (Prod.mk.injEq _ _ _ _ ▸ this).1.symm
        have hr : r = bb := (Prod.mk.injEq _ _ _ _ ▸ this).2.symm
        subst hb; subst hr
        obtain ⟨he, hnm⟩ := ih hrec
        refine ⟨by rw [List.cons_append, ← he], ?_⟩
        intro hm
        rcases List.mem_cons.mp hm with hcx | hm2
        · exact hx hcx.symm
        · exact hnm hm2

theorem splitFirst_append_left {c : Char} : ∀ {xs : PyStr} {b r ys : PyStr},
    splitFirst c xs = some (b, r) →
    splitFirst c (xs ++ ys) = some (b, r ++ ys) := by
  intro xs
  induction xs with
  | nil => intro b r ys h; exact absurd h (by simp [splitFirst])
  | cons x t ih =>
    intro b r ys h
    unfold splitFirst at h
    rw [List.cons_append]
    unfold splitFirst
    split at h
    · rename_i hx
      rw [if_pos hx]
      have := Option.some.inj h
      have hb : b = [] := (Prod.mk.injEq _ _ _ _ ▸ this).1.symm
      have hr : r = t := (Prod.mk.injEq _ _ _ _ ▸ this).2.symm
      subst hb; subst hr
      rfl
    · rename_i hx
      rw [if_neg hx]
      split at h
      · exact absurd h (by simp)
      · rename_i a bb hrec
        rw [ih hrec]
        have := Option.some.inj h
        have hb : b = x :: a := (Prod.mk.injEq _ _ _ _ ▸ this).1.symm
        have hr : r = bb := (Prod.mk.injEq _ _ _ _ ▸ this).2.symm
        subst hb; subst hr
        rfl

theorem splitFirst_cons_ne {c x : Char} (h : ¬ x = c) (xs : PyStr) :
    splitFirst c (x :: xs) =
      (splitFirst c xs).map (fun p => (x :: p.1, p.2)) := by
  conv_lhs => rw [splitFirst]
  rw [if_neg h]
  cases hs : splitFirst c xs with
  | none => rfl
  | some p => rfl

theorem splitFirst_append_skip {c : Char} : ∀ {xs : PyStr}, c ∉ xs →
    ∀ (ys : PyStr), splitFirst c (xs ++ ys) =
      (splitFirst c ys).map (fun p => (xs ++ p.1, p.2)) := by
  intro xs
  induction xs with
  | nil =>
    intro _ ys
    simp only [List.nil_append]
    cases h : splitFirst c ys with
    | none => rfl
    | some p => rfl
  | cons x t ih =>
    intro h ys
    have hxc : ¬ x = c := by
      intro hcon
      exact h (by rw [hcon]; exact List.mem_cons_self c t)
    rw [List.cons_append, splitFirst_cons_ne hxc,
      ih (fun hm => h (List.mem_cons_of_mem x hm)) ys]
    cases hy : splitFirst c ys with
    | none => rfl
    | some p => rfl

theorem splitFirst_first {c : Char} {xs : PyStr} (h : c ∉ xs) (ys : PyStr) :
    splitFirst c (xs ++ c :: ys) = some (xs, ys) := by
  rw [splitFirst_append_skip h, splitFirst_cons_self]
  simp

theorem splitFirst_mem {c : Char} {l : PyStr} (h : c ∈ l) :
    ∃ b r, splitFirst c l = some (b, r) := by
  cases hs : splitFirst c l with
  | none => exact absurd h (splitFirst_none_not_mem hs)
  | some p =>
    refine ⟨p.1, p.2, ?_⟩
    rfl

theorem sepSplit_not_mem {c : Char} {u : PyStr} (h : c ∉ u) :
    sepSplit c u = (u, []) := by
  unfold sepSplit
  rw [splitFirst_not_mem h]

theorem sepSplit_found {c : Char} {xs : PyStr} (h : c ∉ xs) (ys : PyStr) :
    sepSplit c (xs ++ c :: ys) = (xs, ys) := by
  unfold sepSplit
  rw [splitFirst_first h]

theorem takeWhile_append_of_all {p : Char → Bool} :
    ∀ {xs : PyStr} {ys : PyStr}, (∀ x ∈ xs, p x = true) →
      (∀ c, ys.head? = some c → p c = false) →
      (xs ++ ys).takeWhile p = xs ∧ (xs ++ ys).dropWhile p = ys := by
  intro xs
  induction xs with
  | nil =>
    intro ys _ hy
    simp only [List.nil_append]
    cases ys with
    | nil => exact ⟨rfl, rfl⟩
    | cons y t =>
      have := hy y rfl
      constructor
      · simp [List.takeWhile_cons, this]
      · simp [List.dropWhile_cons, this]
  | cons x t ih =>
    intro ys hx hy
    have hpx : p x = true := hx x (List.mem_cons_self x t)
    obtain ⟨h1, h2⟩ := ih (fun a ha => hx a (List.mem_cons_of_mem x ha)) hy
    constructor
    · rw [List.cons_append, List.takeWhile_cons, hpx]
      simp only [if_true, h1]
    · rw [List.cons_append, List.dropWhile_cons, hpx]
      simp only [if_true, h2]

/-! ### Character-class facts -/

/-- A character not deleted by the `urlsplit` normalisation. -/
def cleanChar (c : Char) : Prop := c ≠ '\t' ∧ c ≠ '\r' ∧ c ≠ '\n'

/-- A string the `urlsplit` normalisation does not delete from. -/
def cleanStr (l : PyStr) : Prop := ∀ c ∈ l, cleanChar c

theorem cleanChar_of_gt {c : Char} (h : 0x20 < c.toNat ∨ (c.toNat ≠ 9 ∧
    c.toNat ≠ 13 ∧ c.toNat ≠ 10)) : cleanChar c := by
  refine ⟨?_, ?_, ?_⟩ <;>
    (intro hcon; subst hcon; revert h; decide)

theorem sanitize_fixed {s : PyStr} (hh : ∀ c, s.head? = some c →
    0x20 < c.toNat) (hc : cleanStr s) : sanitizeUrl s = s := by
  unfold sanitizeUrl
  have hdrop : s.dropWhile isC0OrSpace = s := by
    cases s with
    | nil => rfl
    | cons x t =>
      have := hh x rfl
      rw [List.dropWhile_cons, if_neg ?_]
      simp only [isC0OrSpace, decide_eq_true_eq]
      omega
  rw [hdrop]
  rw [List.filter_eq_self.mpr]
  intro c hcm
  obtain ⟨h1, h2, h3⟩ := hc c hcm
  simp only [isUnsafeUrlByte, Bool.not_eq_true', Bool.or_eq_false_iff,
    beq_eq_false_iff_ne, ne_eq]
  exact ⟨⟨h1, h2⟩, h3⟩

theorem sanitize_clean (s : PyStr) : cleanStr (sanitizeUrl s) := by
  intro c hcm
  unfold sanitizeUrl at hcm
  have := List.of_mem_filter hcm
  simp only [isUnsafeUrlByte, Bool.not_eq_true', Bool.or_eq_false_iff,
    beq_eq_false_iff_ne, ne_eq] at this
  exact ⟨this.1.1, this.1.2, this.2⟩

theorem sanitize_head (s : PyStr) : ∀ c, (sanitizeUrl s).head? = some c →
    0x20 < c.toNat := by
  intro c hc
  unfold sanitizeUrl at hc
  cases hdw : s.dropWhile isC0OrSpace with
  | nil => rw [hdw] at hc; exact absurd hc (by simp)
  | cons x t =>
    have hx : isC0OrSpace x = false := by
      have hspec := List.head?_dropWhile_not isC0OrSpace s
      rw [hdw] at hspec
      simpa using hspec
    simp only [isC0OrSpace] at hx
    rw [decide_eq_false_iff_not] at hx
    have hkeep : (!isUnsafeUrlByte x) = true := by
      simp only [isUnsafeUrlByte, Bool.not_eq_true', Bool.or_eq_false_iff,
        beq_eq_false_iff_ne, ne_eq]
      refine ⟨⟨?_, ?_⟩, ?_⟩ <;>
        (intro hcon; subst hcon; exact absurd (by decide) hx)
    rw [hdw, List.filter_cons, hkeep] at hc
    simp only [if_true] at hc
    simp only [List.head?_cons, Option.some.injEq] at hc
    subst hc
    omega

theorem netlocChar_spec {c : Char} (h : netlocChar c = true) :
    c ≠ '/' ∧ c ≠ '?' ∧ c ≠ '#' := by
  simp only [netlocChar, Bool.not_eq_true', Bool.or_eq_false_iff,
    beq_eq_false_iff_ne, ne_eq] at h
  exact ⟨h.1.1, h.1.2, h.2⟩

theorem isSchemeChar_ne {c : Char} (h : isSchemeChar c = true) :
    c ≠ ':' ∧ c ≠ '/' ∧ c ≠ '?' ∧ c ≠ '#' ∧ cleanChar c ∧ 0x20 < c.toNat := by
  simp only [isSchemeChar, Bool.or_eq_true, Bool.and_eq_true,
    decide_eq_true_eq, beq_iff_eq] at h
  have hn : 0x20 < c.toNat := by
    rcases h with ((((((⟨h1, _⟩ | ⟨h1, _⟩) | ⟨h1, _⟩) | rfl) | rfl) | rfl)) <;>
      first
      | omega
      | decide
  refine ⟨?_, ?_, ?_, ?_, cleanChar_of_gt (.inl hn), hn⟩ <;>
    (intro hcon; subst hcon; revert h; decide)

theorem pyLowerChar_toNat (c : Char) : (pyLowerChar c).toNat =
    if 0x41 ≤ c.toNat ∧ c.toNat ≤ 0x5A then c.toNat + 32 else c.toNat := by
  unfold pyLowerChar
  by_cases h : 0x41 ≤ c.toNat ∧ c.toNat ≤ 0x5A
  · rw [if_pos h, if_pos h]
    exact char_toNat_ofNat (by omega)
  · rw [if_neg h, if_neg h]

theorem pyLowerChar_of_not {d : Char}
    (h : ¬(0x41 ≤ d.toNat ∧ d.toNat ≤ 0x5A)) : pyLowerChar d = d := by
  unfold pyLowerChar
  rw [if_neg h]

theorem pyLowerChar_idem (c : Char) :
    pyLowerChar (pyLowerChar c) = pyLowerChar c := by
  apply pyLowerChar_of_not
  rw [pyLowerChar_toNat]
  by_cases h : 0x41 ≤ c.toNat ∧ c.toNat ≤ 0x5A
  · rw [if_pos h]; omega
  · rw [if_neg h]; omega

theorem pyLowerChar_scheme {c : Char} (h : isSchemeChar c = true) :
    isSchemeChar (pyLowerChar c) = true := by
  by_cases hr : 0x41 ≤ c.toNat ∧ c.toNat ≤ 0x5A
  · have ht : (pyLowerChar c).toNat = c.toNat + 32 := by
      rw [pyLowerChar_toNat, if_pos hr]
    simp only [isSchemeChar, Bool.or_eq_true, Bool.and_eq_true,
      decide_eq_true_eq]
    left; left; left; left; left
    omega
  · unfold pyLowerChar
    rw [if_neg hr]
    exact h

theorem pyLowerChar_alpha {c : Char} (h : isAsciiAlpha c = true) :
    isAsciiAlpha (pyLowerChar c) = true := by
  by_cases hr : 0x41 ≤ c.toNat ∧ c.toNat ≤ 0x5A
  · have ht : (pyLowerChar c).toNat = c.toNat + 32 := by
      rw [pyLowerChar_toNat, if_pos hr]
    simp only [isAsciiAlpha, Bool.or_eq_true, Bool.and_eq_true,
      decide_eq_true_eq]
    right
    omega
  · unfold pyLowerChar
    rw [if_neg hr]
    exact h

/-! ### schemeSplit characterisation -/

/-- Shape of a scheme produced by `schemeSplit`: empty, or a nonempty string
of scheme characters starting with an ASCII letter and fixed under
lowercasing. -/
def SchemeOk (s : PyStr) : Prop :=
  s = [] ∨ (∃ c cs, s = c :: cs ∧ isAsciiAlpha c = true ∧
    s.all isSchemeChar = true ∧ s.map pyLowerChar = s)

/-- The text before the first `:` of `l`, if any, is not a valid scheme. -/
def NoSchemeColon (l : PyStr) : Prop :=
  ∀ b r, splitFirst ':' l = some (b, r) →
    b = [] ∨ ∃ c cs, b = c :: cs ∧
      (isAsciiAlpha c && (c :: cs).all isSchemeChar) = false

theorem schemeSplit_of_none {l : PyStr} (h : splitFirst ':' l = none) :
    schemeSplit l = ([], l) := by
  unfold schemeSplit
  rw [h]

theorem schemeSplit_of_nilpre {l r : PyStr}
    (h : splitFirst ':' l = some ([], r)) : schemeSplit l = ([], l) := by
  unfold schemeSplit
  rw [h]

theorem schemeSplit_of_pass {l r : PyStr} {c : Char} {cs : PyStr}
    (h : splitFirst ':' l = some (c :: cs, r))
    (hc : (isAsciiAlpha c && (c :: cs).all isSchemeChar) = true) :
    schemeSplit l = ((c :: cs).map pyLowerChar, r) := by
  unfold schemeSplit
  rw [h]
  simp only [hc, if_true]

theorem schemeSplit_of_fail {l r : PyStr} {c : Char} {cs : PyStr}
    (h : splitFirst ':' l = some (c :: cs, r))
    (hc : (isAsciiAlpha c && (c :: cs).all isSchemeChar) = false) :
    schemeSplit l = ([], l) := by
  unfold schemeSplit
  rw [h]
  simp only [hc, Bool.false_eq_true, if_false]

theorem schemeSplit_of_noColon {l : PyStr} (h : NoSchemeColon l) :
    schemeSplit l = ([], l) := by
  cases hs : splitFirst ':' l with
  | none => exact schemeSplit_of_none hs
  | some p =>
    cases p with
    | mk b r =>
      rcases h b r hs with rfl | ⟨c, cs, rfl, hbad⟩
      · exact schemeSplit_of_nilpre hs
      · exact schemeSplit_of_fail hs hbad

theorem noSchemeColon_of_head {l : PyStr}
    (h : ∀ c, l.head? = some c → isAsciiAlpha c = false) :
    NoSchemeColon l := by
  intro b r hs
  obtain ⟨he, _⟩ := splitFirst_sound hs
  cases b with
  | nil => exact .inl rfl
  | cons c cs =>
    right
    refine ⟨c, cs, rfl, ?_⟩
    have hhead : l.head? = some c := by rw [he]; rfl
    rw [h c hhead, Bool.false_and]

theorem schemeSplit_of_head {l : PyStr}
    (h : ∀ c, l.head? = some c → isAsciiAlpha c = false) :
    schemeSplit l = ([], l) :=
  schemeSplit_of_noColon (noSchemeColon_of_head h)

theorem schemeSplit_inv {l s r : PyStr} (h : schemeSplit l = (s, r)) :
    (s = [] ∧ r = l ∧ NoSchemeColon l) ∨
    (∃ c cs rr, splitFirst ':' l = some (c :: cs, rr) ∧
      (isAsciiAlpha c && (c :: cs).all isSchemeChar) = true ∧
      s = (c :: cs).map pyLowerChar ∧ r = rr) := by
  cases hs : splitFirst ':' l with
  | none =>
    rw [schemeSplit_of_none hs] at h
    obtain ⟨h1, h2⟩ := Prod.mk.injEq _ _ _ _ ▸ h
    subst h1; subst h2
    exact .inl ⟨rfl, rfl, fun b rr hcon => absurd hcon (by rw [hs]; simp)⟩
  | some p =>
    cases p with
    | mk b rr =>
      cases b with
      | nil =>
        rw [schemeSplit_of_nilpre hs] at h
        obtain ⟨h1, h2⟩ := Prod.mk.injEq _ _ _ _ ▸ h
        subst h1; subst h2
        exact .inl ⟨rfl, rfl, fun b2 r2 hcon => by
          rw [hs] at hcon
          exact .inl ((Prod.mk.injEq _ _ _ _ ▸ Option.some.inj hcon).1.symm)⟩
      | cons c cs =>
        cases hc : (isAsciiAlpha c && (c :: cs).all isSchemeChar) with
        | true =>
          rw [schemeSplit_of_pass hs hc] at h
          obtain ⟨h1, h2⟩ := Prod.mk.injEq _ _ _ _ ▸ h
          exact .inr ⟨c, cs, rr, rfl, hc, h1.symm, h2.symm⟩
        | false =>
          rw [schemeSplit_of_fail hs hc] at h
          obtain ⟨h1, h2⟩ := Prod.mk.injEq _ _ _ _ ▸ h
          subst h1; subst h2
          exact .inl ⟨rfl, rfl, fun b2 r2 hcon => by
            rw [hs] at hcon
            have hb2 : b2 = c :: cs :=
              (Prod.mk.injEq _ _ _ _ ▸ Option.some.inj hcon).1.symm
            exact .inr ⟨c, cs, hb2, hc⟩⟩

theorem noSchemeColon_append {l ext : PyStr} (h : NoSchemeColon (l ++ ext)) :
    NoSchemeColon l := by
  intro b r hs
  obtain ⟨he, hnb⟩ := splitFirst_sound hs
  have hsa : splitFirst ':' (l ++ ext) = some (b, r ++ ext) := by
    rw [he, List.append_assoc, List.cons_append]
    exact splitFirst_first hnb _
  exact h b (r ++ ext) hsa

/-! ### netlocSplit and sepSplit characterisation -/

theorem netlocSplit_no {u : PyStr} (h : u.take 2 ≠ pys "//") :
    netlocSplit u = .ok ([], u) := by
  unfold netlocSplit
  rw [if_neg h]

theorem netlocSplit_yes {u : PyStr} (h : u.take 2 = pys "//")
    (hb : bracketBad ((u.drop 2).takeWhile netlocChar) = false) :
    netlocSplit u = .ok ((u.drop 2).takeWhile netlocChar,
      (u.drop 2).dropWhile netlocChar) := by
  unfold netlocSplit
  rw [if_pos h]
  simp only [hb, Bool.false_eq_true, if_false]

theorem netlocSplit_inv {u n r : PyStr} (h : netlocSplit u = .ok (n, r)) :
    (u.take 2 ≠ pys "//" ∧ n = [] ∧ r = u) ∨
    (u.take 2 = pys "//" ∧ n = (u.drop 2).takeWhile netlocChar ∧
      r = (u.drop 2).dropWhile netlocChar ∧ bracketBad n = false) := by
  by_cases h2 : u.take 2 = pys "//"
  · cases hb : bracketBad ((u.drop 2).takeWhile netlocChar) with
    | true =>
      unfold netlocSplit at h
      rw [if_pos h2] at h
      simp only [hb, if_true] at h
      exact Except.noConfusion h
    | false =>
      rw [netlocSplit_yes h2 hb] at h
      have hinj := Except.ok.inj h
      obtain ⟨hn, hr⟩ := Prod.mk.injEq _ _ _ _ ▸ hinj
      exact .inr ⟨h2, hn.symm, hr.symm, hn ▸ hb⟩
  · rw [netlocSplit_no h2] at h
    have hinj := Except.ok.inj h
    obtain ⟨hn, hr⟩ := Prod.mk.injEq _ _ _ _ ▸ hinj
    exact .inl ⟨h2, hn.symm, hr.symm⟩

theorem sepSplit_inv {c : Char} {u a b : PyStr} (h : sepSplit c u = (a, b)) :
    (u = a ++ c :: b ∧ c ∉ a) ∨ (a = u ∧ b = [] ∧ c ∉ u) := by
  unfold sepSplit at h
  cases hs : splitFirst c u with
  | none =>
    rw [hs] at h
    obtain ⟨ha, hb⟩ := Prod.mk.injEq _ _ _ _ ▸ h
    exact .inr ⟨ha.symm, hb.symm, splitFirst_none_not_mem hs⟩
  | some p =>
    rw [hs] at h
    cases p with
    | mk x y =>
      obtain ⟨ha, hb⟩ := Prod.mk.injEq _ _ _ _ ▸ h
      subst ha; subst hb
      obtain ⟨he, hnm⟩ := splitFirst_sound hs
      exact .inl ⟨he, hnm⟩

/-! ### The shape of components produced by a successful urlsplit -/

/-- Invariants of the components of a successful `urlsplitModel` run, as
needed to reassemble and re-parse the URL. -/
structure GoodComponents (sr : SplitResult) : Prop where
  scheme_ok : SchemeOk sr.scheme
  netloc_chars : sr.netloc.all netlocChar = true
  netloc_brackets : bracketBad sr.netloc = false
  netloc_clean : cleanStr sr.netloc
  path_noq : '?' ∉ sr.path
  path_noh : '#' ∉ sr.path
  path_clean : cleanStr sr.path
  path_head : sr.scheme = [] → ∀ c, sr.path.head? = some c → 0x20 < c.toNat
  path_cols : sr.scheme = [] → NoSchemeColon sr.path
  frag_clean : cleanStr sr.fragment

theorem urlsplit_good {w : PyStr} {sr : SplitResult}
    (h : urlsplitModel w = .ok sr) : GoodComponents sr := by
  unfold urlsplitModel at h
  replace h : (netlocSplit (schemeSplit (sanitizeUrl w)).2 >>= (fun nl =>
      (.ok ⟨(schemeSplit (sanitizeUrl w)).1, nl.1,
        (sepSplit '?' (sepSplit '#' nl.2).1).1,
        (sepSplit '?' (sepSplit '#' nl.2).1).2,
        (sepSplit '#' nl.2).2⟩ : Except PyErr SplitResult))) = .ok sr := h
  obtain ⟨S, u2, hss⟩ : ∃ p1 p2, schemeSplit (sanitizeUrl w) = (p1, p2) :=
    ⟨_, _, rfl⟩
  rw [hss] at h
  dsimp only at h
  cases hnl : netlocSplit u2 with
  | error e =>
    rw [hnl] at h
    simp only [except_monad_bind_error] at h
    exact Except.noConfusion h
  | ok nl =>
    rw [hnl] at h
    simp only [except_monad_bind_ok] at h
    cases nl with
    | mk N u3 =>
      dsimp only at h
      obtain ⟨u4, F, hf⟩ : ∃ p1 p2, sepSplit '#' u3 = (p1, p2) := ⟨_, _, rfl⟩
      obtain ⟨P, Q0, hq⟩ : ∃ p1 p2, sepSplit '?' u4 = (p1, p2) := ⟨_, _, rfl⟩
      rw [hf] at h
      dsimp only at h
      rw [hq] at h
      dsimp only at h
      have hsr : sr = ⟨S, N, P, Q0, F⟩ := (Except.ok.inj h).symm
      subst hsr
      -- facts about the sanitized input
      have hUclean : cleanStr (sanitizeUrl w) := sanitize_clean w
      have hUhead := sanitize_head w
      -- scheme inversion
      have hsi := schemeSplit_inv hss
      -- membership transport from u2 into the sanitized url
      have hmem2 : ∀ x ∈ u2, x ∈ sanitizeUrl w := by
        rcases hsi with ⟨_, h2, _⟩ | ⟨c, cs, rr, hsp, _, _, h2⟩
        · intro x hx; rw [← h2]; exact hx
        · intro x hx
          obtain ⟨he, _⟩ := splitFirst_sound hsp
          rw [he]
          subst h2
          exact List.mem_append_right _ (List.mem_cons_of_mem _ hx)
      -- netloc inversion
      have hni := netlocSplit_inv hnl
      -- u2 decomposition in the netloc branch
      have hdecomp : ∀ hx : u2.take 2 = pys "//",
          u2 = '/' :: '/' :: (u2.drop 2) := by
        intro hx
        conv_lhs => rw [← List.take_append_drop 2 u2]
        rw [hx]
        rfl
      have hmem3 : ∀ x ∈ u3, x ∈ u2 := by
        rcases hni with ⟨_, _, h3⟩ | ⟨h2, hN, h3, _⟩
        · intro x hx; rw [← h3]; exact hx
        · intro x hx
          rw [hdecomp h2]
          refine List.mem_cons_of_mem _ (List.mem_cons_of_mem _ ?_)
          rw [← List.takeWhile_append_dropWhile netlocChar (u2.drop 2)]
          rw [h3] at hx
          exact List.mem_append_right _ hx
      -- fragment and query inversions
      have hfi := sepSplit_inv hf
      have hqi := sepSplit_inv hq
      have hmem4 : ∀ x ∈ u4, x ∈ u3 := by
        rcases hfi with ⟨h4, _⟩ | ⟨h4, _, _⟩
        · intro x hx; rw [h4]; exact List.mem_append_left _ hx
        · intro x hx; rw [← h4]; exact hx
      have hmemP : ∀ x ∈ P, x ∈ u4 := by
        rcases hqi with ⟨h5, _⟩ | ⟨h5, _, _⟩
        · intro x hx; rw [h5]; exact List.mem_append_left _ hx
        · intro x hx; rw [← h5]; exact hx
      have hnoq : '?' ∉ P := by
        rcases hqi with ⟨_, h5⟩ | ⟨h5, _, h6⟩
        · exact h5
        · rw [h5]; exact h6
      have hnoh : '#' ∉ u4 := by
        rcases hfi with ⟨_, h5⟩ | ⟨h5, _, h6⟩
        · exact h5
        · rw [h5]; exact h6
      -- u4 written as P plus an extension, u3 as u4 plus an extension
      have hu4P : ∃ ext, u4 = P ++ ext := by
        rcases hqi with ⟨h5, _⟩ | ⟨h5, _, _⟩
        · exact ⟨'?' :: Q0, h5⟩
        · exact ⟨[], by rw [h5, List.append_nil]⟩
      have hu34 : ∃ ext, u3 = u4 ++ ext := by
        rcases hfi with ⟨h5, _⟩ | ⟨h5, _, _⟩
        · exact ⟨'#' :: F, h5⟩
        · exact ⟨[], by rw [h5, List.append_nil]⟩
      -- path head characters in the netloc branch
      have hheadP : ∀ hx : u2.take 2 = pys "//", ∀ c, P.head? = some c →
          c = '/' := by
        intro hx c hc
        rcases hni with ⟨hcon, _, _⟩ | ⟨_, hN, h3, _⟩
        · exact absurd hx hcon
        · cases P with
          | nil => exact absurd hc (by simp)
          | cons p0 pt =>
            simp only [List.head?_cons, Option.some.injEq] at hc
            subst hc
            have hmemc : p0 ∈ p0 :: pt := List.mem_cons_self p0 pt
            obtain ⟨e1, hu4e⟩ := hu4P
            obtain ⟨e2, hu3e⟩ := hu34
            have hu3head : u3.head? = some p0 := by
              rw [hu3e, hu4e]
              simp
            have hspec := List.head?_dropWhile_not netlocChar (u2.drop 2)
            rw [← h3, hu3head] at hspec
            have hnc : netlocChar p0 = false := hspec
            have hor : p0 = '/' ∨ p0 = '?' ∨ p0 = '#' := by
              cases hs1 : p0 == '/' with
              | true => exact .inl (eq_of_beq hs1)
              | false =>
                cases hs2 : p0 == '?' with
                | true => exact .inr (.inl (eq_of_beq hs2))
                | false =>
                  cases hs3 : p0 == '#' with
                  | true => exact .inr (.inr (eq_of_beq hs3))
                  | false =>
                    exfalso
                    simp only [netlocChar, hs1, hs2, hs3] at hnc
                    exact Bool.noConfusion hnc
            rcases hor with rfl | rfl | rfl
            · rfl
            · exact absurd hmemc hnoq
            · exact absurd (hmemP _ hmemc) hnoh
      -- the scheme cannot be both empty and detected
      have hSne : ∀ c2 cs2, S = (c2 :: cs2).map pyLowerChar → S ≠ [] := by
        intro c2 cs2 he hcon
        rw [hcon] at he
        exact List.noConfusion he
      refine ⟨?_, ?_, ?_, ?_, ?_, ?_, ?_, ?_, ?_, ?_⟩
      -- scheme_ok
      · show SchemeOk S
        rcases hsi with ⟨h1, _, _⟩ | ⟨c, cs, rr, hsp, hchk, h1, _⟩
        · exact .inl h1
        · right
          rw [Bool.and_eq_true] at hchk
          refine ⟨pyLowerChar c, cs.map pyLowerChar, by rw [h1]; rfl,
            pyLowerChar_alpha hchk.1, ?_, ?_⟩
          · rw [h1, List.all_map]
            rw [List.all_eq_true] at hchk ⊢
            intro x hx
            exact pyLowerChar_scheme (hchk.2 x hx)
          · rw [h1, List.map_map]
            exact List.map_congr_left (fun x _ => pyLowerChar_idem x)
      -- netloc_chars
      · show N.all netlocChar = true
        rcases hni with ⟨_, hN, _⟩ | ⟨_, hN, _, _⟩
        · rw [hN]; rfl
        · rw [hN]; exact List.all_takeWhile
      -- netloc_brackets
      · show bracketBad N = false
        rcases hni with ⟨_, hN, _⟩ | ⟨_, _, _, hb⟩
        · rw [hN]; decide
        · exact hb
      -- netloc_clean
      · show cleanStr N
        intro x hx
        have hxu : x ∈ u2 := by
          rcases hni with ⟨_, hN, _⟩ | ⟨h2, hN, _, _⟩
          · rw [hN] at hx; exact absurd hx (List.not_mem_nil x)
          · rw [hdecomp h2]
            refine List.mem_cons_of_mem _ (List.mem_cons_of_mem _ ?_)
            rw [← List.takeWhile_append_dropWhile netlocChar (u2.drop 2)]
            rw [hN] at hx
            exact List.mem_append_left _ hx
        exact hUclean x (hmem2 x hxu)
      -- path_noq
      · show '?' ∉ P
        exact hnoq
      -- path_noh
      · show '#' ∉ P
        exact fun hcon => hnoh (hmemP _ hcon)
      -- path_clean
      · show cleanStr P
        exact fun x hx => hUclean x (hmem2 x (hmem3 x (hmem4 x (hmemP x hx))))
      -- path_head
      · show S = [] → ∀ c, P.head? = some c → 0x20 < c.toNat
        intro hS0 c hc
        rcases hni with ⟨hne, _, h3⟩ | ⟨h2, _, _, _⟩
        · rcases hsi with ⟨_, h2U, _⟩ | ⟨c2, cs2, rr, _, _, hSm, _⟩
          · cases P with
            | nil => exact absurd hc (by simp)
            | cons p0 pt =>
              simp only [List.head?_cons, Option.some.injEq] at hc
              obtain ⟨e1, hu4e⟩ := hu4P
              obtain ⟨e2, hu3e⟩ := hu34
              rw [← hc]
              refine hUhead p0 ?_
              rw [← h2U, ← h3, hu3e, hu4e]
              simp
          · exact absurd hS0 (hSne c2 cs2 hSm)
        · have hcs := hheadP h2 c hc
          subst hcs
          decide
      -- path_cols
      · show S = [] → NoSchemeColon P
        intro hS0
        rcases hni with ⟨hne, _, h3⟩ | ⟨h2, _, _, _⟩
        · rcases hsi with ⟨_, h2U, hnsc⟩ | ⟨c2, cs2, rr, _, _, hSm, _⟩
          · obtain ⟨e1, hu4e⟩ := hu4P
            obtain ⟨e2, hu3e⟩ := hu34
            have hUeq : sanitizeUrl w = P ++ (e1 ++ e2) := by
              rw [← h2U, ← h3, hu3e, hu4e, List.append_assoc]
            rw [hUeq] at hnsc
            exact noSchemeColon_append hnsc
          · exact absurd hS0 (hSne c2 cs2 hSm)
        · apply noSchemeColon_of_head
          intro c hc
          have hcs := hheadP h2 c hc
          subst hcs
          decide
      -- frag_clean
      · show cleanStr F
        intro x hx
        have hxu3 : x ∈ u3 := by
          rcases hfi with ⟨h5, _⟩ | ⟨_, hF, _⟩
          · rw [h5]
            exact List.mem_append_right _ (List.mem_cons_of_mem _ hx)
          · rw [hF] at hx; exact absurd hx (List.not_mem_nil x)
        exact hUclean x (hmem2 x (hmem3 x hxu3))

/-! ### Reassembly helpers -/

theorem alpha_gt {c : Char} (h : isAsciiAlpha c = true) : 0x20 < c.toNat := by
  simp only [isAsciiAlpha, Bool.or_eq_true, Bool.and_eq_true,
    decide_eq_true_eq] at h
  omega

theorem cleanStr_nil : cleanStr [] := fun c hc => absurd hc (List.not_mem_nil c)

theorem cleanStr_cons {c : Char} {l : PyStr} (hc : cleanChar c)
    (hl : cleanStr l) : cleanStr (c :: l) := by
  intro x hx
  rcases List.mem_cons.mp hx with rfl | hx2
  · exact hc
  · exact hl x hx2

theorem cleanStr_append {a b : PyStr} (ha : cleanStr a) (hb : cleanStr b) :
    cleanStr (a ++ b) := by
  intro x hx
  rcases List.mem_append.mp hx with hx2 | hx2
  · exact ha x hx2
  · exact hb x hx2

theorem all_false_of_mem {p : Char → Bool} {l : PyStr} {c : Char}
    (hm : c ∈ l) (hc : p c = false) : l.all p = false := by
  cases hall : l.all p with
  | false => rfl
  | true =>
    rw [List.all_eq_true] at hall
    rw [hall c hm] at hc
    exact Bool.noConfusion hc

theorem not_mem_of_all_scheme {l : PyStr} (h : l.all isSchemeChar = true) :
    ':' ∉ l := by
  intro hm
  rw [List.all_eq_true] at h
  have := isSchemeChar_ne (h ':' hm)
  exact this.1 rfl

/-- The character facts about a `urlencode` output needed for reassembly. -/
theorem qchar_facts {Q : PyStr}
    (hQ : ∀ c ∈ Q, isAlwaysSafe c.toNat = true ∨ c = '%' ∨ c = '=' ∨ c = '&') :
    '#' ∉ Q ∧ '?' ∉ Q ∧ ':' ∉ Q ∧ cleanStr Q := by
  refine ⟨?_, ?_, ?_, ?_⟩
  · intro hm
    rcases hQ _ hm with h | h | h | h <;> revert h <;> decide
  · intro hm
    rcases hQ _ hm with h | h | h | h <;> revert h <;> decide
  · intro hm
    rcases hQ _ hm with h | h | h | h <;> revert h <;> decide
  · intro c hc
    rcases hQ _ hc with h | h | h | h
    · apply cleanChar_of_gt
      left
      simp only [isAlwaysSafe, Bool.or_eq_true, Bool.and_eq_true,
        decide_eq_true_eq, beq_iff_eq] at h
      rcases h with ((((((⟨h1, _⟩ | ⟨h1, _⟩) | ⟨h1, _⟩) | h1) | h1) | h1) | h1) <;>
        omega
    · subst h; exact cleanChar_of_gt (.inl (by decide))
    · subst h; exact cleanChar_of_gt (.inl (by decide))
    · subst h; exact cleanChar_of_gt (.inl (by decide))

theorem take_two_append_ne {P T : PyStr} (hP : P.take 2 ≠ pys "//")
    (hT : ∀ c, T.head? = some c → c = '?' ∨ c = '#') :
    (P ++ T).take 2 ≠ pys "//" := by
  match P with
  | p0 :: p1 :: r =>
    intro hcon
    exact hP hcon
  | [p0] =>
    cases T with
    | nil => intro hcon; exact List.noConfusion (List.cons.inj hcon).2
    | cons t0 ts =>
      intro hcon
      have ht0 : t0 = '/' := (List.cons.inj (List.cons.inj hcon).2).1
      rcases hT t0 rfl with h | h <;> (rw [ht0] at h; exact absurd h (by decide))
  | [] =>
    cases T with
    | nil => intro hcon; exact List.noConfusion hcon
    | cons t0 ts =>
      intro hcon
      have ht0 : t0 = '/' := (List.cons.inj hcon).1
      rcases hT t0 rfl with h | h <;> (rw [ht0] at h; exact absurd h (by decide))

theorem append_qf (u : PyStr) (Q F : PyStr) :
    (if F ≠ [] then (if Q ≠ [] then u ++ '?' :: Q else u) ++ '#' :: F
     else (if Q ≠ [] then u ++ '?' :: Q else u)) =
    u ++ ((if Q ≠ [] then '?' :: Q else []) ++
      (if F ≠ [] then '#' :: F else [])) := by
  by_cases hq : Q ≠ [] <;> by_cases hf : F ≠ [] <;>
    simp [hq, hf, List.append_assoc]

theorem schemeSplit_attached {S rest : PyStr} {c : Char} {cs : PyStr}
    (hSe : S = c :: cs) (halpha : isAsciiAlpha c = true)
    (hall : S.all isSchemeChar = true) (hfix : S.map pyLowerChar = S) :
    schemeSplit (S ++ ':' :: rest) = (S, rest) := by
  have hnc : ':' ∉ S := not_mem_of_all_scheme hall
  have hsp : splitFirst ':' (S ++ ':' :: rest) = some (S, rest) :=
    splitFirst_first hnc rest
  subst hSe
  rw [schemeSplit_of_pass hsp
    (by rw [Bool.and_eq_true]; exact ⟨halpha, hall⟩)]
  rw [hfix]

theorem split_stages {P2 Q F : PyStr}
    (hP2h : '#' ∉ P2) (hP2q : '?' ∉ P2) (hQh : '#' ∉ Q) :
    sepSplit '#' (P2 ++ ((if Q ≠ [] then '?' :: Q else []) ++
        (if F ≠ [] then '#' :: F else []))) =
      (P2 ++ (if Q ≠ [] then '?' :: Q else []), F) ∧
    sepSplit '?' (P2 ++ (if Q ≠ [] then '?' :: Q else [])) = (P2, Q) := by
  have htqh : '#' ∉ (if Q ≠ [] then '?' :: Q else []) := by
    split
    · intro hm
      rcases List.mem_cons.mp hm with h | h
      · exact absurd h (by decide)
      · exact hQh h
    · exact List.not_mem_nil _
  have hcomb : '#' ∉ P2 ++ (if Q ≠ [] then '?' :: Q else []) := by
    intro hm
    rcases List.mem_append.mp hm with h | h
    · exact hP2h h
    · exact htqh h
  constructor
  · by_cases hf : F ≠ []
    · rw [if_pos hf, ← List.append_assoc]
      exact sepSplit_found hcomb F
    · have hF0 : F = [] := not_not.mp hf
      rw [if_neg hf, List.append_nil, hF0]
      exact sepSplit_not_mem hcomb
  · by_cases hq : Q ≠ []
    · rw [if_pos hq]
      exact sepSplit_found hP2q Q
    · have hQ0 : Q = [] := not_not.mp hq
      rw [if_neg hq, List.append_nil, hQ0]
      exact sepSplit_not_mem hP2q

theorem netlocSplit_branch {N P2T : PyStr}
    (hN : N.all netlocChar = true) (hNb : bracketBad N = false)
    (hb : ∀ c, P2T.head? = some c → netlocChar c = false) :
    netlocSplit ('/' :: '/' :: (N ++ P2T)) = .ok (N, P2T) := by
  have htw : (N ++ P2T).takeWhile netlocChar = N ∧
      (N ++ P2T).dropWhile netlocChar = P2T :=
    takeWhile_append_of_all (fun x hx => List.all_eq_true.mp hN x hx) hb
  have h2 : ('/' :: '/' :: (N ++ P2T)).take 2 = pys "//" := rfl
  have hd2 : ('/' :: '/' :: (N ++ P2T)).drop 2 = N ++ P2T := rfl
  have hbrk : bracketBad ((('/' :: '/' :: (N ++ P2T)).drop 2).takeWhile
      netlocChar) = false := by
    rw [hd2, htw.1]
    exact hNb
  rw [netlocSplit_yes h2 hbrk, hd2, htw.1, htw.2]

theorem noSchemeColon_assembled {P Q F : PyStr} (hPcol : NoSchemeColon P)
    (hQc : ':' ∉ Q) :
    NoSchemeColon (P ++ ((if Q ≠ [] then '?' :: Q else []) ++
      (if F ≠ [] then '#' :: F else []))) := by
  intro b r hsplit
  by_cases hcp : ':' ∈ P
  · obtain ⟨b0, r0, hs0⟩ := splitFirst_mem hcp
    have hsa : splitFirst ':' (P ++ ((if Q ≠ [] then '?' :: Q else []) ++
        (if F ≠ [] then '#' :: F else []))) =
        some (b0, r0 ++ ((if Q ≠ [] then '?' :: Q else []) ++
          (if F ≠ [] then '#' :: F else []))) :=
      splitFirst_append_left hs0
    rw [hsplit] at hsa
    have hb0 : b = b0 := (Prod.mk.injEq _ _ _ _ ▸ Option.some.inj hsa).1
    rcases hPcol b0 r0 hs0 with h | ⟨c, cs, hbe, hbad⟩
    · exact .inl (by rw [hb0, h])
    · exact .inr ⟨c, cs, by rw [hb0, hbe], hbad⟩
  · have htqc : ':' ∉ (if Q ≠ [] then '?' :: Q else []) := by
      split
      · intro hm
        rcases List.mem_cons.mp hm with h | h
        · exact absurd h (by decide)
        · exact hQc h
      · exact List.not_mem_nil _
    have hmap := splitFirst_append_skip hcp
      ((if Q ≠ [] then '?' :: Q else []) ++
        (if F ≠ [] then '#' :: F else []))
    rw [hsplit] at hmap
    have hmap2 := splitFirst_append_skip htqc
      (if F ≠ [] then '#' :: F else [])
    rw [hmap2] at hmap
    by_cases hf : F ≠ []
    · rw [if_pos hf] at hmap
      rw [splitFirst_cons_ne (by decide) F] at hmap
      cases hFs : splitFirst ':' F with
      | none =>
        rw [hFs] at hmap
        exact absurd hmap (by simp)
      | some pf =>
        rw [hFs] at hmap
        simp only [Option.map] at hmap
        -- b = P ++ (tq ++ '#' :: pf.1)
        have hbe : b = P ++ ((if Q ≠ [] then '?' :: Q else []) ++
            '#' :: pf.1) := (Prod.mk.injEq _ _ _ _ ▸ Option.some.inj hmap).1
        have hmemb : '#' ∈ b := by
          rw [hbe]
          exact List.mem_append_right _ (List.mem_append_right _
            (List.mem_cons_self _ _))
        cases hbc : b with
        | nil => rw [hbc] at hmemb; exact absurd hmemb (List.not_mem_nil _)
        | cons x xs =>
          right
          refine ⟨x, xs, rfl, ?_⟩
          have hallf : (x :: xs).all isSchemeChar = false := by
            rw [← hbc]
            exact all_false_of_mem hmemb (by decide)
          rw [hallf, Bool.and_false]
    · rw [if_neg hf] at hmap
      exact absurd hmap (by simp [splitFirst])

/-- Forward evaluation of `urlsplitModel` from equations for each stage. -/
theorem urlsplitModel_eval {a S2 u2 N2 u3 u4 F2 P3 Q2 : PyStr}
    (hsan : sanitizeUrl a = a)
    (hsch : schemeSplit a = (S2, u2))
    (hnl : netlocSplit u2 = .ok (N2, u3))
    (hfs : sepSplit '#' u3 = (u4, F2))
    (hqs : sepSplit '?' u4 = (P3, Q2)) :
    urlsplitModel a = .ok ⟨S2, N2, P3, Q2, F2⟩ := by
  show (netlocSplit (schemeSplit (sanitizeUrl a)).2 >>= (fun nl =>
      (.ok ⟨(schemeSplit (sanitizeUrl a)).1, nl.1,
        (sepSplit '?' (sepSplit '#' nl.2).1).1,
        (sepSplit '?' (sepSplit '#' nl.2).1).2,
        (sepSplit '#' nl.2).2⟩ : Except PyErr SplitResult))) = _
  rw [hsan, hsch]
  try dsimp only
  rw [hnl]
  simp only [except_monad_bind_ok]
  try dsimp only
  rw [hfs]
  try dsimp only
  rw [hqs]

/-- Re-parsing a URL assembled by `urlunsplit` from well-shaped components
recovers the same scheme, netloc, query and fragment; the path may gain a
leading slash.  The query must look like a `urlencode` output and, when the
netloc is empty, the path must not begin with `//` (otherwise the reassembled
string is parsed with a different netloc, as CPython also does). -/
theorem urlsplit_unsplit {S N P Q F : PyStr}
    (hS : SchemeOk S)
    (hN : N.all netlocChar = true) (hNb : bracketBad N = false)
    (hNc : cleanStr N)
    (hPq : '?' ∉ P) (hPh : '#' ∉ P) (hPc : cleanStr P)
    (hPhead : S = [] → ∀ c, P.head? = some c → 0x20 < c.toNat)
    (hPcol : S = [] → NoSchemeColon P)
    (hW : N ≠ [] ∨ P.take 2 ≠ pys "//")
    (hQ : ∀ c ∈ Q, isAlwaysSafe c.toNat = true ∨ c = '%' ∨ c = '=' ∨ c = '&')
    (hF : cleanStr F) :
    ∃ P2, (P2 = P ∨ (P2 = '/' :: P ∧ P ≠ [] ∧ P.take 1 ≠ pys "/")) ∧
      urlsplitModel (urlunsplitModel S N P Q F) = .ok ⟨S, N, P2, Q, F⟩ := by
  obtain ⟨hQh, hQq, hQc, hQcl⟩ := qchar_facts hQ
  -- the tail appended after the scheme/netloc/path core
  have hThead : ∀ c, ((if Q ≠ [] then '?' :: Q else []) ++
      (if F ≠ [] then '#' :: F else [])).head? = some c →
      c = '?' ∨ c = '#' := by
    intro c hc
    by_cases hq : Q ≠ []
    · rw [if_pos hq, List.cons_append] at hc
      simp only [List.head?_cons, Option.some.injEq] at hc
      exact .inl hc.symm
    · rw [if_neg hq, List.nil_append] at hc
      by_cases hf : F ≠ []
      · rw [if_pos hf] at hc
        simp only [List.head?_cons, Option.some.injEq] at hc
        exact .inr hc.symm
      · rw [if_neg hf] at hc
        exact absurd hc (by simp)
  have hTclean : cleanStr ((if Q ≠ [] then '?' :: Q else []) ++
      (if F ≠ [] then '#' :: F else [])) := by
    apply cleanStr_append
    · split
      · exact cleanStr_cons (cleanChar_of_gt (.inl (by decide))) hQcl
      · exact cleanStr_nil
    · split
      · exact cleanStr_cons (cleanChar_of_gt (.inl (by decide))) hF
      · exact cleanStr_nil
  by_cases hbr : (N ≠ [] ∨ (S ≠ [] ∧ uses_netloc.contains S = true ∧
      P.take 2 ≠ pys "//"))
  · -- the // branch of urlunsplit
    obtain ⟨P2, hP2def⟩ :
        ∃ x, (if P ≠ [] ∧ P.take 1 ≠ pys "/" then '/' :: P else P) = x :=
      ⟨_, rfl⟩
    have hP2or : P2 = P ∨ (P2 = '/' :: P ∧ P ≠ [] ∧ P.take 1 ≠ pys "/") := by
      by_cases hc : P ≠ [] ∧ P.take 1 ≠ pys "/"
      · rw [if_pos hc] at hP2def
        exact .inr ⟨hP2def.symm, hc⟩
      · rw [if_neg hc] at hP2def
        exact .inl hP2def.symm
    have hP2head : ∀ c, P2.head? = some c → c = '/' := by
      intro c hc
      by_cases hc2 : P ≠ [] ∧ P.take 1 ≠ pys "/"
      · rw [if_pos hc2] at hP2def
        rw [← hP2def] at hc
        simp only [List.head?_cons, Option.some.injEq] at hc
        exact hc.symm
      · rw [if_neg hc2] at hP2def
        rw [← hP2def] at hc
        rcases not_and_or.mp hc2 with h1 | h1
        · have hP0 : P = [] := not_not.mp h1
          rw [hP0] at hc
          exact absurd hc (by simp)
        · have h2 : P.take 1 = pys "/" := not_not.mp h1
          cases P with
          | nil => exact absurd h2 (by decide)
          | cons p0 pt =>
            simp only [List.head?_cons, Option.some.injEq] at hc
            have hp0 : p0 = '/' := (List.cons.inj h2).1
            rw [← hc, hp0]
    have hP2q : '?' ∉ P2 := by
      rcases hP2or with h | ⟨h, _, _⟩
      · rw [h]; exact hPq
      · rw [h]
        intro hm
        rcases List.mem_cons.mp hm with h2 | h2
        · exact absurd h2 (by decide)
        · exact hPq h2
    have hP2h : '#' ∉ P2 := by
      rcases hP2or with h | ⟨h, _, _⟩
      · rw [h]; exact hPh
      · rw [h]
        intro hm
        rcases List.mem_cons.mp hm with h2 | h2
        · exact absurd h2 (by decide)
        · exact hPh h2
    have hP2c : cleanStr P2 := by
      rcases hP2or with h | ⟨h, _, _⟩
      · rw [h]; exact hPc
      · rw [h]; exact cleanStr_cons (cleanChar_of_gt (.inl (by decide))) hPc
    have hbound : ∀ c, (P2 ++ ((if Q ≠ [] then '?' :: Q else []) ++
        (if F ≠ [] then '#' :: F else []))).head? = some c →
        netlocChar c = false := by
      intro c hc
      cases hP2 : P2 with
      | nil =>
        rw [hP2, List.nil_append] at hc
        rcases hThead c hc with rfl | rfl <;> decide
      | cons p0 pt =>
        rw [hP2, List.cons_append] at hc
        simp only [List.head?_cons, Option.some.injEq] at hc
        have hp0 : p0 = '/' := hP2head p0 (by rw [hP2]; rfl)
        rw [← hc, hp0]
        decide
    have ha : urlunsplitModel S N P Q F =
        (if S ≠ [] then S ++ ':' :: ('/' :: '/' :: (N ++ P2))
         else ('/' :: '/' :: (N ++ P2))) ++
        ((if Q ≠ [] then '?' :: Q else []) ++
          (if F ≠ [] then '#' :: F else [])) := by
      unfold urlunsplitModel
      dsimp only
      rw [if_pos hbr, hP2def]
      exact append_qf _ Q F
    have hcoreClean : cleanStr ('/' :: '/' :: (N ++ P2)) :=
      cleanStr_cons (cleanChar_of_gt (.inl (by decide))) (cleanStr_cons (cleanChar_of_gt (.inl (by decide)))
        (cleanStr_append hNc hP2c))
    have hsplits := split_stages hP2h hP2q hQh (F := F)
    refine ⟨P2, hP2or, ?_⟩
    rw [ha]
    rcases hS with hS0 | ⟨c, cs, hSe, halpha, hall, hfix⟩
    · -- no scheme
      rw [if_neg (by rw [hS0]; exact fun hcon => hcon rfl)]
      have hre : ('/' :: '/' :: (N ++ P2)) ++
          ((if Q ≠ [] then '?' :: Q else []) ++
            (if F ≠ [] then '#' :: F else [])) =
          '/' :: '/' :: (N ++ (P2 ++
            ((if Q ≠ [] then '?' :: Q else []) ++
              (if F ≠ [] then '#' :: F else [])))) := by
        simp [List.append_assoc]
      rw [hre]
      rw [hS0]
      have hsan : sanitizeUrl ('/' :: '/' :: (N ++ (P2 ++
          ((if Q ≠ [] then '?' :: Q else []) ++
            (if F ≠ [] then '#' :: F else []))))) =
          '/' :: '/' :: (N ++ (P2 ++
          ((if Q ≠ [] then '?' :: Q else []) ++
            (if F ≠ [] then '#' :: F else [])))) := by
        apply sanitize_fixed
        · intro c2 hc2
          simp only [List.head?_cons, Option.some.injEq] at hc2
          rw [← hc2]
          decide
        · exact cleanStr_cons (cleanChar_of_gt (.inl (by decide)))
            (cleanStr_cons (cleanChar_of_gt (.inl (by decide)))
              (cleanStr_append hNc (cleanStr_append hP2c hTclean)))
      have hsch : schemeSplit ('/' :: '/' :: (N ++ (P2 ++
          ((if Q ≠ [] then '?' :: Q else []) ++
            (if F ≠ [] then '#' :: F else []))))) =
          ([], '/' :: '/' :: (N ++ (P2 ++
          ((if Q ≠ [] then '?' :: Q else []) ++
            (if F ≠ [] then '#' :: F else []))))) := by
        apply schemeSplit_of_head
        intro c2 hc2
        simp only [List.head?_cons, Option.some.injEq] at hc2
        rw [← hc2]
        decide
      exact urlsplitModel_eval hsan hsch
        (netlocSplit_branch hN hNb hbound) hsplits.1 hsplits.2
    · -- scheme present
      rw [if_pos (by rw [hSe]; exact fun hcon => List.noConfusion hcon)]
      have hre : (S ++ ':' :: ('/' :: '/' :: (N ++ P2))) ++
          ((if Q ≠ [] then '?' :: Q else []) ++
            (if F ≠ [] then '#' :: F else [])) =
          S ++ ':' :: ('/' :: '/' :: (N ++ (P2 ++
            ((if Q ≠ [] then '?' :: Q else []) ++
              (if F ≠ [] then '#' :: F else []))))) := by
        simp [List.append_assoc]
      rw [hre]
      have hsan : sanitizeUrl (S ++ ':' :: ('/' :: '/' :: (N ++ (P2 ++
          ((if Q ≠ [] then '?' :: Q else []) ++
            (if F ≠ [] then '#' :: F else [])))))) =
          S ++ ':' :: ('/' :: '/' :: (N ++ (P2 ++
          ((if Q ≠ [] then '?' :: Q else []) ++
            (if F ≠ [] then '#' :: F else []))))) := by
        apply sanitize_fixed
        · intro c2 hc2
          rw [hSe, List.cons_append] at hc2
          simp only [List.head?_cons, Option.some.injEq] at hc2
          rw [← hc2]
          exact alpha_gt halpha
        · refine cleanStr_append ?_
            (cleanStr_cons (cleanChar_of_gt (.inl (by decide)))
              (cleanStr_cons (cleanChar_of_gt (.inl (by decide)))
                (cleanStr_cons (cleanChar_of_gt (.inl (by decide)))
                  (cleanStr_append hNc (cleanStr_append hP2c hTclean)))))
          intro x hx
          exact (isSchemeChar_ne (List.all_eq_true.mp hall x hx)).2.2.2.2.1
      exact urlsplitModel_eval hsan
        (schemeSplit_attached hSe halpha hall hfix)
        (netlocSplit_branch hN hNb hbound) hsplits.1 hsplits.2
  · -- no // is prepended
    have hN0 : N = [] := by
      by_contra hcon
      exact hbr (.inl hcon)
    have htk : P.take 2 ≠ pys "//" := by
      rcases hW with h | h
      · exact absurd hN0 h
      · exact h
    have hsplits := split_stages hPh hPq hQh (F := F)
    have ha : urlunsplitModel S N P Q F =
        (if S ≠ [] then S ++ ':' :: P else P) ++
        ((if Q ≠ [] then '?' :: Q else []) ++
          (if F ≠ [] then '#' :: F else [])) := by
      unfold urlunsplitModel
      dsimp only
      rw [if_neg hbr]
      exact append_qf _ Q F
    have htk2 : (P ++ ((if Q ≠ [] then '?' :: Q else []) ++
        (if F ≠ [] then '#' :: F else []))).take 2 ≠ pys "//" :=
      take_two_append_ne htk hThead
    refine ⟨P, .inl rfl, ?_⟩
    rw [ha, hN0]
    rcases hS with hS0 | ⟨c, cs, hSe, halpha, hall, hfix⟩
    · -- no scheme
      rw [if_neg (by rw [hS0]; exact fun hcon => hcon rfl)]
      rw [hS0]
      have hsan : sanitizeUrl (P ++ ((if Q ≠ [] then '?' :: Q else []) ++
          (if F ≠ [] then '#' :: F else []))) =
          P ++ ((if Q ≠ [] then '?' :: Q else []) ++
          (if F ≠ [] then '#' :: F else [])) := by
        apply sanitize_fixed
        · intro c2 hc2
          cases hp : P with
          | nil =>
            rw [hp, List.nil_append] at hc2
            rcases hThead c2 hc2 with rfl | rfl <;> decide
          | cons p0 pt =>
            rw [hp, List.cons_append] at hc2
            simp only [List.head?_cons, Option.some.injEq] at hc2
            rw [← hc2]
            exact hPhead hS0 p0 (by rw [hp]; rfl)
        · exact cleanStr_append hPc hTclean
      exact urlsplitModel_eval hsan
        (schemeSplit_of_noColon (noSchemeColon_assembled (hPcol hS0) hQc))
        (netlocSplit_no htk2) hsplits.1 hsplits.2
    · -- scheme present
      rw [if_pos (by rw [hSe]; exact fun hcon => List.noConfusion hcon)]
      have hre : (S ++ ':' :: P) ++
          ((if Q ≠ [] then '?' :: Q else []) ++
            (if F ≠ [] then '#' :: F else [])) =
          S ++ ':' :: (P ++
            ((if Q ≠ [] then '?' :: Q else []) ++
              (if F ≠ [] then '#' :: F else []))) := by
        simp [List.append_assoc]
      rw [hre]
      have hsan : sanitizeUrl (S ++ ':' :: (P ++
          ((if Q ≠ [] then '?' :: Q else []) ++
            (if F ≠ [] then '#' :: F else [])))) =
          S ++ ':' :: (P ++ ((if Q ≠ [] then '?' :: Q else []) ++
            (if F ≠ [] then '#' :: F else []))) := by
        apply sanitize_fixed
        · intro c2 hc2
          rw [hSe, List.cons_append] at hc2
          simp only [List.head?_cons, Option.some.injEq] at hc2
          rw [← hc2]
          exact alpha_gt halpha
        · refine cleanStr_append ?_
            (cleanStr_cons (cleanChar_of_gt (.inl (by decide)))
              (cleanStr_append hPc hTclean))
          intro x hx
          exact (isSchemeChar_ne (List.all_eq_true.mp hall x hx)).2.2.2.2.1
      exact urlsplitModel_eval hsan
        (schemeSplit_attached hSe halpha hall hfix)
        (netlocSplit_no htk2) hsplits.1 hsplits.2

/-! ### urlparse gluing -/

theorem findFrom_spec {c : Char} {l : PyStr} {j n : Nat}
    (h : findFrom c l j = some n) :
    l = l.take n ++ c :: l.drop (n + 1) := by
  unfold findFrom at h
  cases hf : (l.drop j).findIdx? (fun x => x = c) with
  | none => rw [hf] at h; exact Option.noConfusion h
  | some k =>
    rw [hf] at h
    have hn : n = j + k := (Option.some.inj h).symm
    subst hn
    obtain ⟨hlt, hp, _⟩ := List.findIdx?_eq_some_iff_getElem.mp hf
    rw [List.length_drop] at hlt
    have hn2 : j + k < l.length := by omega
    simp only [decide_eq_true_eq] at hp
    rw [List.getElem_drop] at hp
    conv_lhs => rw [← List.take_append_drop (j + k) l]
    congr 1
    rw [List.drop_eq_getElem_cons hn2]
    rw [hp]

theorem splitparams_cases {path p1 p2 : PyStr}
    (h : splitparams path = (p1, p2)) :
    path = p1 ++ ';' :: p2 ∨ (p1 = path ∧ p2 = []) := by
  unfold splitparams at h
  obtain ⟨iO, hiO⟩ : ∃ x, (if path.contains '/' then
      (match rfindPos '/' path with
       | some j => findFrom ';' path j
       | none => none) else findFrom ';' path 0) = x := ⟨_, rfl⟩
  rw [hiO] at h
  cases iO with
  | none =>
    obtain ⟨h1, h2⟩ := Prod.mk.injEq _ _ _ _ ▸ h
    exact .inr ⟨h1.symm, h2.symm⟩
  | some n =>
    obtain ⟨h1, h2⟩ := Prod.mk.injEq _ _ _ _ ▸ h
    subst h1; subst h2
    left
    by_cases hcont : path.contains '/'
    · rw [if_pos hcont] at hiO
      cases hr : rfindPos '/' path with
      | none => rw [hr] at hiO; exact Option.noConfusion hiO
      | some j =>
        rw [hr] at hiO
        exact findFrom_spec hiO
    · rw [if_neg hcont] at hiO
      exact findFrom_spec hiO

/-- The path reassembled by `urlunparse` from the params split is the
original `urlsplit` path, or that path stripped of a trailing `;`. -/
theorem recombine_ext {path p1 p2 : PyStr}
    (h : splitparams path = (p1, p2)) :
    ∃ ext, path = (if p2 ≠ [] then p1 ++ ';' :: p2 else p1) ++ ext := by
  rcases splitparams_cases h with he | ⟨he, hp2⟩
  · by_cases h2 : p2 ≠ []
    · rw [if_pos h2, ← he]
      exact ⟨[], by rw [List.append_nil]⟩
    · have hp2 : p2 = [] := not_not.mp h2
      rw [if_neg h2]
      exact ⟨[';'], by rw [he, hp2]⟩
  · subst hp2
    refine ⟨[], ?_⟩
    rw [if_neg (show ¬(([] : PyStr) ≠ []) from fun hcon => hcon rfl)]
    rw [he, List.append_nil]

theorem urlparseModel_eval {w : PyStr} {sr : SplitResult}
    (h : urlsplitModel w = .ok sr) {p1 p2 : PyStr}
    (hpp : (if uses_params.contains sr.scheme && sr.path.contains ';' then
        splitparams sr.path else (sr.path, [])) = (p1, p2)) :
    urlparseModel w = .ok ⟨sr.scheme, sr.netloc, p1, p2, sr.query,
      sr.fragment⟩ := by
  show (urlsplitModel w >>= (fun sr2 =>
      (.ok ⟨sr2.scheme, sr2.netloc,
        (if uses_params.contains sr2.scheme && sr2.path.contains ';' then
          splitparams sr2.path else (sr2.path, [])).1,
        (if uses_params.contains sr2.scheme && sr2.path.contains ';' then
          splitparams sr2.path else (sr2.path, [])).2,
        sr2.query, sr2.fragment⟩ : Except PyErr ParseResult))) = _
  rw [h]
  simp only [except_monad_bind_ok]
  rw [hpp]

theorem get_qp_inv {u : PyStr} {d : List (PyStr × List PyStr)}
    (h : get_query_parameters u = .ok d) :
    ∃ pr, urlparseModel u = .ok pr ∧ parse_qs_strict pr.query = .ok d := by
  unfold get_query_parameters at h
  cases hp : urlparseModel u with
  | error e =>
    rw [hp] at h
    simp only [except_monad_bind_error] at h
    exact Except.noConfusion h
  | ok pr =>
    rw [hp] at h
    simp only [except_monad_bind_ok] at h
    exact ⟨pr, rfl, h⟩

theorem get_qp_eval {u : PyStr} {pr : ParseResult}
    (h : urlparseModel u = .ok pr) :
    get_query_parameters u = parse_qs_strict pr.query := by
  unfold get_query_parameters
  rw [h]
  simp only [except_monad_bind_ok]

theorem set_qps_eval {u : PyStr} {pr : ParseResult}
    (h : urlparseModel u = .ok pr) (qp : List (PyStr × List PyStr)) :
    set_query_parameters u qp = .ok (urlunparseModel pr.scheme pr.netloc
      pr.path pr.params (urlencodeModel qp) pr.fragment) := by
  unfold set_query_parameters
  rw [h]
  simp only [except_monad_bind_ok]

theorem set_qp_eval {u n v : PyStr} {d : List (PyStr × List PyStr)}
    (h : get_query_parameters u = .ok d) :
    set_query_parameter u n v =
      set_query_parameters u (dict_update d n [v]) := by
  unfold set_query_parameter
  rw [h]
  simp only [except_monad_bind_ok]

theorem remove_qp_eval {u n : PyStr} {d d2 : List (PyStr × List PyStr)}
    (h : get_query_parameters u = .ok d) (hp : dict_pop d n = .ok d2) :
    remove_query_parameter u n = set_query_parameters u d2 := by
  unfold remove_query_parameter
  rw [h]
  simp only [except_monad_bind_ok]
  rw [hp]
  simp only [except_monad_bind_ok]

/-! ### splitChar of an intercalated query string -/

theorem splitChar_not_mem {c : Char} : ∀ {l : PyStr}, c ∉ l →
    splitChar c l = [l] := by
  intro l
  induction l with
  | nil => intro _; rfl
  | cons x xs ih =>
    intro h
    unfold splitChar
    rw [if_neg (by intro hcon; subst hcon; exact h (List.mem_cons_self x xs))]
    rw [ih (fun hm => h (List.mem_cons_of_mem x hm))]

theorem splitChar_sep {c : Char} : ∀ {p : PyStr}, c ∉ p → ∀ (rest : PyStr),
    splitChar c (p ++ c :: rest) = p :: splitChar c rest := by
  intro p
  induction p with
  | nil =>
    intro _ rest
    rw [List.nil_append]
    conv_lhs => rw [splitChar]
    rw [if_pos rfl]
  | cons x xs ih =>
    intro h rest
    rw [List.cons_append]
    conv_lhs => rw [splitChar]
    rw [if_neg (by intro hcon; subst hcon; exact h (List.mem_cons_self x xs))]
    rw [ih (fun hm => h (List.mem_cons_of_mem x hm)) rest]

theorem intercalate_nil_amp : List.intercalate (pys "&") ([] : List PyStr) = [] := rfl

theorem intercalate_single_amp (p : PyStr) :
    List.intercalate (pys "&") [p] = p := by
  unfold List.intercalate
  simp

theorem intercalate_cons2_amp (p q : PyStr) (ps : List PyStr) :
    List.intercalate (pys "&") (p :: q :: ps) =
      p ++ '&' :: List.intercalate (pys "&") (q :: ps) := by
  unfold List.intercalate
  rw [List.intersperse_cons₂, List.flatten_cons, List.flatten_cons]
  have hamp : pys "&" = ['&'] := rfl
  rw [hamp]
  rfl

theorem splitChar_intercalate : ∀ {ps : List PyStr}, ps ≠ [] →
    (∀ p ∈ ps, '&' ∉ p) →
    splitChar '&' (List.intercalate (pys "&") ps) = ps := by
  intro ps
  induction ps with
  | nil => intro h _; exact absurd rfl h
  | cons p ps ih =>
    intro _ hnm
    cases ps with
    | nil =>
      rw [intercalate_single_amp]
      exact splitChar_not_mem (hnm p (List.mem_cons_self p []))
    | cons q ps2 =>
      rw [intercalate_cons2_amp,
        splitChar_sep (hnm p (List.mem_cons_self p _)) _,
        ih (by intro hcon; exact List.noConfusion hcon)
          (fun x hx => hnm x (List.mem_cons_of_mem p hx))]

/-! ### Nonemptiness of unquote -/

theorem utf8Decode_ne_nil : ∀ {bs : List Nat}, bs ≠ [] →
    utf8Decode bs ≠ [] := by
  intro bs h
  match bs with
  | [] => exact absurd rfl h
  | [b0] =>
    unfold utf8Decode
    split <;> simp
  | [b0, b1] =>
    unfold utf8Decode
    split <;> [simp; skip]
    split <;> [(split <;> simp); simp]
  | [b0, b1, b2] =>
    unfold utf8Decode
    split <;> [simp; skip]
    split <;> [(split <;> simp); skip]
    split <;> [(split <;> simp); simp]
  | b0 :: b1 :: b2 :: b3 :: rest =>
    unfold utf8Decode
    split <;> [simp; skip]
    split <;> [(split <;> simp); skip]
    split <;> [(split <;> simp); skip]
    split <;> [(split <;> simp); simp]

theorem decodeTokens_ne_nil : ∀ {ts : List (Sum Nat Char)} {acc : List Nat},
    (ts ≠ [] ∨ acc ≠ []) → decodeTokens ts acc ≠ [] := by
  intro ts
  induction ts with
  | nil =>
    intro acc h
    rcases h with h | h
    · exact absurd rfl h
    · unfold decodeTokens
      apply utf8Decode_ne_nil
      intro hcon
      rw [List.reverse_eq_nil_iff] at hcon
      exact h hcon
  | cons t ts ih =>
    intro acc _
    cases t with
    | inl b =>
      unfold decodeTokens
      exact ih (.inr (by intro hcon; exact List.noConfusion hcon))
    | inr c =>
      unfold decodeTokens
      intro hcon
      rcases List.append_eq_nil.mp hcon with ⟨_, h2⟩
      exact List.noConfusion h2

theorem unquoteTokens_ne_nil : ∀ {s : PyStr}, s ≠ [] →
    unquoteTokens s ≠ [] := by
  intro s h
  match s with
  | [] => exact absurd rfl h
  | [c] =>
    unfold unquoteTokens
    split <;> simp
  | [c, a] =>
    unfold unquoteTokens
    split <;> simp
  | c :: a :: b :: rest =>
    unfold unquoteTokens
    split
    · split <;> simp
    · simp

theorem unquote_ne_nil {s : PyStr} (h : s ≠ []) : unquote s ≠ [] :=
  decodeTokens_ne_nil (.inl (unquoteTokens_ne_nil h))

theorem replaceChar_ne_nil {a b : Char} {l : PyStr} (h : l ≠ []) :
    replaceChar a b l ≠ [] := by
  unfold replaceChar
  intro hcon
  rw [List.map_eq_nil_iff] at hcon
  exact h hcon

/-! ### Parsing an urlencoded query -/

@[simp]
theorem except_map_ok {α β ε : Type} (a : α) (f : α → β) :
    (Except.ok a : Except ε α).map f = .ok (f a) := rfl

@[simp]
theorem except_map_error {α β ε : Type} (e : ε) (f : α → β) :
    (Except.error e : Except ε α).map f = .error e := rfl

theorem parseQslField_piece {k v : PyStr} (hv : v ≠ []) :
    parseQslField (quote [] k ++ '=' :: quote [] v) = .ok (some (k, v)) := by
  unfold parseQslField
  rw [splitFirst_first (quote_not_mem (by decide) (by decide)) _]
  dsimp only
  rw [if_pos (quote_ne_nil hv)]
  rw [unquote_replace_quote, unquote_replace_quote]

theorem parseQslField_vals {f : PyStr} {p : PyStr × PyStr}
    (h : parseQslField f = .ok (some p)) : p.2 ≠ [] := by
  unfold parseQslField at h
  cases hs : splitFirst '=' f with
  | none => rw [hs] at h; exact Except.noConfusion h
  | some nv =>
    rw [hs] at h
    cases nv with
    | mk n v =>
      dsimp only at h
      by_cases hv : v ≠ []
      · rw [if_pos hv] at h
        have := Except.ok.inj h
        have hp := Option.some.inj this
        rw [← hp]
        exact unquote_ne_nil (replaceChar_ne_nil hv)
      · rw [if_neg hv] at h
        exact Option.noConfusion (Except.ok.inj h)

theorem parseFields_vals : ∀ {fs : List PyStr} {ps : List (PyStr × PyStr)},
    parseFields fs = .ok ps → ∀ p ∈ ps, p.2 ≠ [] := by
  intro fs
  induction fs with
  | nil =>
    intro ps h p hp
    have : ps = [] := (Except.ok.inj h).symm
    rw [this] at hp
    exact absurd hp (List.not_mem_nil p)
  | cons f fs ih =>
    intro ps h p hp
    unfold parseFields at h
    cases hfld : parseQslField f with
    | error e =>
      rw [hfld] at h
      simp only [except_monad_bind_error] at h
      exact Except.noConfusion h
    | ok h0 =>
      rw [hfld] at h
      simp only [except_monad_bind_ok] at h
      cases hrest : parseFields fs with
      | error e =>
        rw [hrest] at h
        simp only [except_monad_bind_error] at h
        exact Except.noConfusion h
      | ok rs =>
        rw [hrest] at h
        simp only [except_monad_bind_ok] at h
        cases h0 with
        | some p0 =>
          have : ps = p0 :: rs := (Except.ok.inj h).symm
          rw [this] at hp
          rcases List.mem_cons.mp hp with rfl | hp2
          · exact parseQslField_vals hfld
          · exact ih hrest p hp2
        | none =>
          have : ps = rs := (Except.ok.inj h).symm
          rw [this] at hp
          exact ih hrest p hp

theorem parseFields_map_vals {k : PyStr} : ∀ {vs : List PyStr},
    (∀ v ∈ vs, v ≠ []) →
    parseFields (vs.map (fun v => quote [] k ++ '=' :: quote [] v)) =
      .ok (vs.map (fun v => (k, v))) := by
  intro vs
  induction vs with
  | nil => intro _; rfl
  | cons v vs ih =>
    intro hv
    rw [List.map_cons]
    unfold parseFields
    rw [parseQslField_piece (hv v (List.mem_cons_self v vs))]
    simp only [except_monad_bind_ok]
    rw [ih (fun x hx => hv x (List.mem_cons_of_mem v hx))]
    simp only [except_monad_bind_ok]
    rw [List.map_cons]

theorem parseFields_append {xs : List PyStr} {as : List (PyStr × PyStr)} :
    ∀ {ys : List PyStr}, parseFields xs = .ok as →
    parseFields (xs ++ ys) = (parseFields ys).map (fun bs => as ++ bs) := by
  induction xs generalizing as with
  | nil =>
    intro ys hxs
    have : as = [] := (Except.ok.inj hxs).symm
    subst this
    rw [List.nil_append]
    cases hys : parseFields ys with
    | error e => rfl
    | ok bs => simp
  | cons f fs ih =>
    intro ys hxs
    unfold parseFields at hxs
    cases hfld : parseQslField f with
    | error e =>
      rw [hfld] at hxs
      simp only [except_monad_bind_error] at hxs
      exact Except.noConfusion hxs
    | ok h0 =>
      rw [hfld] at hxs
      simp only [except_monad_bind_ok] at hxs
      cases hrest : parseFields fs with
      | error e =>
        rw [hrest] at hxs
        simp only [except_monad_bind_error] at hxs
        exact Except.noConfusion hxs
      | ok rs =>
        rw [hrest] at hxs
        simp only [except_monad_bind_ok] at hxs
        rw [List.cons_append]
        show (parseQslField f >>= fun h0 =>
          (parseFields (fs ++ ys) >>= fun rest =>
            match h0 with
            | some p => .ok (p :: rest)
            | none => .ok rest)) = _
        rw [hfld]
        simp only [except_monad_bind_ok]
        rw [ih hrest]
        cases hys : parseFields ys with
        | error e => cases h0 <;> simp_all
        | ok bs =>
          cases h0 with
          | some p0 =>
            have : as = p0 :: rs := (Except.ok.inj hxs).symm
            subst this
            simp
          | none =>
            have : as = rs := (Except.ok.inj hxs).symm
            subst this
            simp

theorem parseFields_pieces : ∀ {d : List (PyStr × List PyStr)},
    (∀ e ∈ d, ∀ v ∈ e.2, v ≠ []) →
    parseFields ((d.map (fun e => e.2.map (fun v =>
        quote [] e.1 ++ '=' :: quote [] v))).flatten) =
      .ok ((d.map (fun e => e.2.map (fun v => (e.1, v)))).flatten) := by
  intro d
  induction d with
  | nil => intro _; rfl
  | cons e d ih =>
    intro hvals
    rw [List.map_cons, List.flatten_cons, List.map_cons, List.flatten_cons]
    rw [parseFields_append
      (parseFields_map_vals (hvals e (List.mem_cons_self e d)))]
    rw [ih (fun x hx => hvals x (List.mem_cons_of_mem e hx))]
    rfl

/-! ### Grouping pairs into the dict -/

theorem any_eq_false_of {α : Type} {p : α → Bool} : ∀ {l : List α},
    (∀ x ∈ l, p x = false) → l.any p = false := by
  intro l
  induction l with
  | nil => intro _; rfl
  | cons x xs ih =>
    intro h
    rw [List.any_cons, h x (List.mem_cons_self x xs),
      ih (fun a ha => h a (List.mem_cons_of_mem x ha)), Bool.or_self]

theorem addPair_fresh {acc : List (PyStr × List PyStr)} {k v : PyStr}
    (h : ∀ e ∈ acc, e.1 ≠ k) : addPair acc (k, v) = acc ++ [(k, [v])] := by
  unfold addPair
  rw [if_neg ?_]
  rw [any_eq_false_of (fun e he => beq_eq_false_iff_ne.mpr (h e he))]
  exact Bool.false_ne_true

theorem map_keep_of_ne {f : PyStr × List PyStr → PyStr × List PyStr}
    {acc : List (PyStr × List PyStr)}
    (h : ∀ e ∈ acc, f e = e) : acc.map f = acc := by
  rw [List.map_congr_left h]
  simp

theorem addPair_last {acc : List (PyStr × List PyStr)} {k v : PyStr}
    {u : List PyStr} (h : ∀ e ∈ acc, e.1 ≠ k) :
    addPair (acc ++ [(k, u)]) (k, v) = acc ++ [(k, u ++ [v])] := by
  unfold addPair
  rw [if_pos ?_]
  · rw [List.map_append, List.map_cons, List.map_nil]
    rw [map_keep_of_ne (fun e he => by
      rw [if_neg]
      simp only [beq_eq_false_iff_ne.mpr (h e he), Bool.false_eq_true,
        not_false_eq_true])]
    congr 2
    rw [if_pos (by simp)]
  · rw [List.any_append]
    simp

theorem fold_same_key {k : PyStr} : ∀ {vs : List PyStr}
    {acc : List (PyStr × List PyStr)} {u : List PyStr},
    (∀ e ∈ acc, e.1 ≠ k) →
    List.foldl addPair (acc ++ [(k, u)]) (vs.map (fun v => (k, v))) =
      acc ++ [(k, u ++ vs)] := by
  intro vs
  induction vs with
  | nil =>
    intro acc u _
    rw [List.map_nil, List.foldl_nil, List.append_nil]
  | cons v vs ih =>
    intro acc u h
    rw [List.map_cons, List.foldl_cons, addPair_last h, ih h,
      List.append_assoc, List.singleton_append]

theorem fold_entry {acc : List (PyStr × List PyStr)} {k : PyStr}
    {vs : List PyStr} (hfresh : ∀ e ∈ acc, e.1 ≠ k) (hne : vs ≠ []) :
    List.foldl addPair acc (vs.map (fun v => (k, v))) = acc ++ [(k, vs)] := by
  cases vs with
  | nil => exact absurd rfl hne
  | cons v vs =>
    rw [List.map_cons, List.foldl_cons, addPair_fresh hfresh,
      fold_same_key hfresh, List.singleton_append]

theorem fold_pairs : ∀ {d acc : List (PyStr × List PyStr)},
    (∀ e ∈ d, ∀ a ∈ acc, a.1 ≠ e.1) →
    List.Nodup (d.map (fun e => e.1)) →
    (∀ e ∈ d, e.2 ≠ []) →
    List.foldl addPair acc
      ((d.map (fun e => e.2.map (fun v => (e.1, v)))).flatten) = acc ++ d := by
  intro d
  induction d with
  | nil =>
    intro acc _ _ _
    rw [List.map_nil, List.flatten_nil, List.foldl_nil, List.append_nil]
  | cons e d ih =>
    intro acc hfresh hnodup hne
    obtain ⟨k, vs⟩ := e
    rw [List.map_cons, List.flatten_cons, List.foldl_append]
    rw [fold_entry (fun a ha => hfresh (k, vs) (List.mem_cons_self _ _) a ha)
      (hne (k, vs) (List.mem_cons_self _ _))]
    rw [List.map_cons] at hnodup
    have hk : k ∉ d.map (fun e => e.1) := (List.nodup_cons.mp hnodup).1
    rw [ih ?_ (List.nodup_cons.mp hnodup).2
      (fun x hx => hne x (List.mem_cons_of_mem _ hx))]
    · rw [List.append_assoc, List.singleton_append]
    · intro e2 he2 a ha
      rcases List.mem_append.mp ha with ha2 | ha2
      · exact hfresh e2 (List.mem_cons_of_mem _ he2) a ha2
      · have haeq : a = (k, vs) := List.mem_singleton.mp ha2
        rw [haeq]
        intro hcon
        have hk2 : k = e2.1 := hcon
        exact hk (by rw [hk2]; exact List.mem_map_of_mem (fun e => e.1) he2)

/-- Invariants of a `parse_qs` result: keys are distinct, every value list
is nonempty, every value string is nonempty. -/
theorem parse_qs_inv {qs : PyStr} {d : List (PyStr × List PyStr)}
    (h : parse_qs_strict qs = .ok d) :
    List.Nodup (d.map (fun e => e.1)) ∧
    (∀ e ∈ d, e.2 ≠ [] ∧ ∀ v ∈ e.2, v ≠ []) := by
  unfold parse_qs_strict at h
  cases hql : parse_qsl_strict qs with
  | error e =>
    rw [hql] at h
    simp only [except_map_error] at h
    exact Except.noConfusion h
  | ok ps =>
    rw [hql] at h
    simp only [except_map_ok] at h
    have hd : d = List.foldl addPair [] ps := (Except.ok.inj h).symm
    have hvals : ∀ p ∈ ps, p.2 ≠ [] := by
      unfold parse_qsl_strict at hql
      by_cases hqs : qs = []
      · rw [if_pos hqs] at hql
        have : ps = [] := (Except.ok.inj hql).symm
        rw [this]
        intro p hp
        exact absurd hp (List.not_mem_nil p)
      · rw [if_neg hqs] at hql
        exact parseFields_vals hql
    subst hd
    constructor
    · -- distinct keys
      have hgen : ∀ (ps2 : List (PyStr × PyStr))
          (acc : List (PyStr × List PyStr)),
          List.Nodup (acc.map (fun e => e.1)) →
          List.Nodup ((List.foldl addPair acc ps2).map (fun e => e.1)) := by
        intro ps2
        induction ps2 with
        | nil => intro acc h2; exact h2
        | cons p ps2 ih =>
          intro acc h2
          rw [List.foldl_cons]
          apply ih
          unfold addPair
          cases hany : acc.any (fun e => e.1 == p.1) with
          | true =>
            rw [if_pos rfl]
            have hkeys : (acc.map (fun e =>
                if e.1 == p.1 then (e.1, e.2 ++ [p.2]) else e)).map
                  (fun e => e.1) = acc.map (fun e => e.1) := by
              rw [List.map_map]
              apply List.map_congr_left
              intro e _
              by_cases hb : e.1 == p.1 <;> simp [Function.comp, hb]
            rw [hkeys]
            exact h2
          | false =>
            rw [if_neg Bool.false_ne_true]
            rw [List.map_append, List.map_cons, List.map_nil]
            rw [List.nodup_append]
            refine ⟨h2, List.nodup_singleton _, ?_⟩
            intro x hx hx2
            have hxp : x = p.1 := List.mem_singleton.mp hx2
            obtain ⟨e, he, hex⟩ := List.mem_map.mp hx
            have : (fun e => e.1 == p.1) e = true := by
              show (e.1 == p.1) = true
              rw [hex, hxp]
              simp
            have hany2 : acc.any (fun e => e.1 == p.1) = true :=
              List.any_eq_true.mpr ⟨e, he, this⟩
            rw [hany] at hany2
            exact Bool.noConfusion hany2
      exact hgen ps [] List.nodup_nil
    · -- value shapes
      have hgen : ∀ (ps2 : List (PyStr × PyStr))
          (acc : List (PyStr × List PyStr)),
          (∀ p ∈ ps2, p.2 ≠ []) →
          (∀ e ∈ acc, e.2 ≠ [] ∧ ∀ v ∈ e.2, v ≠ []) →
          (∀ e ∈ List.foldl addPair acc ps2,
            e.2 ≠ [] ∧ ∀ v ∈ e.2, v ≠ []) := by
        intro ps2
        induction ps2 with
        | nil => intro acc _ hacc; exact hacc
        | cons p ps2 ih =>
          intro acc hps hacc
          rw [List.foldl_cons]
          apply ih _ (fun q hq => hps q (List.mem_cons_of_mem p hq))
          intro e he
          unfold addPair at he
          split at he
          · obtain ⟨e0, he0, hee⟩ := List.mem_map.mp he
            by_cases hb : e0.1 == p.1
            · rw [if_pos hb] at hee
              rw [← hee]
              constructor
              · intro hcon
                exact absurd (List.append_eq_nil.mp hcon).2 (by simp)
              · intro v hv
                rcases List.mem_append.mp hv with hv2 | hv2
                · exact (hacc e0 he0).2 v hv2
                · rw [List.mem_singleton.mp hv2]
                  exact hps p (List.mem_cons_self p ps2)
            · rw [if_neg hb] at hee
              rw [← hee]
              exact hacc e0 he0
          · rcases List.mem_append.mp he with he2 | he2
            · exact hacc e he2
            · rw [List.mem_singleton.mp he2]
              refine ⟨by simp, ?_⟩
              intro v hv
              rw [List.mem_singleton.mp hv]
              exact hps p (List.mem_cons_self p ps2)
      exact hgen ps [] hvals (fun e he => absurd he (List.not_mem_nil e))

/-! ### The query round trip -/

theorem mem_intercalate_amp : ∀ {ps : List PyStr} {c : Char},
    c ∈ List.intercalate (pys "&") ps → c = '&' ∨ ∃ p ∈ ps, c ∈ p := by
  intro ps
  induction ps with
  | nil =>
    intro c hc
    rw [intercalate_nil_amp] at hc
    exact absurd hc (List.not_mem_nil c)
  | cons p ps ih =>
    intro c hc
    cases ps with
    | nil =>
      rw [intercalate_single_amp] at hc
      exact .inr ⟨p, List.mem_cons_self p [], hc⟩
    | cons q ps2 =>
      rw [intercalate_cons2_amp] at hc
      rcases List.mem_append.mp hc with h | h
      · exact .inr ⟨p, List.mem_cons_self p _, h⟩
      · rcases List.mem_cons.mp h with rfl | h2
        · exact .inl rfl
        · rcases ih h2 with h3 | ⟨p2, hp2, hc2⟩
          · exact .inl h3
          · exact .inr ⟨p2, List.mem_cons_of_mem p hp2, hc2⟩

theorem urlencode_chars {d : List (PyStr × List PyStr)} :
    ∀ c ∈ urlencodeModel d,
      isAlwaysSafe c.toNat = true ∨ c = '%' ∨ c = '=' ∨ c = '&' := by
  intro c hc
  unfold urlencodeModel at hc
  rcases mem_intercalate_amp hc with rfl | ⟨p, hp, hcp⟩
  · exact .inr (.inr (.inr rfl))
  · rw [List.mem_flatten] at hp
    obtain ⟨grp, hgrp, hpg⟩ := hp
    rw [List.mem_map] at hgrp
    obtain ⟨e, _, hge⟩ := hgrp
    subst hge
    rw [List.mem_map] at hpg
    obtain ⟨v, _, hpv⟩ := hpg
    subst hpv
    rcases List.mem_append.mp hcp with h | h
    · rcases quote_chars c h with h2 | h2
      · exact .inl h2
      · exact .inr (.inl h2)
    · rcases List.mem_cons.mp h with rfl | h2
      · exact .inr (.inr (.inl rfl))
      · rcases quote_chars c h2 with h3 | h3
        · exact .inl h3
        · exact .inr (.inl h3)

theorem piece_ne_nil {k v : PyStr} : quote [] k ++ '=' :: quote [] v ≠ [] := by
  intro hcon
  exact List.noConfusion (List.append_eq_nil.mp hcon).2

theorem intercalate_cons_ne_nil {p : PyStr} (hp : p ≠ [])
    (ps : List PyStr) : List.intercalate (pys "&") (p :: ps) ≠ [] := by
  cases ps with
  | nil => rw [intercalate_single_amp]; exact hp
  | cons q ps2 =>
    rw [intercalate_cons2_amp]
    intro hcon
    exact List.noConfusion (List.append_eq_nil.mp hcon).2

/-- Encoding a dict with distinct keys, nonempty value lists, and nonempty
value strings, then strict-parsing the result, returns exactly that dict. -/
theorem parse_qs_urlencode {d : List (PyStr × List PyStr)}
    (hkeys : List.Nodup (d.map (fun e => e.1)))
    (hvals : ∀ e ∈ d, e.2 ≠ [] ∧ ∀ v ∈ e.2, v ≠ []) :
    parse_qs_strict (urlencodeModel d) = .ok d := by
  cases d with
  | nil => rfl
  | cons e0 d' =>
    have hpieces_ne : (((e0 :: d').map (fun e => e.2.map (fun v =>
        quote [] e.1 ++ '=' :: quote [] v))).flatten) ≠ [] := by
      rw [List.map_cons, List.flatten_cons]
      intro hcon
      have h1 := (List.append_eq_nil.mp hcon).1
      rw [List.map_eq_nil_iff] at h1
      exact (hvals e0 (List.mem_cons_self e0 d')).1 h1
    have hqs_ne : urlencodeModel (e0 :: d') ≠ [] := by
      unfold urlencodeModel
      cases hp : ((e0 :: d').map (fun e => e.2.map (fun v =>
          quote [] e.1 ++ '=' :: quote [] v))).flatten with
      | nil => exact absurd hp hpieces_ne
      | cons p ps =>
        apply intercalate_cons_ne_nil
        have hpmem : p ∈ ((e0 :: d').map (fun e => e.2.map (fun v =>
            quote [] e.1 ++ '=' :: quote [] v))).flatten := by
          rw [hp]; exact List.mem_cons_self p ps
        rw [List.mem_flatten] at hpmem
        obtain ⟨grp, hgrp, hpg⟩ := hpmem
        rw [List.mem_map] at hgrp
        obtain ⟨e, _, hge⟩ := hgrp
        subst hge
        rw [List.mem_map] at hpg
        obtain ⟨v, _, hpv⟩ := hpg
        rw [← hpv]
        exact piece_ne_nil
    have hnoamp : ∀ p ∈ ((e0 :: d').map (fun e => e.2.map (fun v =>
        quote [] e.1 ++ '=' :: quote [] v))).flatten, '&' ∉ p := by
      intro p hp
      rw [List.mem_flatten] at hp
      obtain ⟨grp, hgrp, hpg⟩ := hp
      rw [List.mem_map] at hgrp
      obtain ⟨e, _, hge⟩ := hgrp
      subst hge
      rw [List.mem_map] at hpg
      obtain ⟨v, _, hpv⟩ := hpg
      subst hpv
      intro hm
      rcases List.mem_append.mp hm with h | h
      · exact quote_not_mem (by decide) (by decide) h
      · rcases List.mem_cons.mp h with h2 | h2
        · exact absurd h2 (by decide)
        · exact quote_not_mem (by decide) (by decide) h2
    unfold parse_qs_strict parse_qsl_strict
    rw [if_neg hqs_ne]
    unfold urlencodeModel
    rw [splitChar_intercalate hpieces_ne hnoamp]
    rw [parseFields_pieces (fun e he => (hvals e he).2)]
    simp only [except_map_ok]
    rw [fold_pairs (fun e _ a ha => absurd ha (List.not_mem_nil a)) hkeys
      (fun e he => (hvals e he).1)]
    rw [List.nil_append]

/-! ### dict.pop and dict.update on an appended fresh key -/

theorem dict_update_fresh {d : List (PyStr × List PyStr)} {k : PyStr}
    {vs : List PyStr} (h : ∀ e ∈ d, e.1 ≠ k) :
    dict_update d k vs = d ++ [(k, vs)] := by
  unfold dict_update
  rw [if_neg ?_]
  rw [any_eq_false_of (fun e he => beq_eq_false_iff_ne.mpr (h e he))]
  exact Bool.false_ne_true

theorem dict_pop_append {d : List (PyStr × List PyStr)} {k : PyStr}
    {vs : List PyStr} (h : ∀ e ∈ d, e.1 ≠ k) :
    dict_pop (d ++ [(k, vs)]) k = .ok d := by
  unfold dict_pop
  rw [if_pos ?_]
  · rw [List.filter_append]
    rw [List.filter_eq_self.mpr (fun e he => by
      simp only [Bool.not_eq_true']
      exact beq_eq_false_iff_ne.mpr (h e he))]
    have hone : List.filter (fun e => !(e.1 == k)) [(k, vs)] = [] := by
      rw [List.filter_cons]
      simp
    rw [hone, List.append_nil]
  · rw [List.any_append]
    simp

theorem dict_pop_absent {d : List (PyStr × List PyStr)} {k : PyStr}
    (h : ∀ e ∈ d, e.1 ≠ k) : dict_pop d k = .error .keyError := by
  unfold dict_pop
  rw [if_neg ?_]
  rw [any_eq_false_of (fun e he => beq_eq_false_iff_ne.mpr (h e he))]
  exact Bool.false_ne_true

/-- C2: the claim says removing an absent parameter name succeeds and leaves
the parameter set unchanged; in the code `dict.pop(parameter_name)` raises
`KeyError` whenever the name is absent, so `remove_query_parameter` on the
URL `https://en.wikipedia.org/wiki/X?a=1` (well-formed query, no `diff`
parameter) raises instead of returning the URL. -/
theorem c2_counterexample :
    remove_query_parameter (pys "https://en.wikipedia.org/wiki/X?a=1")
      (pys "diff") = .error .keyError := by rfl

/-- C2 (amended): for every URL whose query parses strictly to a parameter
dict `d` and every parameter name `k` not among the keys of `d`,
`remove_query_parameter` raises `KeyError`: absence of the key is an error,
the converse of the claim. -/
theorem c2_absent_key_error (u k : PyStr) (d : List (PyStr × List PyStr))
    (hd : get_query_parameters u = .ok d)
    (hk : ∀ e ∈ d, e.1 ≠ k) :
    remove_query_parameter u k = .error .keyError := by
  unfold remove_query_parameter
  rw [hd]
  simp only [except_monad_bind_ok]
  rw [dict_pop_absent hk]
  simp only [except_monad_bind_error]

theorem c2_absent_key_error_witness :
    remove_query_parameter (pys "https://en.wikipedia.org/wiki/Earth?oldid=7")
      (pys "diff") = .error .keyError :=
  c2_absent_key_error _ _ [(pys "oldid", [pys "7"])] (by rfl) (by decide)

/-- C3: `set_query_parameter` on the concrete URL
`https://en.wikipedia.org/wiki/Earth` (empty query string) with name `diff`
and value `0` returns `https://en.wikipedia.org/wiki/Earth?diff=0`; the
strict query parse accepts the empty query because `parse_qsl` splits
`qs.split(separator) if qs else []`, yielding no fields. -/
theorem c3_empty_query_set_parameter :
    set_query_parameter (pys "https://en.wikipedia.org/wiki/Earth")
      (pys "diff") (pys "0") =
      .ok (pys "https://en.wikipedia.org/wiki/Earth?diff=0") := by rfl

theorem take_two_prefix_ne {R ext : PyStr}
    (h : (R ++ ext).take 2 ≠ pys "//") : R.take 2 ≠ pys "//" := by
  have hps : pys "//" = ['/', '/'] := rfl
  intro hcon
  apply h
  match R, hcon with
  | [], hcon =>
    rw [hps] at hcon
    exact List.noConfusion hcon
  | [a], hcon =>
    rw [hps] at hcon
    exact List.noConfusion (List.cons.inj hcon).2
  | a :: b :: r, hcon =>
    rw [List.cons_append, List.cons_append]
    exact hcon

/-- C7: the claim promises the round trip for every value; with the empty
value the inserted field `diff=` is dropped on re-parsing (blank values are
not kept), so the `dict.pop` in `remove_query_parameter` raises `KeyError`
instead of reproducing the original (empty) parameter set. -/
theorem c7_counterexample :
    (set_query_parameter (pys "https://en.wikipedia.org/wiki/Earth")
      (pys "diff") []).bind
      (fun r1 => remove_query_parameter r1 (pys "diff")) =
      .error .keyError := by rfl

/-- One rewrite round: parse a URL, keep its non-query components, splice in
an encoded dict, and re-parse.  The re-parse recovers the same scheme,
netloc and fragment, the spliced query, and a path that still satisfies the
no-leading-`//` side condition when the netloc is empty. -/
theorem assembled_round {w : PyStr} {sr : SplitResult}
    (hsr : urlsplitModel w = .ok sr)
    (hW : sr.netloc ≠ [] ∨ sr.path.take 2 ≠ pys "//")
    {p1 p2 : PyStr}
    (hpp : (if uses_params.contains sr.scheme && sr.path.contains ';' then
        splitparams sr.path else (sr.path, [])) = (p1, p2))
    (d2 : List (PyStr × List PyStr)) :
    ∃ P2, (sr.netloc = [] → P2.take 2 ≠ pys "//") ∧
      urlsplitModel (urlunparseModel sr.scheme sr.netloc p1 p2
        (urlencodeModel d2) sr.fragment) =
        .ok ⟨sr.scheme, sr.netloc, P2, urlencodeModel d2, sr.fragment⟩ := by
  have hg := urlsplit_good hsr
  obtain ⟨R, hRdef⟩ : ∃ x, (if p2 ≠ [] then p1 ++ ';' :: p2 else p1) = x :=
    ⟨_, rfl⟩
  have hext : ∃ ext, sr.path = R ++ ext := by
    by_cases hcond : (uses_params.contains sr.scheme &&
        sr.path.contains ';') = true
    · rw [if_pos hcond] at hpp
      obtain ⟨ext, he⟩ := recombine_ext hpp
      exact ⟨ext, by rw [← hRdef]; exact he⟩
    · rw [if_neg hcond] at hpp
      obtain ⟨h1, h2⟩ := Prod.mk.injEq _ _ _ _ ▸ hpp
      refine ⟨[], ?_⟩
      rw [List.append_nil, ← hRdef, ← h2]
      rw [if_neg (show ¬(([] : PyStr) ≠ []) from fun hc => hc rfl)]
      exact h1
  obtain ⟨ext, hRe⟩ := hext
  have hRq : '?' ∉ R := fun hm =>
    hg.path_noq (by rw [hRe]; exact List.mem_append_left _ hm)
  have hRh : '#' ∉ R := fun hm =>
    hg.path_noh (by rw [hRe]; exact List.mem_append_left _ hm)
  have hRc : cleanStr R := fun c hc =>
    hg.path_clean c (by rw [hRe]; exact List.mem_append_left _ hc)
  have hRhead : sr.scheme = [] → ∀ c, R.head? = some c → 0x20 < c.toNat := by
    intro h0 c hc
    cases hR : R with
    | nil => rw [hR] at hc; exact absurd hc (by simp)
    | cons r0 rt =>
      rw [hR] at hc
      simp only [List.head?_cons, Option.some.injEq] at hc
      refine hg.path_head h0 c ?_
      rw [hRe, hR, List.cons_append, ← hc]
      rfl
  have hRcol : sr.scheme = [] → NoSchemeColon R := by
    intro h0
    have hn := hg.path_cols h0
    rw [hRe] at hn
    exact noSchemeColon_append hn
  have hRW : sr.netloc ≠ [] ∨ R.take 2 ≠ pys "//" := by
    rcases hW with h | h
    · exact .inl h
    · right
      apply take_two_prefix_ne
      rw [← hRe]
      exact h
  obtain ⟨P2, hP2or, hsp⟩ := urlsplit_unsplit hg.scheme_ok hg.netloc_chars
    hg.netloc_brackets hg.netloc_clean hRq hRh hRc hRhead hRcol hRW
    (@urlencode_chars d2) hg.frag_clean
  refine ⟨P2, ?_, ?_⟩
  · intro hN0
    rcases hRW with h | hRtk
    · exact absurd hN0 h
    rcases hP2or with h | ⟨h, hne, ht1⟩
    · rw [h]; exact hRtk
    · rw [h]
      intro hcon
      apply ht1
      exact (List.cons.inj hcon).2
  · have hunp : urlunparseModel sr.scheme sr.netloc p1 p2
        (urlencodeModel d2) sr.fragment =
        urlunsplitModel sr.scheme sr.netloc R (urlencodeModel d2)
          sr.fragment := by
      unfold urlunparseModel
      rw [hRdef]
    rw [hunp]
    exact hsp

/-- C7 (amended): for a URL `u` whose query strict-parses to a dict `d`
without the name `k`, a nonempty value `v`, and a URL whose parsed netloc is
nonempty or whose parsed path does not begin with `//` (otherwise CPython
re-parses the reassembled URL with a different netloc, which can raise
`Invalid IPv6 URL` — e.g. `////[x` — instead of round-tripping),
`removeParameter(setParameter(u, k, v), k)` succeeds and reproduces exactly
the parameter dict `d`. -/
theorem c7_round_trip (u k v : PyStr) (d : List (PyStr × List PyStr))
    (sr : SplitResult)
    (hsr : urlsplitModel u = .ok sr)
    (hW : sr.netloc ≠ [] ∨ sr.path.take 2 ≠ pys "//")
    (hd : get_query_parameters u = .ok d)
    (hk : ∀ e ∈ d, e.1 ≠ k)
    (hv : v ≠ []) :
    ∃ r1 r2, set_query_parameter u k v = .ok r1 ∧
      remove_query_parameter r1 k = .ok r2 ∧
      get_query_parameters r2 = .ok d := by
  obtain ⟨p1, p2, hpp⟩ : ∃ a b,
      (if uses_params.contains sr.scheme && sr.path.contains ';' then
        splitparams sr.path else (sr.path, [])) = (a, b) := ⟨_, _, rfl⟩
  have hpr : urlparseModel u =
      .ok ⟨sr.scheme, sr.netloc, p1, p2, sr.query, sr.fragment⟩ :=
    urlparseModel_eval hsr hpp
  have hparse : parse_qs_strict sr.query = .ok d :=
    (get_qp_eval hpr).symm.trans hd
  obtain ⟨hdk, hdv⟩ := parse_qs_inv hparse
  have hupd : dict_update d k [v] = d ++ [(k, [v])] := dict_update_fresh hk
  have hdk1 : List.Nodup ((d ++ [(k, [v])]).map (fun e => e.1)) := by
    rw [List.map_append, List.nodup_append]
    refine ⟨hdk, by simp, ?_⟩
    intro x hx hx2
    obtain ⟨e, he, hex⟩ := List.mem_map.mp hx
    have hxk : x = k := List.mem_singleton.mp hx2
    exact hk e he (hex.trans hxk)
  have hdv1 : ∀ e ∈ d ++ [(k, [v])], e.2 ≠ [] ∧ ∀ s ∈ e.2, s ≠ [] := by
    intro e he
    rcases List.mem_append.mp he with h | h
    · exact hdv e h
    · rw [List.mem_singleton.mp h]
      exact ⟨by simp, fun s hs => by
        rw [List.mem_singleton.mp hs]; exact hv⟩
  obtain ⟨P2, hP2W, hsp1⟩ := assembled_round hsr hW hpp (d ++ [(k, [v])])
  have hr1eq : set_query_parameter u k v =
      .ok (urlunparseModel sr.scheme sr.netloc p1 p2
        (urlencodeModel (d ++ [(k, [v])])) sr.fragment) := by
    rw [set_qp_eval hd, hupd]
    exact set_qps_eval hpr _
  have hsr2 : urlsplitModel (urlunparseModel sr.scheme sr.netloc p1 p2
      (urlencodeModel (d ++ [(k, [v])])) sr.fragment) =
      .ok ⟨sr.scheme, sr.netloc, P2, urlencodeModel (d ++ [(k, [v])]),
        sr.fragment⟩ := hsp1
  obtain ⟨q1, q2, hpp2⟩ : ∃ a b,
      (if uses_params.contains sr.scheme && P2.contains ';' then
        splitparams P2 else (P2, [])) = (a, b) := ⟨_, _, rfl⟩
  have hpr2 : urlparseModel (urlunparseModel sr.scheme sr.netloc p1 p2
      (urlencodeModel (d ++ [(k, [v])])) sr.fragment) =
      .ok ⟨sr.scheme, sr.netloc, q1, q2,
        urlencodeModel (d ++ [(k, [v])]), sr.fragment⟩ :=
    urlparseModel_eval hsr2 hpp2
  have hparse1 : parse_qs_strict (urlencodeModel (d ++ [(k, [v])])) =
      .ok (d ++ [(k, [v])]) := parse_qs_urlencode hdk1 hdv1
  have hget1 : get_query_parameters (urlunparseModel sr.scheme sr.netloc
      p1 p2 (urlencodeModel (d ++ [(k, [v])])) sr.fragment) =
      .ok (d ++ [(k, [v])]) := by
    rw [get_qp_eval hpr2]
    exact hparse1
  have hpop : dict_pop (d ++ [(k, [v])]) k = .ok d := dict_pop_append hk
  have hrem : remove_query_parameter (urlunparseModel sr.scheme sr.netloc
      p1 p2 (urlencodeModel (d ++ [(k, [v])])) sr.fragment) k =
      set_query_parameters (urlunparseModel sr.scheme sr.netloc p1 p2
        (urlencodeModel (d ++ [(k, [v])])) sr.fragment) d :=
    remove_qp_eval hget1 hpop
  have hr2eq : set_query_parameters (urlunparseModel sr.scheme sr.netloc
      p1 p2 (urlencodeModel (d ++ [(k, [v])])) sr.fragment) d =
      .ok (urlunparseModel sr.scheme sr.netloc q1 q2 (urlencodeModel d)
        sr.fragment) := set_qps_eval hpr2 d
  have hW2 : sr.netloc ≠ [] ∨ P2.take 2 ≠ pys "//" := by
    by_cases hN : sr.netloc = []
    · exact .inr (hP2W hN)
    · exact .inl hN
  obtain ⟨P3, _, hsp2⟩ := assembled_round hsr2 hW2 hpp2 d
  have hsr3 : urlsplitModel (urlunparseModel sr.scheme sr.netloc q1 q2
      (urlencodeModel d) sr.fragment) =
      .ok ⟨sr.scheme, sr.netloc, P3, urlencodeModel d, sr.fragment⟩ := hsp2
  obtain ⟨w1, w2, hpp3⟩ : ∃ a b,
      (if uses_params.contains sr.scheme && P3.contains ';' then
        splitparams P3 else (P3, [])) = (a, b) := ⟨_, _, rfl⟩
  have hpr3 : urlparseModel (urlunparseModel sr.scheme sr.netloc q1 q2
      (urlencodeModel d) sr.fragment) =
      .ok ⟨sr.scheme, sr.netloc, w1, w2, urlencodeModel d, sr.fragment⟩ :=
    urlparseModel_eval hsr3 hpp3
  have hfinal : get_query_parameters (urlunparseModel sr.scheme sr.netloc
      q1 q2 (urlencodeModel d) sr.fragment) = .ok d := by
    rw [get_qp_eval hpr3]
    exact parse_qs_urlencode hdk hdv
  exact ⟨_, _, hr1eq, hrem.trans hr2eq, hfinal⟩

theorem c7_round_trip_witness :
    ∃ r1 r2, set_query_parameter
        (pys "https://en.wikipedia.org/wiki/Earth?oldid=5")
        (pys "diff") (pys "0") = .ok r1 ∧
      remove_query_parameter r1 (pys "diff") = .ok r2 ∧
      get_query_parameters r2 = .ok [(pys "oldid", [pys "5"])] :=
  c7_round_trip _ _ _ _
    ⟨pys "https", pys "en.wikipedia.org", pys "/wiki/Earth",
      pys "oldid=5", []⟩
    (by rfl) (.inl (by decide)) (by rfl) (by decide) (by decide)

end Wiki
